import Mathlib

/-!
# arc-unpacker: archive table decoders, restricted unpickler, output sink

A shallow embedding of `src/formats/arc/rpa_archive.c`, `src/output_files.c` and
`src/fmt/nscripter/sar_archive.cc`, followed by theorems about them.

Conventions of the embedding

* a byte is a `Fin 256`; a C buffer is a `List Byte`;
* machine integers are `Nat`, reduced `% 2 ^ w` wherever the C type wraps;
* the ABI is the one the tool is built for: plain `char` is signed and
  `size_t` has 64 bits;
* a run that does not return (a failed `assert`, a write outside a block, a read
  of memory nothing ever filled) is an `Except.error` carrying a `Fault`.
-/

namespace ArcUnpacker

/-! ## Bytes and faults -/

abbrev Byte := Fin 256

abbrev Bytes := List Byte

/-- Ways in which a run stops without returning to its caller. -/
inductive Fault where
  /-- an `assert` of the source fails and the process aborts -/
  | assertion
  /-- an access lands outside the block `malloc` returned -/
  | memory
  /-- bytes that no read ever filled are used -/
  | uninit
  /-- a C++ stream primitive throws (read or seek past the end) -/
  | io_error
  /-- a signed integer operation overflows: the behaviour is undefined -/
  | overflow
  /-- the model's loop bound is exhausted; proved unreachable -/
  | fuel
deriving DecidableEq, Repr

instance instDecidableEqExcept {ε α : Type} [DecidableEq ε] [DecidableEq α] :
    DecidableEq (Except ε α)
  | .ok a, .ok b =>
    if h : a = b then isTrue (by rw [h]) else isFalse (by intro h2; cases h2; exact h rfl)
  | .error a, .error b =>
    if h : a = b then isTrue (by rw [h]) else isFalse (by intro h2; cases h2; exact h rfl)
  | .ok _, .error _ => isFalse (by intro h; cases h)
  | .error _, .ok _ => isFalse (by intro h; cases h)

/-- Width of `size_t` on the modelled ABI. -/
def SIZE_BITS : Nat := 64

/-- Largest request `malloc` can satisfy (`PTRDIFF_MAX`); larger ones yield `NULL`. -/
def MALLOC_MAX : Nat := 2 ^ 63 - 1

/-- Conversion of an unsigned byte value to plain (signed) `char`. -/
def char_of_u8 (v : Nat) : Int :=
  if v < 128 then (v : Int) else (v : Int) - 256

/-- Conversion of a signed value to `size_t`. -/
def size_t_of_int (i : Int) : Nat :=
  (i % (2 ^ SIZE_BITS : Int)).toNat

/-- Little-endian value of a run of bytes. -/
def le_value : Bytes → Nat
  | [] => 0
  | b :: rest => b.val + 256 * le_value rest

/-- Big-endian value of a run of bytes. -/
def be_value (bs : Bytes) : Nat :=
  bs.foldl (fun acc b => acc * 256 + b.val) 0

/-- A C string held in a buffer: the bytes before the first zero byte. -/
def c_string (buf : Bytes) : Bytes :=
  buf.takeWhile (fun b => b != 0)

/-! ## The byte stream of `io.h` -/

/-- Modelled from the spec: the byte stream of `io.h`, which is not under `src/`
("seekable, positional, explicit-endianness reads; size/tell/seek/skip").
A stream is its content and a cursor. -/
structure ByteStream where
  data : Bytes
  pos : Nat
deriving DecidableEq, Repr

/-- Modelled from the spec: `io_create_from_buffer`, a stream over a buffer with
the cursor at the start. -/
def io_create_from_buffer (buffer : Bytes) : ByteStream :=
  { data := buffer, pos := 0 }

/-- Modelled from the spec: `io_size`. -/
def io_size (s : ByteStream) : Nat := s.data.length

/-- Modelled from the spec: `io_tell`. -/
def io_tell (s : ByteStream) : Nat := s.pos

/-- Modelled from the spec: `io_seek`, an absolute seek. The source tests its
`bool` result; a seek past the end fails and leaves the cursor where it was. -/
def io_seek (s : ByteStream) (offset : Nat) : Bool × ByteStream :=
  if offset ≤ s.data.length then (true, { s with pos := offset }) else (false, s)

/-- Modelled from the spec: `io_skip`, a seek relative to the cursor. -/
def io_skip (s : ByteStream) (n : Nat) : Bool × ByteStream :=
  io_seek s (s.pos + n)

/-- Modelled from the spec: `io_read_string`, a read of `length` bytes into a
caller's buffer. The source tests its `bool` result: `none` stands for `false`,
in which case nothing is transferred and the cursor stays. -/
def io_read_string (s : ByteStream) (length : Nat) : Option Bytes × ByteStream :=
  if s.pos + length ≤ s.data.length then
    (some ((s.data.drop s.pos).take length), { s with pos := s.pos + length })
  else (none, s)

/-- Modelled from the spec: `io_read_u8`. A read at the end yields 0 and leaves
the cursor. -/
def io_read_u8 (s : ByteStream) : Nat × ByteStream :=
  match io_read_string s 1 with
  | (some bs, s1) => (le_value bs, s1)
  | (none, s1) => (0, s1)

/-- Modelled from the spec: `io_read_u16_le`. -/
def io_read_u16_le (s : ByteStream) : Nat × ByteStream :=
  match io_read_string s 2 with
  | (some bs, s1) => (le_value bs, s1)
  | (none, s1) => (0, s1)

/-- Modelled from the spec: `io_read_u32_le`. -/
def io_read_u32_le (s : ByteStream) : Nat × ByteStream :=
  match io_read_string s 4 with
  | (some bs, s1) => (le_value bs, s1)
  | (none, s1) => (0, s1)

/-- The cursor of `s2` is that of `s1` moved forward over the same content, and
it is inside the content when that of `s1` is. -/
def Forward (s1 s2 : ByteStream) : Prop :=
  s2.data = s1.data ∧ s1.pos ≤ s2.pos ∧ (s1.pos ≤ s1.data.length → s2.pos ≤ s2.data.length)

/-! ## `rpa_archive.c`: the restricted unpickler -/

def PICKLE_MARK : Nat := 0x28
def PICKLE_STOP : Nat := 0x2e
def PICKLE_BININT1 : Nat := 0x4b
def PICKLE_BININT2 : Nat := 0x4d
def PICKLE_BININT4 : Nat := 0x4a
def PICKLE_SHORT_BINSTRING : Nat := 0x55
def PICKLE_BINUNICODE : Nat := 0x58
def PICKLE_APPEND : Nat := 0x61
def PICKLE_EMPTY_DICT : Nat := 0x7d
def PICKLE_APPENDS : Nat := 0x65
def PICKLE_EMPTY_LIST : Nat := 0x5d
def PICKLE_BINPUT : Nat := 0x71
def PICKLE_LONG_BINPUT : Nat := 0x72
def PICKLE_SETITEMS : Nat := 0x75
def PICKLE_PROTO : Nat := 0x80
def PICKLE_TUPLE1 : Nat := 0x85
def PICKLE_TUPLE2 : Nat := 0x86
def PICKLE_TUPLE3 : Nat := 0x87
def PICKLE_LONG1 : Nat := 0x8a

/-- The three arrays of `RpaUnpickleContext`; `array_add` appends at the end.
A string is `none` when the read that should have filled its buffer failed. -/
structure RpaUnpickleContext where
  string_lengths : List Nat
  strings : List (Option Bytes)
  numbers : List Nat
deriving DecidableEq, Repr

def rpa_unpickle_handle_string (str : Option Bytes) (str_size : Nat)
    (context : RpaUnpickleContext) : RpaUnpickleContext :=
  { context with
    strings := context.strings ++ [str]
    string_lengths := context.string_lengths ++ [str_size] }

def rpa_unpickle_handle_number (number : Nat) (context : RpaUnpickleContext) :
    RpaUnpickleContext :=
  { context with numbers := context.numbers ++ [number] }

/-- `rpa_unpickle_read_string`: `malloc (str_size + 1)` in `size_t` arithmetic,
`assert (str != NULL)`, the read (its result is not tested), then the
terminator written at index `str_size`. -/
def rpa_unpickle_read_string (table_io : ByteStream) (str_size : Nat) :
    Except Fault (Option Bytes × ByteStream) :=
  if MALLOC_MAX < (str_size + 1) % 2 ^ SIZE_BITS then .error .assertion
  else if (str_size + 1) % 2 ^ SIZE_BITS ≤ str_size then .error .memory
  else .ok (io_read_string table_io str_size)

/-- The loop of `PICKLE_LONG1`: byte `pos + length - 1 - i` is read at step `i`
into a `uint32_t` accumulator. -/
def rpa_unpickle_long1 (pos length : Nat) (table_io : ByteStream) : Nat × ByteStream :=
  (List.range length).foldl
    (fun (acc : Nat × ByteStream) i =>
      (((acc.1 * 256) % 2 ^ 32 + (io_read_u8 (io_seek acc.2 (pos + length - 1 - i)).2).1) % 2 ^ 32,
        (io_read_u8 (io_seek acc.2 (pos + length - 1 - i)).2).2))
    (0, table_io)

/-- The `switch (c)` of `rpa_unpickle`, entered with the opcode byte `c` already
read. `none` means `break` (the loop goes on), `some b` means `return b`. -/
def rpa_unpickle_switch (c : Nat) (s : ByteStream) (context : RpaUnpickleContext) :
    Except Fault (Option Bool × ByteStream × RpaUnpickleContext) :=
  if c = PICKLE_SHORT_BINSTRING then
    match rpa_unpickle_read_string (io_read_u8 s).2
        (size_t_of_int (char_of_u8 (io_read_u8 s).1)) with
    | .error f => .error f
    | .ok (str, s2) =>
      .ok (none, s2,
        rpa_unpickle_handle_string str (size_t_of_int (char_of_u8 (io_read_u8 s).1)) context)
  else if c = PICKLE_BINUNICODE then
    match rpa_unpickle_read_string (io_read_u32_le s).2 (io_read_u32_le s).1 with
    | .error f => .error f
    | .ok (str, s2) =>
      .ok (none, s2, rpa_unpickle_handle_string str (io_read_u32_le s).1 context)
  else if c = PICKLE_BININT1 then
    .ok (none, (io_read_u8 s).2, rpa_unpickle_handle_number (io_read_u8 s).1 context)
  else if c = PICKLE_BININT2 then
    .ok (none, (io_read_u16_le s).2, rpa_unpickle_handle_number (io_read_u16_le s).1 context)
  else if c = PICKLE_BININT4 then
    .ok (none, (io_read_u32_le s).2, rpa_unpickle_handle_number (io_read_u32_le s).1 context)
  else if c = PICKLE_LONG1 then
    .ok (none,
      (io_seek (rpa_unpickle_long1 (io_tell (io_read_u8 s).2) (io_read_u8 s).1 (io_read_u8 s).2).2
        (io_tell (io_read_u8 s).2 + (io_read_u8 s).1)).2,
      rpa_unpickle_handle_number
        (rpa_unpickle_long1 (io_tell (io_read_u8 s).2) (io_read_u8 s).1 (io_read_u8 s).2).1
        context)
  else if c = PICKLE_PROTO then
    .ok (none, (io_skip s 1).2, context)
  else if c = PICKLE_BINPUT then
    .ok (none, (io_skip s 1).2, context)
  else if c = PICKLE_LONG_BINPUT then
    .ok (none, (io_skip s 4).2, context)
  else if c = PICKLE_APPEND ∨ c = PICKLE_SETITEMS ∨ c = PICKLE_MARK
      ∨ c = PICKLE_EMPTY_LIST ∨ c = PICKLE_EMPTY_DICT
      ∨ c = PICKLE_TUPLE1 ∨ c = PICKLE_TUPLE2 ∨ c = PICKLE_TUPLE3 then
    .ok (none, s, context)
  else if c = PICKLE_STOP then
    .ok (some true, s, context)
  else
    .ok (some false, s, context)

/-- One pass through the body of the `while` loop of `rpa_unpickle`:
`unsigned char c = io_read_u8 (table_io)`, then the `switch`. -/
def rpa_unpickle_body (table_io : ByteStream) (context : RpaUnpickleContext) :
    Except Fault (Option Bool × ByteStream × RpaUnpickleContext) :=
  rpa_unpickle_switch (io_read_u8 table_io).1 (io_read_u8 table_io).2 context

/-- The `while (io_tell (table_io) < table_size)` loop of `rpa_unpickle`, bounded
by a number of passes; leaving the loop at its condition is `return false`. -/
def rpa_unpickle_loop : Nat → ByteStream → RpaUnpickleContext →
    Except Fault (Bool × ByteStream × RpaUnpickleContext)
  | 0, _, _ => .error .fuel
  | fuel + 1, table_io, context =>
    if io_tell table_io < io_size table_io then
      match rpa_unpickle_body table_io context with
      | .error f => .error f
      | .ok (some b, s, ctx) => .ok (b, s, ctx)
      | .ok (none, s, ctx) => rpa_unpickle_loop fuel s ctx
    else .ok (false, table_io, context)

/-- `rpa_unpickle`: every pass moves the cursor forward, so `table_size + 1`
passes are enough (`rpa_unpickle_total`). -/
def rpa_unpickle (table_io : ByteStream) (context : RpaUnpickleContext) :
    Except Fault (Bool × ByteStream × RpaUnpickleContext) :=
  rpa_unpickle_loop (io_size table_io + 1) table_io context

/-- The structural markers: the bytes that share the empty `case` of the
`switch` of `rpa_unpickle`. -/
def rpa_opcode_structural (c : Nat) : Prop :=
  c = PICKLE_APPEND ∨ c = PICKLE_SETITEMS ∨ c = PICKLE_MARK
    ∨ c = PICKLE_EMPTY_LIST ∨ c = PICKLE_EMPTY_DICT
    ∨ c = PICKLE_TUPLE1 ∨ c = PICKLE_TUPLE2 ∨ c = PICKLE_TUPLE3

/-- The defined opcode set: the bytes the `switch` of `rpa_unpickle` has a
`case` for. -/
def rpa_opcode_supported (c : Nat) : Prop :=
  c = PICKLE_SHORT_BINSTRING ∨ c = PICKLE_BINUNICODE ∨ c = PICKLE_BININT1
    ∨ c = PICKLE_BININT2 ∨ c = PICKLE_BININT4 ∨ c = PICKLE_LONG1 ∨ c = PICKLE_PROTO
    ∨ c = PICKLE_BINPUT ∨ c = PICKLE_LONG_BINPUT ∨ rpa_opcode_structural c ∨ c = PICKLE_STOP

instance (c : Nat) : Decidable (rpa_opcode_structural c) := by
  unfold rpa_opcode_structural; infer_instance

instance (c : Nat) : Decidable (rpa_opcode_supported c) := by
  unfold rpa_opcode_supported; infer_instance

/-- The state of `rpa_unpickle` after `n` passes through its loop that all ended
in `break`: `n` opcodes other than the stop marker were read at the opcode
positions and none was refused. `none` when the run does not get that far. -/
def rpa_unpickle_passes :
    Nat → ByteStream → RpaUnpickleContext → Option (ByteStream × RpaUnpickleContext)
  | 0, table_io, context => some (table_io, context)
  | n + 1, table_io, context =>
    if io_tell table_io < io_size table_io then
      match rpa_unpickle_body table_io context with
      | .ok (none, s, ctx) => rpa_unpickle_passes n s ctx
      | _ => none
    else none

/-- What the arrays of the context satisfy at every point of a run: every
string has a recorded length, which is the length of its content when the
content was read, and every number fits 32 bits. -/
def RpaUnpickleContext.consistent (context : RpaUnpickleContext) : Prop :=
  context.string_lengths.length = context.strings.length
    ∧ (∀ n ∈ context.numbers, n < 2 ^ 32)
    ∧ ∀ p ∈ context.strings.zip context.string_lengths,
        ∀ str, p.1 = some str → p.2 = str.length

/-! ## `rpa_archive.c`: table decoding -/

/-- `RpaTableEntry`. `name` and `prefix_data` (the source's `prefix`) are the
buffers the unpickler filled, without their terminator. -/
structure RpaTableEntry where
  name : Option Bytes
  offset : Nat
  size : Nat
  prefix_data : Option Bytes
  prefix_size : Nat
deriving DecidableEq, Repr

/-- The assembly loop of `rpa_decode_table` (lines 249-260) for entry `i`;
`array_get` is list indexing and the casts to `uint32_t` are `% 2 ^ 32`. -/
def rpa_decode_entry (context : RpaUnpickleContext) (key : Nat) (i : Nat) : RpaTableEntry :=
  { name := (context.strings.getD (i * 2) none)
    prefix_data := (context.strings.getD (i * 2 + 1) none)
    prefix_size := context.string_lengths.getD (i * 2 + 1) 0
    offset := (context.numbers.getD (i * 2) 0 % 2 ^ 32) ^^^ (key % 2 ^ 32)
    size := (context.numbers.getD (i * 2 + 1) 0 % 2 ^ 32) ^^^ (key % 2 ^ 32) }

/-- `rpa_decode_table`: the result of `rpa_unpickle` is not looked at, the two
`assert`s guard the counts, and `*file_count` is the length of the list
returned. -/
def rpa_decode_table (table : Bytes) (key : Nat) : Except Fault (List RpaTableEntry) :=
  let context : RpaUnpickleContext := { strings := [], string_lengths := [], numbers := [] }
  let table_io := io_create_from_buffer table
  match rpa_unpickle table_io context with
  | .error f => .error f
  | .ok (_, _, context) =>
    if context.strings.length % 2 ≠ 0 then .error .assertion
    else
      let file_count := context.strings.length / 2
      if context.numbers.length ≠ context.strings.length then .error .assertion
      else .ok ((List.range file_count).map (rpa_decode_entry context key))

/-! ## `rpa_archive.c`: header -/

/-- The text "RPA-3.0 ". -/
def rpa_magic_3 : Bytes := [0x52, 0x50, 0x41, 0x2d, 0x33, 0x2e, 0x30, 0x20]

/-- The text "RPA-2.0 ". -/
def rpa_magic_2 : Bytes := [0x52, 0x50, 0x41, 0x2d, 0x32, 0x2e, 0x30, 0x20]

/-- `rpa_check_version`. When the 8-byte read fails `magic` was never filled. -/
def rpa_check_version (arc_io : ByteStream) : Except Fault (Int × ByteStream) :=
  match io_read_string arc_io 8 with
  | (none, _) => .error .uninit
  | (some magic, s) =>
    if rpa_magic_2 = magic then .ok (2, s)
    else if rpa_magic_3 = magic then .ok (3, s)
    else .ok (-1, s)

/-- One turn of the loop of `rpa_read_hex_number`: `char c`, `uint32_t result`. -/
def rpa_read_hex_digit (acc : Nat × ByteStream) : Nat × ByteStream :=
  let r := io_read_u8 acc.2
  let c := char_of_u8 r.1
  let result := (acc.1 * 16) % 2 ^ 32
  if 0x41 ≤ c ∧ c ≤ 0x46 then ((result + (c + 10 - 0x41).toNat) % 2 ^ 32, r.2)
  else if 0x61 ≤ c ∧ c ≤ 0x66 then ((result + (c + 10 - 0x61).toNat) % 2 ^ 32, r.2)
  else if 0x30 ≤ c ∧ c ≤ 0x39 then ((result + (c - 0x30).toNat) % 2 ^ 32, r.2)
  else (result, r.2)

/-- `rpa_read_hex_number`. -/
def rpa_read_hex_number (arc_io : ByteStream) (length : Nat) : Nat × ByteStream :=
  (List.range length).foldl (fun acc _ => rpa_read_hex_digit acc) (0, arc_io)

/-- What the sources call in their environment and do not define: the zlib
binding and the file system. -/
structure Host where
  /-- `zlib_inflate`; `none` is failure -/
  zlib_inflate : Bytes → Option Bytes
  /-- `dirname` of `fs.h` -/
  dirname : Bytes → Bytes
  /-- `mkpath` of `fs.h` -/
  mkpath : Bytes → Bool
  /-- whether `io_create_from_file (path, "wb")` opens the file -/
  io_create_from_file : Bytes → Bool

/-- `rpa_read_raw_table`: all bytes from the cursor to the end are read (a failed
read is `assert (0)`) and inflated; `none` is `return false`. -/
def rpa_read_raw_table (host : Host) (arc_io : ByteStream) :
    Except Fault (Option Bytes × ByteStream) :=
  let compressed_size := io_size arc_io - io_tell arc_io
  match io_read_string arc_io compressed_size with
  | (none, _) => .error .assertion
  | (some compressed, s) => .ok (host.zlib_inflate compressed, s)

/-! ## Virtual files and `rpa_read_file` -/

/-- Modelled from the spec: `VirtualFile` ("name: string + owned byte content");
`content` is what has been written to `file->io`. -/
structure VirtualFile where
  name : Bytes
  content : Bytes
deriving DecidableEq, Repr

/-- `RpaUnpackContext`. -/
structure RpaUnpackContext where
  arc_io : ByteStream
  table_entry : RpaTableEntry
deriving DecidableEq, Repr

/-- `rpa_read_file`. Every failure is an `assert`, so a file is always returned
when the function returns. `io_write_string` copies `prefix_size` bytes out of
the prefix buffer (its content and the terminator); `virtual_file_set_name`
takes the name as a C string. -/
def rpa_read_file (context : RpaUnpackContext) :
    Except Fault (Option VirtualFile × RpaUnpackContext) :=
  let entry := context.table_entry
  let r := io_seek context.arc_io entry.offset
  if r.1 = false then .error .assertion
  else if ¬ (entry.offset < io_size r.2) then .error .assertion
  else
    match entry.prefix_data with
    | none => .error .uninit
    | some buf =>
      if buf.length + 1 < entry.prefix_size then .error .memory
      else
        match io_read_string r.2 entry.size with
        | (none, _) => .error .assertion
        | (some body, s) =>
          match entry.name with
          | none => .error .uninit
          | some name =>
            .ok (some { name := c_string name
                        content := (buf ++ [0]).take entry.prefix_size ++ body },
                 { context with arc_io := s })

/-! ## `output_files.c` -/

/-- The routine stored in the `save` field of `OutputFiles`. -/
inductive SaveRoutine where
  | save_to_hdd
  | save_to_memory
deriving DecidableEq, Repr

/-- `OutputFiles`. `written` stands for the effect of the persisted sink on the
file system: the paths opened for writing with the bytes copied to them, in
order. -/
structure OutputFiles where
  output_dir : Option Bytes
  save : SaveRoutine
  memory : Bool
  files : List VirtualFile
  written : List (Bytes × Bytes)
deriving DecidableEq, Repr

def output_files_create_hdd (output_dir : Option Bytes) : OutputFiles :=
  { output_dir := output_dir, memory := false, files := [], save := .save_to_hdd
    written := [] }

def output_files_create_memory : OutputFiles :=
  { output_dir := none, memory := true, files := [], save := .save_to_memory
    written := [] }

/-- `get_full_path`. -/
def get_full_path (output_files : OutputFiles) (file_name : Bytes) : Except Fault Bytes :=
  if file_name = [] then .error .assertion
  else
    match output_files.output_dir with
    | none => .ok file_name
    | some dir => .ok (dir ++ [0x2f] ++ file_name)

/-- `save_to_hdd`. The first component is the `bool` returned; it is `none` on
the paths that leave `result` unset. -/
def save_to_hdd {σ : Type} (host : Host) (output_files : OutputFiles)
    (save_proc : σ → Except Fault (Option VirtualFile × σ)) (context : σ) :
    Except Fault (Option Bool × OutputFiles × σ) :=
  if output_files.memory then .error .assertion
  else
    match save_proc context with
    | .error f => .error f
    | .ok (none, ctx) => .ok (none, output_files, ctx)
    | .ok (some file, ctx) =>
      match get_full_path output_files file.name with
      | .error f => .error f
      | .ok full_path =>
        if host.mkpath (host.dirname full_path) = false then .error .assertion
        else if host.io_create_from_file full_path = false then .ok (none, output_files, ctx)
        else
          .ok (some true,
               { output_files with
                 written := output_files.written ++ [(full_path, file.content)] },
               ctx)

/-- `save_to_memory`. -/
def save_to_memory {σ : Type} (output_files : OutputFiles)
    (save_proc : σ → Except Fault (Option VirtualFile × σ)) (context : σ) :
    Except Fault (Option Bool × OutputFiles × σ) :=
  if output_files.memory = false then .error .assertion
  else
    match save_proc context with
    | .error f => .error f
    | .ok (none, ctx) => .ok (some false, output_files, ctx)
    | .ok (some file, ctx) =>
      .ok (some true, { output_files with files := output_files.files ++ [file] }, ctx)

/-- `output_files_save`. -/
def output_files_save {σ : Type} (host : Host) (output_files : OutputFiles)
    (save_proc : σ → Except Fault (Option VirtualFile × σ)) (context : σ) :
    Except Fault (Option Bool × OutputFiles × σ) :=
  match output_files.save with
  | .save_to_hdd => save_to_hdd host output_files save_proc context
  | .save_to_memory => save_to_memory output_files save_proc context

/-- `output_files_get_saved`. -/
def output_files_get_saved (output_files : OutputFiles) : Except Fault (List VirtualFile) :=
  if output_files.memory = false then .error .assertion else .ok output_files.files

/-! ## `rpa_unpack` -/

/-- Lines 359-378 of `rpa_unpack`: the version and the header fields.
`none` is the `return false` of "Not a RPA archive"; otherwise the table
offset, the key and the stream after the header. -/
def rpa_unpack_header (arc_io : ByteStream) :
    Except Fault (Option (Nat × Nat) × ByteStream) :=
  match rpa_check_version arc_io with
  | .error f => .error f
  | .ok (version, s) =>
    if version = 3 then
      let t := rpa_read_hex_number s 16
      let s1 := (io_skip t.2 1).2
      let k := rpa_read_hex_number s1 8
      .ok (some (t.1, k.1), k.2)
    else if version = 2 then
      let t := rpa_read_hex_number s 16
      .ok (some (t.1, 0), t.2)
    else .ok (none, s)

/-- Lines 402-414 of `rpa_unpack`: every entry of the table is handed to
`output_files_save` with `rpa_read_file`; the result of the call is dropped. -/
def rpa_unpack_files (host : Host) :
    List RpaTableEntry → ByteStream → OutputFiles → Except Fault (ByteStream × OutputFiles)
  | [], arc_io, output_files => .ok (arc_io, output_files)
  | entry :: rest, arc_io, output_files =>
    match output_files_save host output_files rpa_read_file
        { arc_io := arc_io, table_entry := entry } with
    | .error f => .error f
    | .ok (_, out, ctx) => rpa_unpack_files host rest ctx.arc_io out

/-- `rpa_unpack`. -/
def rpa_unpack (host : Host) (arc_io : ByteStream) (output_files : OutputFiles) :
    Except Fault (Bool × ByteStream × OutputFiles) :=
  match rpa_unpack_header arc_io with
  | .error f => .error f
  | .ok (none, s) => .ok (false, s, output_files)
  | .ok (some (table_offset, key), s) =>
    let r := io_seek s table_offset
    if r.1 = false then .ok (false, r.2, output_files)
    else
      match rpa_read_raw_table host r.2 with
      | .error f => .error f
      | .ok (none, s2) => .ok (false, s2, output_files)
      | .ok (some table, s2) =>
        match rpa_decode_table table key with
        | .error f => .error f
        | .ok entries =>
          match rpa_unpack_files host entries s2 output_files with
          | .error f => .error f
          | .ok (s3, out) => .ok (true, s3, out)

/-! ## `sar_archive.cc` -/

namespace SarArchive

/-- Modelled from the spec: a read of `n` bytes from the C++ `io::IO`, which is
not under `src/`; a read past the end throws. -/
def read_bytes (arc_io : ByteStream) (n : Nat) : Except Fault (Bytes × ByteStream) :=
  match io_read_string arc_io n with
  | (some bs, s) => .ok (bs, s)
  | (none, _) => .error .io_error

/-- Modelled from the spec: `read_u16_be`. -/
def read_u16_be (arc_io : ByteStream) : Except Fault (Nat × ByteStream) :=
  match read_bytes arc_io 2 with
  | .ok (bs, s) => .ok (be_value bs, s)
  | .error f => .error f

/-- Modelled from the spec: `read_u32_be`. -/
def read_u32_be (arc_io : ByteStream) : Except Fault (Nat × ByteStream) :=
  match read_bytes arc_io 4 with
  | .ok (bs, s) => .ok (be_value bs, s)
  | .error f => .error f

/-- Modelled from the spec: `read_to_zero`, the bytes up to the next zero byte,
which is consumed and not returned; it throws when there is none. -/
def read_to_zero (arc_io : ByteStream) : Except Fault (Bytes × ByteStream) :=
  let rest := arc_io.data.drop arc_io.pos
  let str := c_string rest
  if str.length < rest.length then
    .ok (str, { arc_io with pos := arc_io.pos + str.length + 1 })
  else .error .io_error

/-- Modelled from the spec: `seek`, absolute; a seek past the end throws. -/
def seek (arc_io : ByteStream) (offset : Nat) : Except Fault ByteStream :=
  match io_seek arc_io offset with
  | (true, s) => .ok s
  | (false, _) => .error .io_error

/-- `TableEntry`: `offset` and `size` are `u32`. -/
structure TableEntry where
  name : Bytes
  offset : Nat
  size : Nat
deriving DecidableEq, Repr

/-- Modelled from the spec: `File`, a name and the content of its `io`. -/
structure File where
  name : Bytes
  content : Bytes
deriving DecidableEq, Repr

/-- The `for` loop of `read_table`, with the number of entries left to read;
the sum of the two `u32` wraps. -/
def read_entries (offset_to_files : Nat) :
    Nat → ByteStream → Except Fault (List TableEntry × ByteStream)
  | 0, arc_io => .ok ([], arc_io)
  | n + 1, arc_io =>
    match read_to_zero arc_io with
    | .error f => .error f
    | .ok (name, s1) =>
      match read_u32_be s1 with
      | .error f => .error f
      | .ok (rel, s2) =>
        match read_u32_be s2 with
        | .error f => .error f
        | .ok (size, s3) =>
          match read_entries offset_to_files n s3 with
          | .error f => .error f
          | .ok (table, s4) =>
            .ok ({ name := name, offset := (rel + offset_to_files) % 2 ^ 32, size := size }
                  :: table, s4)

/-- `read_table`. -/
def read_table (arc_io : ByteStream) : Except Fault (List TableEntry × ByteStream) :=
  match read_u16_be arc_io with
  | .error f => .error f
  | .ok (file_count, s1) =>
    match read_u32_be s1 with
    | .error f => .error f
    | .ok (offset_to_files, s2) => read_entries offset_to_files file_count s2

/-- `read_file`. -/
def read_file (arc_io : ByteStream) (entry : TableEntry) : Except Fault (File × ByteStream) :=
  match seek arc_io entry.offset with
  | .error f => .error f
  | .ok s =>
    match read_bytes s entry.size with
    | .error f => .error f
    | .ok (content, s1) => .ok ({ name := entry.name, content := content }, s1)

/-- The `for` loop of `unpack_internal`. Modelled from the spec: the
`FileSaver`, which is not under `src/`, is the list of the files handed to
`save`, in order. -/
def save_entries : List TableEntry → ByteStream → List File →
    Except Fault (List File × ByteStream)
  | [], arc_io, file_saver => .ok (file_saver, arc_io)
  | entry :: table, arc_io, file_saver =>
    match read_file arc_io entry with
    | .error f => .error f
    | .ok (file, s) => save_entries table s (file_saver ++ [file])

/-- `SarArchive::unpack_internal`. -/
def unpack_internal (arc_io : ByteStream) (file_saver : List File) :
    Except Fault (List File × ByteStream) :=
  match read_table arc_io with
  | .error f => .error f
  | .ok (table, s) => save_entries table s file_saver

end SarArchive

/-! ## Encoders used to state the round trips -/

/-- The byte with value `n % 256`. -/
def u8 (n : Nat) : Byte := ⟨n % 256, Nat.mod_lt _ (by decide)⟩

/-- Four bytes, little-endian. -/
def u32_le (n : Nat) : Bytes := [u8 n, u8 (n / 2 ^ 8), u8 (n / 2 ^ 16), u8 (n / 2 ^ 24)]

/-- Two bytes, little-endian. -/
def u16_le (n : Nat) : Bytes := [u8 n, u8 (n / 2 ^ 8)]

/-- Four bytes, big-endian. -/
def u32_be (n : Nat) : Bytes := [u8 (n / 2 ^ 24), u8 (n / 2 ^ 16), u8 (n / 2 ^ 8), u8 n]

/-- Two bytes, big-endian. -/
def u16_be (n : Nat) : Bytes := [u8 (n / 2 ^ 8), u8 n]

/-- The opcodes `rpa_unpickle` goes past, with their operands. -/
inductive PickleOp where
  | short_binstring (str : Bytes)
  | binunicode (str : Bytes)
  | binint1 (n : Nat)
  | binint2 (n : Nat)
  | binint4 (n : Nat)
  | long1 (digits : Bytes)
  | proto (version : Byte)
  | binput (index : Byte)
  | long_binput (index : Nat)
  | structural (c : Byte)
deriving DecidableEq, Repr

/-- The bytes of an opcode with complete operands. -/
def PickleOp.encode : PickleOp → Bytes
  | .short_binstring str => u8 PICKLE_SHORT_BINSTRING :: u8 str.length :: str
  | .binunicode str => u8 PICKLE_BINUNICODE :: (u32_le str.length ++ str)
  | .binint1 n => [u8 PICKLE_BININT1, u8 n]
  | .binint2 n => u8 PICKLE_BININT2 :: u16_le n
  | .binint4 n => u8 PICKLE_BININT4 :: u32_le n
  | .long1 digits => u8 PICKLE_LONG1 :: u8 digits.length :: digits
  | .proto version => [u8 PICKLE_PROTO, version]
  | .binput index => [u8 PICKLE_BINPUT, index]
  | .long_binput index => u8 PICKLE_LONG_BINPUT :: u32_le index
  | .structural c => [c]

/-- The operands an opcode can carry: lengths and values fit their field, a
short string is shorter than 128 bytes (its length goes through a `char`), and
a structural marker is one of the eight bytes the `switch` lets through. -/
def PickleOp.valid : PickleOp → Prop
  | .short_binstring str => str.length < 128
  | .binunicode str => str.length < 2 ^ 32
  | .binint1 n => n < 2 ^ 8
  | .binint2 n => n < 2 ^ 16
  | .binint4 n => n < 2 ^ 32
  | .long1 digits => digits.length < 2 ^ 8
  | .proto _ => True
  | .binput _ => True
  | .long_binput index => index < 2 ^ 32
  | .structural c => rpa_opcode_structural c.val

instance (op : PickleOp) : Decidable op.valid := by
  cases op <;> unfold PickleOp.valid <;> infer_instance

/-- What an opcode appends to the arrays of the context. -/
def PickleOp.push (context : RpaUnpickleContext) : PickleOp → RpaUnpickleContext
  | .short_binstring str => rpa_unpickle_handle_string (some str) str.length context
  | .binunicode str => rpa_unpickle_handle_string (some str) str.length context
  | .binint1 n => rpa_unpickle_handle_number n context
  | .binint2 n => rpa_unpickle_handle_number n context
  | .binint4 n => rpa_unpickle_handle_number n context
  | .long1 digits => rpa_unpickle_handle_number (le_value digits % 2 ^ 32) context
  | .proto _ => context
  | .binput _ => context
  | .long_binput _ => context
  | .structural _ => context

/-- The bytes of a sequence of opcodes. -/
def encode_ops : List PickleOp → Bytes
  | [] => []
  | op :: ops => op.encode ++ encode_ops ops

/-- One row of the table of an RPA archive. -/
structure RpaQuad where
  name : Bytes
  prefix_data : Bytes
  offset : Nat
  size : Nat
deriving DecidableEq, Repr

/-- The four opcodes of a row: two long strings, two 4-byte integers. -/
def RpaQuad.ops (key : Nat) (q : RpaQuad) : List PickleOp :=
  [.binunicode q.name, .binunicode q.prefix_data,
   .binint4 (q.offset ^^^ key), .binint4 (q.size ^^^ key)]

/-- The opcodes of the rows, in order. -/
def rpa_table_ops (key : Nat) : List RpaQuad → List PickleOp
  | [] => []
  | q :: rows => q.ops key ++ rpa_table_ops key rows

/-- The payload of the round trip: the rows in order, then the stop marker. -/
def rpa_encode_table (key : Nat) (rows : List RpaQuad) : Bytes :=
  encode_ops (rpa_table_ops key rows) ++ [u8 PICKLE_STOP]

/-- The entry a row is decoded to. -/
def RpaQuad.entry (q : RpaQuad) : RpaTableEntry :=
  { name := some q.name, prefix_data := some q.prefix_data
    prefix_size := q.prefix_data.length, offset := q.offset, size := q.size }

/-- The strings the rows of a table push, in order. -/
def rpa_rows_strings : List RpaQuad → List (Option Bytes)
  | [] => []
  | q :: rows => some q.name :: some q.prefix_data :: rpa_rows_strings rows

/-- The string lengths the rows of a table push, in order. -/
def rpa_rows_lengths : List RpaQuad → List Nat
  | [] => []
  | q :: rows => q.name.length :: q.prefix_data.length :: rpa_rows_lengths rows

/-- The numbers the rows of a table push, in order. -/
def rpa_rows_numbers (key : Nat) : List RpaQuad → List Nat
  | [] => []
  | q :: rows => (q.offset ^^^ key) :: (q.size ^^^ key) :: rpa_rows_numbers key rows

/-- The fields of a row fit the 4-byte fields that encode them. -/
def RpaQuad.fits (q : RpaQuad) : Prop :=
  q.name.length < 2 ^ 32 ∧ q.prefix_data.length < 2 ^ 32 ∧ q.offset < 2 ^ 32 ∧ q.size < 2 ^ 32

instance (q : RpaQuad) : Decidable q.fits := by
  unfold RpaQuad.fits; infer_instance

/-- A host whose zlib binding inflates whatever it is given to `table`, and
whose file system lets every directory and file be created. -/
def host_inflating (table : Bytes) : Host :=
  { zlib_inflate := fun _ => some table
    dirname := fun path => path
    mkpath := fun _ => true
    io_create_from_file := fun _ => true }

/-- A table payload with one complete row (name "a", prefix "p", offset 5,
size 3) followed by the byte 0xff, which is no opcode, and no stop marker. -/
def rpa_table_bad_opcode : Bytes :=
  [0x58, 1, 0, 0, 0, 0x61, 0x58, 1, 0, 0, 0, 0x70, 0x4a, 5, 0, 0, 0, 0x4a, 3, 0, 0, 0, 0xff]

/-- The same row with nothing after it: the payload ends without a stop marker. -/
def rpa_table_no_stop : Bytes :=
  [0x58, 1, 0, 0, 0, 0x61, 0x58, 1, 0, 0, 0, 0x70, 0x4a, 5, 0, 0, 0, 0x4a, 3, 0, 0, 0]

/-- A sub-version 2 archive: "RPA-2.0 ", the table offset "0000000000000018"
and two bytes standing for the compressed table at offset 0x18. -/
def rpa_archive_v2 : Bytes :=
  rpa_magic_2 ++
    [0x30, 0x30, 0x30, 0x30, 0x30, 0x30, 0x30, 0x30, 0x30, 0x30, 0x30, 0x30, 0x30, 0x30,
      0x31, 0x38, 0x78, 0x9c]

/-- A table of two rows: "a" at offset 100 with size 1, "b" at offset 5 with
size 3, no prefixes, key 0. -/
def rpa_table_two_rows : Bytes :=
  rpa_encode_table 0 [⟨[0x61], [], 100, 1⟩, ⟨[0x62], [], 5, 3⟩]

/-- One member of a SAR archive as the round trip states it: its name, its
offset relative to the base offset of the header, and its content. -/
structure SarItem where
  name : Bytes
  rel : Nat
  content : Bytes
deriving DecidableEq, Repr

/-- The table rows of a SAR archive: per member the zero-terminated name, the
relative offset and the size, both 32-bit big-endian. -/
def sar_entries : List SarItem → Bytes
  | [] => []
  | it :: rest =>
    it.name ++ 0 :: (u32_be it.rel ++ (u32_be it.content.length ++ sar_entries rest))

/-- The header and table of a SAR archive: the 16-bit big-endian count, the
32-bit big-endian base offset, then the rows. -/
def sar_table (base : Nat) (items : List SarItem) : Bytes :=
  u16_be items.length ++ (u32_be base ++ sar_entries items)

/-- The content of a member is stored in the archive at base + relative offset. -/
def SarItem.stored (archive : Bytes) (base : Nat) (it : SarItem) : Prop :=
  base + it.rel + it.content.length ≤ archive.length
    ∧ (archive.drop (base + it.rel)).take it.content.length = it.content

instance SarItem.instDecidableStored (archive : Bytes) (base : Nat) (it : SarItem) :
    Decidable (it.stored archive base) := by
  unfold SarItem.stored
  infer_instance

/-- The table entry `read_table` makes of a member. -/
def SarItem.entry (base : Nat) (it : SarItem) : SarArchive.TableEntry :=
  { name := it.name, offset := (it.rel + base) % 2 ^ 32, size := it.content.length }

/-- The file a member is expected to be unpacked to. -/
def SarItem.file (it : SarItem) : SarArchive.File :=
  { name := it.name, content := it.content }

/-- A member "a" with the one content byte 7, at relative offset `2 ^ 32 - 1`. -/
def sar_far_item : SarItem := { name := [0x61], rel := 2 ^ 32 - 1, content := [7] }

/-- An archive of `2 ^ 32 + 16` bytes: the 16 bytes of the header and table of
`sar_far_item` with base offset 16, zero bytes, and the content byte 7 at
position `16 + (2 ^ 32 - 1)`. -/
def sar_far_archive : Bytes :=
  sar_table 16 [sar_far_item] ++ (List.replicate (2 ^ 32 - 1) 0 ++ [7])

/-- Two members "a" and "b" with contents 1 2 3 and 9, stored back to back. -/
def sar_two_items : List SarItem :=
  [{ name := [0x61], rel := 0, content := [1, 2, 3] },
   { name := [0x62], rel := 3, content := [9] }]

/-! ## Hex text, as the header fields are described -/

/-- The value of an ASCII hex digit, upper or lower case; `none` for every
other byte. -/
def hex_digit_value (b : Byte) : Option Nat :=
  if 0x30 ≤ b.val ∧ b.val ≤ 0x39 then some (b.val - 0x30)
  else if 0x41 ≤ b.val ∧ b.val ≤ 0x46 then some (b.val - 0x41 + 10)
  else if 0x61 ≤ b.val ∧ b.val ≤ 0x66 then some (b.val - 0x61 + 10)
  else none

/-- The number a text of hex digits denotes in base 16, most significant digit
first. -/
def hex_number (text : Bytes) : Nat :=
  text.foldl (fun acc b => acc * 16 + (hex_digit_value b).getD 0) 0

/-- The 16 digits "0000000100000000", which denote `2 ^ 32`. -/
def rpa_hex_text_2_32 : Bytes :=
  [0x30, 0x30, 0x30, 0x30, 0x30, 0x30, 0x30, 0x31, 0x30, 0x30, 0x30, 0x30, 0x30, 0x30, 0x30, 0x30]

/-- The 16 digits "00000000000000aF", which denote 175. -/
def rpa_hex_text_af : Bytes :=
  [0x30, 0x30, 0x30, 0x30, 0x30, 0x30, 0x30, 0x30, 0x30, 0x30, 0x30, 0x30, 0x30, 0x30, 0x61, 0x46]

/-! ## A run of deposits -/

/-- A sequence of `output_files_save` calls on one sink, each with its own
producer; the context is handed from call to call. The `bool` results are
collected in call order. -/
def output_files_save_all {σ : Type} (host : Host) :
    List (σ → Except Fault (Option VirtualFile × σ)) → OutputFiles → σ →
    Except Fault (List (Option Bool) × OutputFiles × σ)
  | [], output_files, context => .ok ([], output_files, context)
  | save_proc :: rest, output_files, context =>
    match output_files_save host output_files save_proc context with
    | .error f => .error f
    | .ok (result, out, ctx) =>
      match output_files_save_all host rest out ctx with
      | .error f => .error f
      | .ok (results, out2, ctx2) => .ok (result :: results, out2, ctx2)

/-- What the producers of a sequence of calls return, in call order: `some file`
for a producer that succeeds, `none` for one that returns no file. -/
def producer_results {σ : Type} :
    List (σ → Except Fault (Option VirtualFile × σ)) → σ →
    Except Fault (List (Option VirtualFile) × σ)
  | [], context => .ok ([], context)
  | save_proc :: rest, context =>
    match save_proc context with
    | .error f => .error f
    | .ok (file, ctx) =>
      match producer_results rest ctx with
      | .error f => .error f
      | .ok (files, ctx2) => .ok (file :: files, ctx2)

/-- A producer that returns the given result and leaves its context. -/
def producer_of (file : Option VirtualFile) : Unit → Except Fault (Option VirtualFile × Unit) :=
  fun _ => .ok (file, ())

/-- The payload 'U', length byte 128, 128 bytes 'a', then the stop marker. -/
def rpa_table_short_string_128 : Bytes :=
  0x55 :: 0x80 :: (List.replicate 128 0x61 ++ [0x2e])

/-- The payload 'U', length byte 127, 127 bytes 'a', then the stop marker. -/
def rpa_table_short_string_127 : Bytes :=
  0x55 :: 0x7f :: (List.replicate 127 0x61 ++ [0x2e])

/-! ## `prs_converter.c` -/

/-- `INT_MAX` on the modelled ABI: `int` has 32 bits. -/
def INT_MAX : Nat := 2 ^ 31 - 1

/-- Line 32: `*target_size = image_width * image_height * 3`. The two `uint16_t`
operands are promoted to `int` and both products are formed in `int`; a
product above `INT_MAX` is a signed overflow. Otherwise the value converts to
`size_t` unchanged. -/
def prs_target_size (image_width image_height : Nat) : Except Fault Nat :=
  if INT_MAX < image_width * image_height then .error .overflow
  else if INT_MAX < image_width * image_height * 3 then .error .overflow
  else .ok (image_width * image_height * 3)

/-- Lines 42-47: the array `length_lookup`. -/
def length_lookup : List Nat :=
  ((((List.range 256).map (fun i => i + 3)).set 0xff 0x1000).set 0xfe 0x400).set 0xfd 0x100

/-- The variables of the loop of `prs_decode_pixels`: `source` and `target` as
offsets into their buffers, the content of the target buffer, and `flag`. -/
structure PrsState where
  source_pos : Nat
  target_buffer : Bytes
  target_pos : Nat
  flag : Nat
deriving DecidableEq, Repr

/-- The read `*source` at an offset into `source_buffer`; outside the
`source_size` bytes of the buffer it is an invalid access. -/
def prs_source_read (source_buffer : Bytes) (pos : Nat) : Except Fault Byte :=
  match source_buffer.get? pos with
  | some b => .ok b
  | none => .error .memory

/-- The read of a byte of the target buffer through a pointer at offset `pos`. -/
def prs_target_read (target_buffer : Bytes) (pos : Nat) : Except Fault Byte :=
  match target_buffer.get? pos with
  | some b => .ok b
  | none => .error .memory

/-- The write `*target = v` at offset `pos` of the target buffer. -/
def prs_target_write (target_buffer : Bytes) (pos : Nat) (v : Byte) : Except Fault Bytes :=
  if pos < target_buffer.length then .ok (target_buffer.set pos v) else .error .memory

/-- `*target ++ = *source ++`. -/
def prs_copy_byte (source_buffer : Bytes) (st : PrsState) : Except Fault PrsState :=
  match prs_source_read source_buffer st.source_pos with
  | .error f => .error f
  | .ok v =>
    match prs_target_write st.target_buffer st.target_pos v with
    | .error f => .error f
    | .ok buf =>
      .ok { st with
            target_buffer := buf, target_pos := st.target_pos + 1
            source_pos := st.source_pos + 1 }

/-- Lines 81-89: the `for` loop of a raw run, with the number of turns left. -/
def prs_raw_run (source_buffer : Bytes) : Nat → PrsState → Except Fault PrsState
  | 0, st => .ok st
  | n + 1, st =>
    if source_buffer.length ≤ st.source_pos ∨ st.target_buffer.length ≤ st.target_pos then .ok st
    else
      match prs_copy_byte source_buffer st with
      | .error f => .error f
      | .ok st1 => prs_raw_run source_buffer n st1

/-- Lines 118-125: the `for` loop of a back-reference, with `shift` already
incremented and the number of turns left. -/
def prs_back_reference (shift : Nat) : Nat → PrsState → Except Fault PrsState
  | 0, st => .ok st
  | n + 1, st =>
    if st.target_buffer.length ≤ st.target_pos then .ok st
    else if st.target_pos < shift then .error .assertion
    else
      match prs_target_read st.target_buffer (st.target_pos - shift) with
      | .error f => .error f
      | .ok v =>
        match prs_target_write st.target_buffer st.target_pos v with
        | .error f => .error f
        | .ok buf =>
          prs_back_reference shift n
            { st with target_buffer := buf, target_pos := st.target_pos + 1 }

/-- Lines 117-125: `shift += 1` and the copy; the loop of the decoder goes on. -/
def prs_copy_back (shift length : Nat) (st : PrsState) : Except Fault (Bool × PrsState) :=
  match prs_back_reference (shift + 1) length st with
  | .error f => .error f
  | .ok st1 => .ok (true, st1)

/-- Lines 95-115: the branch `tmp >= 0x80`, entered after `tmp` was read. `false`
stands for `break`. -/
def prs_match_long (source_buffer : Bytes) (tmp : Nat) (st : PrsState) :
    Except Fault (Bool × PrsState) :=
  if source_buffer.length ≤ st.source_pos then .ok (false, st)
  else
    match prs_source_read source_buffer st.source_pos with
    | .error f => .error f
    | .ok lo =>
      if tmp &&& 0x40 = 0 then
        prs_copy_back ((lo.val ||| ((tmp &&& 0x3f) <<< 8)) >>> 4)
          (((lo.val ||| ((tmp &&& 0x3f) <<< 8)) &&& 0xf) + 3)
          { st with source_pos := st.source_pos + 1 }
      else if source_buffer.length ≤ st.source_pos + 1 then
        .ok (false, { st with source_pos := st.source_pos + 1 })
      else
        match prs_source_read source_buffer (st.source_pos + 1) with
        | .error f => .error f
        | .ok idx =>
          prs_copy_back (lo.val ||| ((tmp &&& 0x3f) <<< 8)) (length_lookup.getD idx.val 0)
            { st with source_pos := st.source_pos + 1 + 1 }

/-- Lines 70-126: the `else` branch of the flag test. `int tmp = *source ++` has
no guard in front of it. -/
def prs_match (source_buffer : Bytes) (st : PrsState) : Except Fault (Bool × PrsState) :=
  match prs_source_read source_buffer st.source_pos with
  | .error f => .error f
  | .ok tmp =>
    if tmp.val < 0x80 then
      if tmp.val &&& 3 = 3 then
        match prs_raw_run source_buffer ((tmp.val >>> 2) + 9)
            { st with source_pos := st.source_pos + 1 } with
        | .error f => .error f
        | .ok st1 => .ok (true, st1)
      else
        prs_copy_back (tmp.val >>> 2) ((tmp.val &&& 3) + 2)
          { st with source_pos := st.source_pos + 1 }
    else prs_match_long source_buffer tmp.val { st with source_pos := st.source_pos + 1 }

/-- Lines 61-67: the literal branch of the flag test. -/
def prs_literal (source_buffer : Bytes) (st : PrsState) : Except Fault (Bool × PrsState) :=
  if source_buffer.length ≤ st.source_pos ∨ st.target_buffer.length ≤ st.target_pos then
    .ok (false, st)
  else
    match prs_copy_byte source_buffer st with
    | .error f => .error f
    | .ok st1 => .ok (true, st1)

/-- Lines 61-126: the flag test and its two branches. -/
def prs_decode_branch (source_buffer : Bytes) (st : PrsState) : Except Fault (Bool × PrsState) :=
  if st.flag &&& 0x100 ≠ 0x100 then prs_literal source_buffer st
  else prs_match source_buffer st

/-- Lines 51-126: one pass through the body of `while (1)`. `false` stands for
`break`, `true` for reaching the end of the body or `continue`. -/
def prs_decode_step (source_buffer : Bytes) (st : PrsState) : Except Fault (Bool × PrsState) :=
  if (st.flag <<< 1) &&& 0xff = 0 then
    if source_buffer.length ≤ st.source_pos then .ok (false, { st with flag := st.flag <<< 1 })
    else
      match prs_source_read source_buffer st.source_pos with
      | .error f => .error f
      | .ok b =>
        prs_decode_branch source_buffer
          { st with flag := (b.val <<< 1) + 1, source_pos := st.source_pos + 1 }
  else prs_decode_branch source_buffer { st with flag := st.flag <<< 1 }

/-- The loop `while (1)` of `prs_decode_pixels`, bounded by a number of passes. -/
def prs_decode_loop (source_buffer : Bytes) : Nat → PrsState → Except Fault PrsState
  | 0, _ => .error .fuel
  | fuel + 1, st =>
    match prs_decode_step source_buffer st with
    | .error f => .error f
    | .ok (false, st1) => .ok st1
    | .ok (true, st1) => prs_decode_loop source_buffer fuel st1

/-- Lines 129-130: the final pass, `(*target_buffer)[i] += (*target_buffer)[i-3]`
for `i` from 3 up to `*target_size`; the sum is reduced to a byte. -/
def prs_delta_pass (target_size : Nat) (target_buffer : Bytes) : Bytes :=
  (List.range (target_size - 3)).foldl
    (fun buf k => buf.set (k + 3) (buf.getD (k + 3) 0 + buf.getD k 0)) target_buffer

/-- Lines 33-127 of `prs_decode_pixels`: the allocation and the loop; the result
is the state when the loop is left, before the final pass. `fresh` is what the
block returned by `malloc` holds, byte by byte (a request of 0 bytes is taken
to succeed). Every pass that does not leave the loop consumes a source byte,
so `source_size + 1` passes are enough (`prs_decode_loop_total`). -/
def prs_decode_raw (target_size : Nat) (source_buffer : Bytes) (fresh : Nat → Byte) :
    Except Fault PrsState :=
  if MALLOC_MAX < target_size then .error .assertion
  else
    prs_decode_loop source_buffer (source_buffer.length + 1)
      { source_pos := 0, target_buffer := (List.range target_size).map fresh
        target_pos := 0, flag := 0 }

/-- `prs_decode_pixels`: the `bool` returned, `*target_buffer` and `*target_size`. -/
def prs_decode_pixels (image_width image_height : Nat) (source_buffer : Bytes)
    (fresh : Nat → Byte) : Except Fault (Bool × Bytes × Nat) :=
  match prs_target_size image_width image_height with
  | .error f => .error f
  | .ok target_size =>
    match prs_decode_raw target_size source_buffer fresh with
    | .error f => .error f
    | .ok st => .ok (true, prs_delta_pass target_size st.target_buffer, target_size)

/-- What every part of the decoder keeps: the size of the target buffer; the
source cursor moves forward and stays within `source_size`; the target cursor
moves forward and stays within the target size; the bytes before the old
target cursor and the bytes from the new one on are untouched. -/
def PrsForward (source_buffer : Bytes) (st st1 : PrsState) : Prop :=
  st1.target_buffer.length = st.target_buffer.length
    ∧ st.source_pos ≤ st1.source_pos
    ∧ (st.source_pos ≤ source_buffer.length → st1.source_pos ≤ source_buffer.length)
    ∧ st.target_pos ≤ st1.target_pos
    ∧ (st.target_pos ≤ st.target_buffer.length → st1.target_pos ≤ st.target_buffer.length)
    ∧ st1.target_buffer.take st.target_pos = st.target_buffer.take st.target_pos
    ∧ st1.target_buffer.drop st1.target_pos = st.target_buffer.drop st1.target_pos






/-- The values `flag` takes on an all-zero source. -/
def prs_flag_zero (flag : Nat) : Prop :=
  flag = 0 ∨ flag = 1 ∨ flag = 2 ∨ flag = 4 ∨ flag = 8 ∨ flag = 16 ∨ flag = 32 ∨ flag = 64
    ∨ flag = 128


/-- Modelled from the spec: `Pixel` of `pix/pixel.h`, which is not under `src/`:
the four channel bytes of a pixel. -/
structure Pixel where
  b : Byte
  g : Byte
  r : Byte
  a : Byte
deriving DecidableEq, Repr, Inhabited

/-- A product or sum formed in `size_t`. -/
def size_t_of_nat (n : Nat) : Nat := n % 2 ^ SIZE_BITS

/-- Modelled from the spec: `std::vector<Pixel>::resize (n)`: the first `n`
elements are kept and value-initialised pixels are appended up to `n`; the
allocation is taken to succeed. -/
def vector_resize (pixels : List Pixel) (n : Nat) : List Pixel :=
  pixels.take n ++ List.replicate (n - pixels.length) default

/-- `Grid::Priv`. -/
structure Grid where
  pixels : List Pixel
  width : Nat
  height : Nat
deriving DecidableEq, Repr

/-- `Grid::Grid (width, height)`. -/
def Grid.create (width height : Nat) : Grid :=
  { pixels := vector_resize [] (size_t_of_nat (width * height)), width := width
    height := height }

/-- `Grid::at`: `p->pixels[x + y * p->width]`. The index of `operator[]` is not
checked in the source; an index outside the vector yields the default pixel
here. -/
def Grid.at (grid : Grid) (x y : Nat) : Pixel :=
  grid.pixels.getD (size_t_of_nat (x + y * grid.width)) default

/-- The loop of `is_alphanumeric` over the characters of a C string, given by
its bytes before the terminator; `char c` is signed. -/
def is_alphanumeric : Bytes → Bool
  | [] => true
  | b :: rest =>
    if char_of_u8 b.val < 0x30 ∧ char_of_u8 b.val > 0x39
        ∧ char_of_u8 b.val < 0x61 ∧ char_of_u8 b.val > 0x61
        ∧ char_of_u8 b.val < 0x41 ∧ char_of_u8 b.val > 0x41 then false
    else is_alphanumeric rest

/-- What the name `is_alphanumeric` stands for: every character is an ASCII
digit or an ASCII letter. -/
def alphanumeric (string : Bytes) : Prop :=
  ∀ b ∈ string, (0x30 ≤ b.val ∧ b.val ≤ 0x39) ∨ (0x61 ≤ b.val ∧ b.val ≤ 0x7a)
    ∨ (0x41 ≤ b.val ∧ b.val ≤ 0x5a)

instance alphanumeric.instDecidable (string : Bytes) : Decidable (alphanumeric string) := by
  unfold alphanumeric
  infer_instance

/-- `while (argument[0] == '-') argument ++`. -/
def skip_dashes (argument : Bytes) : Bytes :=
  argument.dropWhile (fun b => b == 0x2d)

/-- `get_switch`: the `bool` returned, `*key` and `*value`. When the key is not
alphanumeric the source calls `free (key)` on the address of the caller's
variable, which `malloc` never returned. -/
def get_switch (argument : Bytes) : Except Fault (Bool × Option Bytes × Option Bytes) :=
  if argument.head? ≠ some 0x2d then .ok (false, none, none)
  else
    match (skip_dashes argument).indexOf? 0x3d with
    | none => .ok (false, none, none)
    | some value_ptr =>
      if is_alphanumeric ((skip_dashes argument).take value_ptr) = false then .error .memory
      else
        .ok (true, some ((skip_dashes argument).take value_ptr),
          some ((skip_dashes argument).drop (value_ptr + 1)))

/-- `get_flag`: the `bool` returned and `*value`. -/
def get_flag (argument : Bytes) : Bool × Option Bytes :=
  if argument.head? ≠ some 0x2d then (false, none)
  else if is_alphanumeric (skip_dashes argument) = false then (false, none)
  else (true, some (skip_dashes argument))

/-- `ArgParser`, without the help items: the switches as pairs of key and value,
the flags and the stray arguments, each in the order of their addition. -/
structure ArgParser where
  switches : List (Bytes × Bytes)
  flags : List Bytes
  stray : List Bytes
deriving DecidableEq, Repr

def arg_parser_create : ArgParser := { switches := [], flags := [], stray := [] }

/-- One turn of the loop of `arg_parser_parse`. -/
def arg_parser_parse_one (self : ArgParser) (arg : Bytes) : Except Fault ArgParser :=
  match get_switch arg with
  | .error f => .error f
  | .ok (true, some key, some value) =>
    .ok { self with switches := self.switches ++ [(key, value)] }
  | .ok _ =>
    match get_flag arg with
    | (true, some value) => .ok { self with flags := self.flags ++ [value] }
    | _ => .ok { self with stray := self.stray ++ [arg] }

/-- `arg_parser_parse`, over the `argc` arguments of `argv`. -/
def arg_parser_parse (self : ArgParser) : List Bytes → Except Fault ArgParser
  | [] => .ok self
  | arg :: argv =>
    match arg_parser_parse_one self arg with
    | .error f => .error f
    | .ok parser => arg_parser_parse parser argv

/-- The payload 'U', length byte 128 and 128 bytes 'a': one complete short
string opcode and no stop marker. -/
def rpa_table_short_string_no_stop : Bytes :=
  0x55 :: 0x80 :: List.replicate 128 0x61

/-- The opcode set as the specification lists it: short and long string, the
three integers, the long integer, the protocol marker, the two memo-stores,
the structural markers generic mark, list begin, dict begin, append,
append-many and tuple-of-1/2/3, and the stop marker. -/
def rpa_opcode_listed (c : Nat) : Prop :=
  c = PICKLE_SHORT_BINSTRING ∨ c = PICKLE_BINUNICODE ∨ c = PICKLE_BININT1
    ∨ c = PICKLE_BININT2 ∨ c = PICKLE_BININT4 ∨ c = PICKLE_LONG1 ∨ c = PICKLE_PROTO
    ∨ c = PICKLE_BINPUT ∨ c = PICKLE_LONG_BINPUT
    ∨ c = PICKLE_MARK ∨ c = PICKLE_EMPTY_LIST ∨ c = PICKLE_EMPTY_DICT
    ∨ c = PICKLE_APPEND ∨ c = PICKLE_APPENDS
    ∨ c = PICKLE_TUPLE1 ∨ c = PICKLE_TUPLE2 ∨ c = PICKLE_TUPLE3 ∨ c = PICKLE_STOP

instance rpa_opcode_listed.instDecidable (c : Nat) : Decidable (rpa_opcode_listed c) := by
  unfold rpa_opcode_listed
  infer_instance

theorem Forward.refl (s : ByteStream) : Forward s s := ⟨rfl, Nat.le_refl _, id⟩

theorem Forward.trans {s1 s2 s3 : ByteStream} (h1 : Forward s1 s2) (h2 : Forward s2 s3) :
    Forward s1 s3 :=
  ⟨h2.1.trans h1.1, Nat.le_trans h1.2.1 h2.2.1, fun h => h2.2.2 (h1.2.2 h)⟩

theorem io_read_string_forward (s : ByteStream) (n : Nat) : Forward s (io_read_string s n).2 := by
  unfold io_read_string
  split
  · exact ⟨rfl, Nat.le_add_right _ _, fun _ => by assumption⟩
  · exact Forward.refl s

theorem io_read_u8_forward (s : ByteStream) : Forward s (io_read_u8 s).2 := by
  have h := io_read_string_forward s 1
  unfold io_read_u8
  split <;> rename_i h2 <;> rw [h2] at h <;> exact h

theorem io_read_u16_le_forward (s : ByteStream) : Forward s (io_read_u16_le s).2 := by
  have h := io_read_string_forward s 2
  unfold io_read_u16_le
  split <;> rename_i h2 <;> rw [h2] at h <;> exact h

theorem io_read_u32_le_forward (s : ByteStream) : Forward s (io_read_u32_le s).2 := by
  have h := io_read_string_forward s 4
  unfold io_read_u32_le
  split <;> rename_i h2 <;> rw [h2] at h <;> exact h

theorem io_seek_data (s : ByteStream) (offset : Nat) : (io_seek s offset).2.data = s.data := by
  unfold io_seek; split <;> rfl

theorem io_seek_pos (s : ByteStream) (offset : Nat) :
    (io_seek s offset).2.pos = if offset ≤ s.data.length then offset else s.pos := by
  unfold io_seek; split <;> rfl

theorem io_skip_forward (s : ByteStream) (n : Nat) : Forward s (io_skip s n).2 := by
  unfold io_skip io_seek
  split
  · exact ⟨rfl, Nat.le_add_right _ _, fun _ => by assumption⟩
  · exact Forward.refl s

theorem io_read_u8_pos (s : ByteStream) (h : s.pos < s.data.length) :
    (io_read_u8 s).2.pos = s.pos + 1 := by
  unfold io_read_u8 io_read_string
  rw [if_pos (by omega)]

theorem le_value_lt (bs : Bytes) : le_value bs < 256 ^ bs.length := by
  induction bs with
  | nil => simp [le_value]
  | cons b rest ih =>
    simp only [le_value, List.length_cons, pow_succ]
    have := b.isLt
    omega

theorem io_read_string_length (s : ByteStream) (n : Nat) (bs : Bytes)
    (h : (io_read_string s n).1 = some bs) : bs.length = n := by
  unfold io_read_string at h
  split at h
  · simp only [Option.some.injEq] at h
    rw [← h, List.length_take, List.length_drop]
    omega
  · cases h

theorem io_read_u8_lt (s : ByteStream) : (io_read_u8 s).1 < 2 ^ 8 := by
  unfold io_read_u8
  split
  · rename_i bs s1 h
    have hl := io_read_string_length s 1 bs (by rw [h])
    have := le_value_lt bs
    rw [hl] at this
    simpa using this
  · norm_num

theorem io_read_u16_le_lt (s : ByteStream) : (io_read_u16_le s).1 < 2 ^ 16 := by
  unfold io_read_u16_le
  split
  · rename_i bs s1 h
    have hl := io_read_string_length s 2 bs (by rw [h])
    have := le_value_lt bs
    rw [hl] at this
    simpa using this
  · norm_num

theorem io_read_u32_le_lt (s : ByteStream) : (io_read_u32_le s).1 < 2 ^ 32 := by
  unfold io_read_u32_le
  split
  · rename_i bs s1 h
    have hl := io_read_string_length s 4 bs (by rw [h])
    have := le_value_lt bs
    rw [hl] at this
    simpa using this
  · norm_num

/-! ## The `switch` of `rpa_unpickle`, case by case -/

theorem rpa_unpickle_switch_short_binstring (s : ByteStream) (ctx : RpaUnpickleContext) :
    rpa_unpickle_switch PICKLE_SHORT_BINSTRING s ctx
      = match rpa_unpickle_read_string (io_read_u8 s).2
          (size_t_of_int (char_of_u8 (io_read_u8 s).1)) with
        | .error f => .error f
        | .ok (str, s2) =>
          .ok (none, s2,
            rpa_unpickle_handle_string str (size_t_of_int (char_of_u8 (io_read_u8 s).1)) ctx) :=
  rfl

theorem rpa_unpickle_switch_binunicode (s : ByteStream) (ctx : RpaUnpickleContext) :
    rpa_unpickle_switch PICKLE_BINUNICODE s ctx
      = match rpa_unpickle_read_string (io_read_u32_le s).2 (io_read_u32_le s).1 with
        | .error f => .error f
        | .ok (str, s2) =>
          .ok (none, s2, rpa_unpickle_handle_string str (io_read_u32_le s).1 ctx) :=
  rfl

theorem rpa_unpickle_switch_binint1 (s : ByteStream) (ctx : RpaUnpickleContext) :
    rpa_unpickle_switch PICKLE_BININT1 s ctx
      = .ok (none, (io_read_u8 s).2, rpa_unpickle_handle_number (io_read_u8 s).1 ctx) := rfl

theorem rpa_unpickle_switch_binint2 (s : ByteStream) (ctx : RpaUnpickleContext) :
    rpa_unpickle_switch PICKLE_BININT2 s ctx
      = .ok (none, (io_read_u16_le s).2, rpa_unpickle_handle_number (io_read_u16_le s).1 ctx) :=
  rfl

theorem rpa_unpickle_switch_binint4 (s : ByteStream) (ctx : RpaUnpickleContext) :
    rpa_unpickle_switch PICKLE_BININT4 s ctx
      = .ok (none, (io_read_u32_le s).2, rpa_unpickle_handle_number (io_read_u32_le s).1 ctx) :=
  rfl

theorem rpa_unpickle_switch_long1 (s : ByteStream) (ctx : RpaUnpickleContext) :
    rpa_unpickle_switch PICKLE_LONG1 s ctx
      = .ok (none,
          (io_seek
            (rpa_unpickle_long1 (io_tell (io_read_u8 s).2) (io_read_u8 s).1 (io_read_u8 s).2).2
            (io_tell (io_read_u8 s).2 + (io_read_u8 s).1)).2,
          rpa_unpickle_handle_number
            (rpa_unpickle_long1 (io_tell (io_read_u8 s).2) (io_read_u8 s).1 (io_read_u8 s).2).1
            ctx) := rfl

theorem rpa_unpickle_switch_proto (s : ByteStream) (ctx : RpaUnpickleContext) :
    rpa_unpickle_switch PICKLE_PROTO s ctx = .ok (none, (io_skip s 1).2, ctx) := rfl

theorem rpa_unpickle_switch_binput (s : ByteStream) (ctx : RpaUnpickleContext) :
    rpa_unpickle_switch PICKLE_BINPUT s ctx = .ok (none, (io_skip s 1).2, ctx) := rfl

theorem rpa_unpickle_switch_long_binput (s : ByteStream) (ctx : RpaUnpickleContext) :
    rpa_unpickle_switch PICKLE_LONG_BINPUT s ctx = .ok (none, (io_skip s 4).2, ctx) := rfl

theorem rpa_unpickle_switch_structural (c : Nat) (s : ByteStream) (ctx : RpaUnpickleContext)
    (h : rpa_opcode_structural c) :
    rpa_unpickle_switch c s ctx = .ok (none, s, ctx) := by
  unfold rpa_opcode_structural at h
  rcases h with h | h | h | h | h | h | h | h <;> subst h <;> rfl

theorem rpa_unpickle_switch_stop (s : ByteStream) (ctx : RpaUnpickleContext) :
    rpa_unpickle_switch PICKLE_STOP s ctx = .ok (some true, s, ctx) := rfl

theorem rpa_unpickle_switch_default (c : Nat) (s : ByteStream) (ctx : RpaUnpickleContext)
    (h : ¬ rpa_opcode_supported c) :
    rpa_unpickle_switch c s ctx = .ok (some false, s, ctx) := by
  unfold rpa_opcode_supported rpa_opcode_structural at h
  simp only [not_or] at h
  obtain ⟨h1, h2, h3, h4, h5, h6, h7, h8, h9, h10, h18⟩ := h
  unfold rpa_unpickle_switch
  rw [if_neg h1, if_neg h2, if_neg h3, if_neg h4, if_neg h5, if_neg h6, if_neg h7, if_neg h8,
    if_neg h9, if_neg (by simp only [not_or]; exact h10), if_neg h18]

/-! ## Progress of `rpa_unpickle` -/

theorem rpa_unpickle_long1_inv (pos length : Nat) (l : List Nat) (acc : Nat × ByteStream)
    (hl : ∀ i ∈ l, i < length)
    (h : pos ≤ acc.2.pos ∧ acc.2.pos ≤ acc.2.data.length ∧ acc.1 < 2 ^ 32) :
    (l.foldl
      (fun (acc : Nat × ByteStream) i =>
        (((acc.1 * 256) % 2 ^ 32 + (io_read_u8 (io_seek acc.2 (pos + length - 1 - i)).2).1) % 2 ^ 32,
          (io_read_u8 (io_seek acc.2 (pos + length - 1 - i)).2).2))
      acc).2.data = acc.2.data
    ∧ pos ≤ (l.foldl
      (fun (acc : Nat × ByteStream) i =>
        (((acc.1 * 256) % 2 ^ 32 + (io_read_u8 (io_seek acc.2 (pos + length - 1 - i)).2).1) % 2 ^ 32,
          (io_read_u8 (io_seek acc.2 (pos + length - 1 - i)).2).2))
      acc).2.pos
    ∧ (l.foldl
      (fun (acc : Nat × ByteStream) i =>
        (((acc.1 * 256) % 2 ^ 32 + (io_read_u8 (io_seek acc.2 (pos + length - 1 - i)).2).1) % 2 ^ 32,
          (io_read_u8 (io_seek acc.2 (pos + length - 1 - i)).2).2))
      acc).2.pos ≤ acc.2.data.length
    ∧ (l.foldl
      (fun (acc : Nat × ByteStream) i =>
        (((acc.1 * 256) % 2 ^ 32 + (io_read_u8 (io_seek acc.2 (pos + length - 1 - i)).2).1) % 2 ^ 32,
          (io_read_u8 (io_seek acc.2 (pos + length - 1 - i)).2).2))
      acc).1 < 2 ^ 32 := by
  induction l generalizing acc with
  | nil => simpa using h
  | cons i l ih =>
    simp only [List.foldl_cons]
    obtain ⟨h2, h3, _⟩ := h
    have hi := hl i (List.mem_cons_self _ _)
    have hf := io_read_u8_forward (io_seek acc.2 (pos + length - 1 - i)).2
    have hd := io_seek_data acc.2 (pos + length - 1 - i)
    have hp := io_seek_pos acc.2 (pos + length - 1 - i)
    obtain ⟨f1, f2, f3⟩ := hf
    have hdd : (io_read_u8 (io_seek acc.2 (pos + length - 1 - i)).2).2.data = acc.2.data := by
      rw [f1, hd]
    have hsp : pos ≤ (io_seek acc.2 (pos + length - 1 - i)).2.pos
        ∧ (io_seek acc.2 (pos + length - 1 - i)).2.pos ≤ acc.2.data.length := by
      rw [hp]; split <;> omega
    have hw : (io_read_u8 (io_seek acc.2 (pos + length - 1 - i)).2).2.pos ≤ acc.2.data.length := by
      rw [← hdd]; apply f3; rw [hd]; exact hsp.2
    have := ih (((acc.1 * 256) % 2 ^ 32
        + (io_read_u8 (io_seek acc.2 (pos + length - 1 - i)).2).1) % 2 ^ 32,
        (io_read_u8 (io_seek acc.2 (pos + length - 1 - i)).2).2)
      (fun j hj => hl j (List.mem_cons_of_mem _ hj))
      ⟨Nat.le_trans hsp.1 f2, by rw [hdd]; exact hw, Nat.mod_lt _ (by norm_num)⟩
    simp only [hdd] at this
    exact this

theorem rpa_unpickle_long1_spec (pos length : Nat) (s : ByteStream)
    (h : pos ≤ s.pos ∧ s.pos ≤ s.data.length) :
    (rpa_unpickle_long1 pos length s).2.data = s.data
      ∧ pos ≤ (rpa_unpickle_long1 pos length s).2.pos
      ∧ (rpa_unpickle_long1 pos length s).2.pos ≤ s.data.length
      ∧ (rpa_unpickle_long1 pos length s).1 < 2 ^ 32 :=
  rpa_unpickle_long1_inv pos length (List.range length) (0, s)
    (fun i hi => List.mem_range.mp hi) ⟨h.1, h.2, by norm_num⟩

theorem rpa_unpickle_read_string_forward (s s2 : ByteStream) (n : Nat) (str : Option Bytes)
    (h : rpa_unpickle_read_string s n = .ok (str, s2)) : Forward s s2 := by
  unfold rpa_unpickle_read_string at h
  split at h
  · cases h
  · split at h
    · cases h
    · have := io_read_string_forward s n
      simp only [Except.ok.injEq] at h
      rw [h] at this
      exact this

/-- The `switch` keeps the content, never moves the cursor backwards and keeps
it inside the payload. -/
theorem rpa_unpickle_switch_forward (c : Nat) (s s2 : ByteStream)
    (ctx ctx2 : RpaUnpickleContext) (r : Option Bool) (hw : s.pos ≤ s.data.length)
    (h : rpa_unpickle_switch c s ctx = .ok (r, s2, ctx2)) :
    s2.data = s.data ∧ s.pos ≤ s2.pos ∧ s2.pos ≤ s2.data.length := by
  have fin : ∀ t : ByteStream, Forward s t →
      t.data = s.data ∧ s.pos ≤ t.pos ∧ t.pos ≤ t.data.length := by
    intro t f
    exact ⟨f.1, f.2.1, f.2.2 hw⟩
  by_cases hs : rpa_opcode_supported c
  swap
  · rw [rpa_unpickle_switch_default c s ctx hs] at h
    simp only [Except.ok.injEq, Prod.mk.injEq] at h
    obtain ⟨_, rfl, _⟩ := h
    exact fin _ (Forward.refl _)
  unfold rpa_opcode_supported at hs
  rcases hs with hs | hs | hs | hs | hs | hs | hs | hs | hs | hs | hs
  · subst hs
    rw [rpa_unpickle_switch_short_binstring] at h
    split at h
    · cases h
    · rename_i str s3 hs
      have f1 := io_read_u8_forward s
      have f2 := rpa_unpickle_read_string_forward _ _ _ _ hs
      simp only [Except.ok.injEq, Prod.mk.injEq] at h
      obtain ⟨_, rfl, _⟩ := h
      exact fin _ (f1.trans f2)
  · subst hs
    rw [rpa_unpickle_switch_binunicode] at h
    split at h
    · cases h
    · rename_i str s3 hs
      have f1 := io_read_u32_le_forward s
      have f2 := rpa_unpickle_read_string_forward _ _ _ _ hs
      simp only [Except.ok.injEq, Prod.mk.injEq] at h
      obtain ⟨_, rfl, _⟩ := h
      exact fin _ (f1.trans f2)
  · subst hs
    rw [rpa_unpickle_switch_binint1] at h
    simp only [Except.ok.injEq, Prod.mk.injEq] at h
    obtain ⟨_, rfl, _⟩ := h
    exact fin _ (io_read_u8_forward _)
  · subst hs
    rw [rpa_unpickle_switch_binint2] at h
    simp only [Except.ok.injEq, Prod.mk.injEq] at h
    obtain ⟨_, rfl, _⟩ := h
    exact fin _ (io_read_u16_le_forward _)
  · subst hs
    rw [rpa_unpickle_switch_binint4] at h
    simp only [Except.ok.injEq, Prod.mk.injEq] at h
    obtain ⟨_, rfl, _⟩ := h
    exact fin _ (io_read_u32_le_forward _)
  · subst hs
    rw [rpa_unpickle_switch_long1] at h
    simp only [Except.ok.injEq, Prod.mk.injEq] at h
    obtain ⟨_, rfl, _⟩ := h
    have g := fin _ (io_read_u8_forward s)
    have l := rpa_unpickle_long1_spec (io_tell (io_read_u8 s).2)
      (io_read_u8 s).1 (io_read_u8 s).2 ⟨Nat.le_refl _, g.2.2⟩
    obtain ⟨l1, l2, l3, _⟩ := l
    have hd := io_seek_data (rpa_unpickle_long1 (io_tell (io_read_u8 s).2)
      (io_read_u8 s).1 (io_read_u8 s).2).2 (io_tell (io_read_u8 s).2 + (io_read_u8 s).1)
    have hp := io_seek_pos (rpa_unpickle_long1 (io_tell (io_read_u8 s).2)
      (io_read_u8 s).1 (io_read_u8 s).2).2 (io_tell (io_read_u8 s).2 + (io_read_u8 s).1)
    unfold io_tell at *
    refine ⟨by rw [hd, l1, g.1], ?_, ?_⟩
    · rw [hp]; split <;> omega
    · rw [hp, hd, l1]; split <;> omega
  · subst hs
    rw [rpa_unpickle_switch_proto] at h
    simp only [Except.ok.injEq, Prod.mk.injEq] at h
    obtain ⟨_, rfl, _⟩ := h
    exact fin _ (io_skip_forward _ _)
  · subst hs
    rw [rpa_unpickle_switch_binput] at h
    simp only [Except.ok.injEq, Prod.mk.injEq] at h
    obtain ⟨_, rfl, _⟩ := h
    exact fin _ (io_skip_forward _ _)
  · subst hs
    rw [rpa_unpickle_switch_long_binput] at h
    simp only [Except.ok.injEq, Prod.mk.injEq] at h
    obtain ⟨_, rfl, _⟩ := h
    exact fin _ (io_skip_forward _ _)
  · rw [rpa_unpickle_switch_structural c s ctx hs] at h
    simp only [Except.ok.injEq, Prod.mk.injEq] at h
    obtain ⟨_, rfl, _⟩ := h
    exact fin _ (Forward.refl _)
  · subst hs
    rw [rpa_unpickle_switch_stop] at h
    simp only [Except.ok.injEq, Prod.mk.injEq] at h
    obtain ⟨_, rfl, _⟩ := h
    exact fin _ (Forward.refl _)

/-- Every pass of the loop keeps the content, moves the cursor forward by at
least the opcode byte and keeps it inside the payload. -/
theorem rpa_unpickle_body_progress (s s2 : ByteStream) (ctx ctx2 : RpaUnpickleContext)
    (r : Option Bool) (hlt : s.pos < s.data.length)
    (h : rpa_unpickle_body s ctx = .ok (r, s2, ctx2)) :
    s2.data = s.data ∧ s.pos < s2.pos ∧ s2.pos ≤ s2.data.length := by
  have h0 := io_read_u8_forward s
  have h0p := io_read_u8_pos s hlt
  obtain ⟨d0, _, w0⟩ := h0
  have w0 := w0 (Nat.le_of_lt hlt)
  have := rpa_unpickle_switch_forward _ _ _ _ _ _ w0 h
  exact ⟨this.1.trans d0, by omega, this.2.2⟩

/-! ## The loop of `rpa_unpickle` -/

theorem rpa_unpickle_read_string_fault (s : ByteStream) (n : Nat) (f : Fault)
    (h : rpa_unpickle_read_string s n = .error f) : f ≠ .fuel := by
  unfold rpa_unpickle_read_string at h
  split at h
  · cases h; decide
  · split at h
    · cases h; decide
    · cases h

/-- What the `switch` does, by the kind of the opcode byte. -/
theorem rpa_unpickle_switch_cases (c : Nat) (s : ByteStream) (ctx : RpaUnpickleContext) :
    (c = PICKLE_STOP ∧ rpa_unpickle_switch c s ctx = .ok (some true, s, ctx))
    ∨ (¬ rpa_opcode_supported c ∧ rpa_unpickle_switch c s ctx = .ok (some false, s, ctx))
    ∨ (rpa_opcode_supported c ∧ c ≠ PICKLE_STOP
        ∧ ((∃ f, f ≠ Fault.fuel ∧ rpa_unpickle_switch c s ctx = .error f)
          ∨ ∃ s2 ctx2, rpa_unpickle_switch c s ctx = .ok (none, s2, ctx2))) := by
  by_cases hs : rpa_opcode_supported c
  swap
  · exact Or.inr (Or.inl ⟨hs, rpa_unpickle_switch_default c s ctx hs⟩)
  have hs0 := hs
  unfold rpa_opcode_supported at hs
  rcases hs with hs | hs | hs | hs | hs | hs | hs | hs | hs | hs | hs
  · subst hs
    refine Or.inr (Or.inr ⟨hs0, by decide, ?_⟩)
    rw [rpa_unpickle_switch_short_binstring]
    split
    · rename_i f hf
      exact Or.inl ⟨f, rpa_unpickle_read_string_fault _ _ _ hf, rfl⟩
    · exact Or.inr ⟨_, _, rfl⟩
  · subst hs
    refine Or.inr (Or.inr ⟨hs0, by decide, ?_⟩)
    rw [rpa_unpickle_switch_binunicode]
    split
    · rename_i f hf
      exact Or.inl ⟨f, rpa_unpickle_read_string_fault _ _ _ hf, rfl⟩
    · exact Or.inr ⟨_, _, rfl⟩
  · subst hs; exact Or.inr (Or.inr ⟨hs0, by decide, Or.inr ⟨_, _, rfl⟩⟩)
  · subst hs; exact Or.inr (Or.inr ⟨hs0, by decide, Or.inr ⟨_, _, rfl⟩⟩)
  · subst hs; exact Or.inr (Or.inr ⟨hs0, by decide, Or.inr ⟨_, _, rfl⟩⟩)
  · subst hs; exact Or.inr (Or.inr ⟨hs0, by decide, Or.inr ⟨_, _, rfl⟩⟩)
  · subst hs; exact Or.inr (Or.inr ⟨hs0, by decide, Or.inr ⟨_, _, rfl⟩⟩)
  · subst hs; exact Or.inr (Or.inr ⟨hs0, by decide, Or.inr ⟨_, _, rfl⟩⟩)
  · subst hs; exact Or.inr (Or.inr ⟨hs0, by decide, Or.inr ⟨_, _, rfl⟩⟩)
  · refine Or.inr (Or.inr ⟨hs0, ?_, Or.inr ⟨_, _, rpa_unpickle_switch_structural c s ctx hs⟩⟩)
    unfold rpa_opcode_structural at hs
    rcases hs with h | h | h | h | h | h | h | h <;> subst h <;> decide
  · exact Or.inl ⟨hs, by subst hs; rfl⟩

theorem rpa_unpickle_body_fault (s : ByteStream) (ctx : RpaUnpickleContext) (f : Fault)
    (h : rpa_unpickle_body s ctx = .error f) : f ≠ .fuel := by
  unfold rpa_unpickle_body at h
  rcases rpa_unpickle_switch_cases (io_read_u8 s).1 (io_read_u8 s).2 ctx with
    ⟨_, h2⟩ | ⟨_, h2⟩ | ⟨_, _, ⟨g, hg, h2⟩ | ⟨s2, c2, h2⟩⟩
  · rw [h2] at h; cases h
  · rw [h2] at h; cases h
  · rw [h2] at h; cases h; exact hg
  · rw [h2] at h; cases h

/-- With enough passes allowed the loop does not depend on the bound and never
exhausts it. -/
theorem rpa_unpickle_loop_fuel (fuel1 fuel2 : Nat) (s : ByteStream) (ctx : RpaUnpickleContext)
    (hw : s.pos ≤ s.data.length) (h1 : s.data.length - s.pos < fuel1)
    (h2 : s.data.length - s.pos < fuel2) :
    rpa_unpickle_loop fuel1 s ctx = rpa_unpickle_loop fuel2 s ctx
      ∧ rpa_unpickle_loop fuel1 s ctx ≠ .error .fuel := by
  induction fuel1 generalizing fuel2 s ctx with
  | zero => omega
  | succ n ih =>
    cases fuel2 with
    | zero => omega
    | succ m =>
      unfold rpa_unpickle_loop
      by_cases hlt : io_tell s < io_size s
      · rw [if_pos hlt, if_pos hlt]
        unfold io_tell io_size at hlt
        cases hb : rpa_unpickle_body s ctx with
        | error f =>
          refine ⟨rfl, ?_⟩
          intro hf
          simp only [Except.error.injEq] at hf
          exact rpa_unpickle_body_fault s ctx f hb hf
        | ok res =>
          obtain ⟨r, s2, ctx2⟩ := res
          have hp := rpa_unpickle_body_progress s s2 ctx ctx2 r hlt hb
          cases r with
          | some b => exact ⟨rfl, by intro hf; cases hf⟩
          | none =>
            simp only
            have hd : s2.data.length = s.data.length := by rw [hp.1]
            exact ih m s2 ctx2 hp.2.2 (by omega) (by omega)
      · rw [if_neg hlt, if_neg hlt]
        exact ⟨rfl, by intro hf; cases hf⟩

/-- The loop bound of the model is never reached: `rpa_unpickle` returns or stops
on a fault of the source. -/
theorem rpa_unpickle_total (payload : Bytes) (ctx : RpaUnpickleContext) :
    rpa_unpickle (io_create_from_buffer payload) ctx ≠ .error .fuel := by
  unfold rpa_unpickle io_size io_create_from_buffer
  exact (rpa_unpickle_loop_fuel _ (payload.length + 1) ⟨payload, 0⟩ ctx (Nat.zero_le _)
    (by simp) (by simp)).2

/-- The loop of `rpa_unpickle` from any state of the cursor, as an equation:
one test of the loop condition, one pass, and the loop again. -/
theorem rpa_unpickle_unfold (s : ByteStream) (ctx : RpaUnpickleContext) :
    rpa_unpickle s ctx =
      if io_tell s < io_size s then
        match rpa_unpickle_body s ctx with
        | .error f => .error f
        | .ok (some b, s2, ctx2) => .ok (b, s2, ctx2)
        | .ok (none, s2, ctx2) => rpa_unpickle s2 ctx2
      else .ok (false, s, ctx) := by
  unfold rpa_unpickle
  rw [rpa_unpickle_loop]
  by_cases hlt : io_tell s < io_size s
  · rw [if_pos hlt, if_pos hlt]
    unfold io_tell io_size at hlt
    cases hb : rpa_unpickle_body s ctx with
    | error f => rfl
    | ok res =>
      obtain ⟨r, s2, ctx2⟩ := res
      cases r with
      | some b => rfl
      | none =>
        simp only
        have hp := rpa_unpickle_body_progress s s2 ctx ctx2 none hlt hb
        have hd : s2.data.length = s.data.length := by rw [hp.1]
        unfold io_size
        exact (rpa_unpickle_loop_fuel _ _ s2 ctx2 hp.2.2 (by omega) (by omega)).1
  · rw [if_neg hlt, if_neg hlt]

/-! ## Passes of the loop and the result of `rpa_unpickle` -/

theorem rpa_unpickle_passes_succ (n : Nat) (s s1 : ByteStream) (ctx c1 : RpaUnpickleContext)
    (h : rpa_unpickle_passes (n + 1) s ctx = some (s1, c1)) :
    s.pos < s.data.length ∧ ∃ s2 ctx2, rpa_unpickle_body s ctx = .ok (none, s2, ctx2)
      ∧ rpa_unpickle_passes n s2 ctx2 = some (s1, c1) := by
  rw [rpa_unpickle_passes] at h
  by_cases hlt : io_tell s < io_size s
  · rw [if_pos hlt] at h
    refine ⟨hlt, ?_⟩
    cases hb : rpa_unpickle_body s ctx with
    | error f => rw [hb] at h; cases h
    | ok res =>
      obtain ⟨r, s2, ctx2⟩ := res
      cases r with
      | some b => rw [hb] at h; cases h
      | none => rw [hb] at h; exact ⟨s2, ctx2, rfl, h⟩
  · rw [if_neg hlt] at h; cases h

/-- After passes that ended in `break` the loop goes on from the state reached. -/
theorem rpa_unpickle_passes_run (n : Nat) (s s1 : ByteStream) (ctx c1 : RpaUnpickleContext)
    (h : rpa_unpickle_passes n s ctx = some (s1, c1)) :
    rpa_unpickle s ctx = rpa_unpickle s1 c1 := by
  induction n generalizing s ctx with
  | zero =>
    simp only [rpa_unpickle_passes, Option.some.injEq, Prod.mk.injEq] at h
    obtain ⟨rfl, rfl⟩ := h
    rfl
  | succ n ih =>
    obtain ⟨hlt, s2, ctx2, hb, hp⟩ := rpa_unpickle_passes_succ n s s1 ctx c1 h
    rw [rpa_unpickle_unfold s ctx, if_pos (show io_tell s < io_size s from hlt), hb]
    exact ih s2 ctx2 hp

/-- The opcode byte at the cursor. -/
theorem io_read_u8_at (s : ByteStream) (hlt : s.pos < s.data.length) :
    io_read_u8 s = ((s.data.get ⟨s.pos, hlt⟩).val, ⟨s.data, s.pos + 1⟩) := by
  unfold io_read_u8 io_read_string
  rw [if_pos (by omega)]
  simp only
  have : List.take 1 (List.drop s.pos s.data) = [s.data.get ⟨s.pos, hlt⟩] := by
    rw [List.drop_eq_getElem_cons hlt]
    rfl
  rw [this]
  simp [le_value]

/-- A run that returns `true` read the stop marker at an opcode position, after
passes that all ended in `break`. -/
theorem rpa_unpickle_true_stop (k : Nat) (s s2 : ByteStream) (ctx ctx2 : RpaUnpickleContext)
    (hk : s.data.length - s.pos ≤ k)
    (h : rpa_unpickle s ctx = .ok (true, s2, ctx2)) :
    ∃ n s1, rpa_unpickle_passes n s ctx = some (s1, ctx2) ∧ io_tell s1 < io_size s1
      ∧ (io_read_u8 s1).1 = PICKLE_STOP ∧ s2 = (io_read_u8 s1).2 := by
  induction k generalizing s ctx with
  | zero =>
    rw [rpa_unpickle_unfold s ctx, if_neg (by unfold io_tell io_size; omega)] at h
    cases h
  | succ k ih =>
    rw [rpa_unpickle_unfold s ctx] at h
    by_cases hlt : io_tell s < io_size s
    swap
    · rw [if_neg hlt] at h; cases h
    rw [if_pos hlt] at h
    have hb0 : rpa_unpickle_body s ctx
        = rpa_unpickle_switch (io_read_u8 s).1 (io_read_u8 s).2 ctx := rfl
    rcases rpa_unpickle_switch_cases (io_read_u8 s).1 (io_read_u8 s).2 ctx with
      ⟨hc, h2⟩ | ⟨_, h2⟩ | ⟨_, _, ⟨g, hg, h2⟩ | ⟨s3, c3, h2⟩⟩
    · rw [hb0, h2] at h
      simp only [Except.ok.injEq, Prod.mk.injEq, true_and] at h
      obtain ⟨rfl, rfl⟩ := h
      exact ⟨0, s, rfl, hlt, hc, rfl⟩
    · rw [hb0, h2] at h
      simp only [Except.ok.injEq, Prod.mk.injEq] at h
      exact absurd h.1 (by decide)
    · rw [hb0, h2] at h; cases h
    · rw [hb0, h2] at h
      simp only at h
      have hp := rpa_unpickle_body_progress s s3 ctx c3 none hlt (hb0.trans h2)
      have hd : s3.data.length = s.data.length := by rw [hp.1]
      obtain ⟨n, s1, hn, h3⟩ := ih s3 c3 (by omega) h
      refine ⟨n + 1, s1, ?_, h3⟩
      rw [rpa_unpickle_passes, if_pos hlt, hb0, h2]
      exact hn

/-! ## Reads of encoded fields -/

theorem u8_val (n : Nat) (h : n < 256) : (u8 n).val = n := by
  unfold u8
  exact Nat.mod_eq_of_lt h

theorem le_value_u16_le (n : Nat) (h : n < 2 ^ 16) : le_value (u16_le n) = n := by
  simp only [u16_le, le_value, u8]
  omega

theorem le_value_u32_le (n : Nat) (h : n < 2 ^ 32) : le_value (u32_le n) = n := by
  simp only [u32_le, le_value, u8]
  omega

/-- A read of the bytes that stand at the cursor. -/
theorem io_read_string_drop (d bs rest : Bytes) (p : Nat) (hp : p ≤ d.length)
    (hd : d.drop p = bs ++ rest) :
    io_read_string ⟨d, p⟩ bs.length = (some bs, ⟨d, p + bs.length⟩)
      ∧ d.drop (p + bs.length) = rest ∧ p + bs.length ≤ d.length := by
  have hl : d.length - p = bs.length + rest.length := by
    rw [← List.length_drop, hd, List.length_append]
  have hle : p + bs.length ≤ d.length := by omega
  refine ⟨?_, ?_, hle⟩
  · unfold io_read_string
    rw [if_pos hle]
    simp only [hd, List.take_left']
  · rw [← List.drop_drop, hd, List.drop_left']
    rfl

theorem io_read_u8_drop (d rest : Bytes) (b : Byte) (p : Nat) (hp : p ≤ d.length)
    (hd : d.drop p = b :: rest) :
    io_read_u8 ⟨d, p⟩ = (b.val, ⟨d, p + 1⟩) ∧ d.drop (p + 1) = rest ∧ p + 1 ≤ d.length := by
  have h := io_read_string_drop d [b] rest p hp hd
  refine ⟨?_, h.2⟩
  unfold io_read_u8
  have h1 : io_read_string ⟨d, p⟩ 1 = (some [b], ⟨d, p + 1⟩) := h.1
  rw [h1]
  simp [le_value]

theorem io_read_u16_le_drop (d rest : Bytes) (n p : Nat) (hn : n < 2 ^ 16) (hp : p ≤ d.length)
    (hd : d.drop p = u16_le n ++ rest) :
    io_read_u16_le ⟨d, p⟩ = (n, ⟨d, p + 2⟩) ∧ d.drop (p + 2) = rest ∧ p + 2 ≤ d.length := by
  have h := io_read_string_drop d (u16_le n) rest p hp hd
  refine ⟨?_, h.2⟩
  unfold io_read_u16_le
  have h1 : io_read_string ⟨d, p⟩ 2 = (some (u16_le n), ⟨d, p + 2⟩) := h.1
  rw [h1]
  simp only [le_value_u16_le n hn]

theorem io_read_u32_le_drop (d rest : Bytes) (n p : Nat) (hn : n < 2 ^ 32) (hp : p ≤ d.length)
    (hd : d.drop p = u32_le n ++ rest) :
    io_read_u32_le ⟨d, p⟩ = (n, ⟨d, p + 4⟩) ∧ d.drop (p + 4) = rest ∧ p + 4 ≤ d.length := by
  have h := io_read_string_drop d (u32_le n) rest p hp hd
  refine ⟨?_, h.2⟩
  unfold io_read_u32_le
  have h1 : io_read_string ⟨d, p⟩ 4 = (some (u32_le n), ⟨d, p + 4⟩) := h.1
  rw [h1]
  simp only [le_value_u32_le n hn]

theorem io_skip_drop (d bs rest : Bytes) (p : Nat) (hp : p ≤ d.length)
    (hd : d.drop p = bs ++ rest) :
    (io_skip ⟨d, p⟩ bs.length).2 = ⟨d, p + bs.length⟩
      ∧ d.drop (p + bs.length) = rest ∧ p + bs.length ≤ d.length := by
  have h := io_read_string_drop d bs rest p hp hd
  refine ⟨?_, h.2⟩
  unfold io_skip io_seek
  rw [if_pos h.2.2]

/-- `rpa_unpickle_read_string` on a string that stands complete at the cursor
and is shorter than `2 ^ 32` bytes. -/
theorem rpa_unpickle_read_string_drop (d str rest : Bytes) (p : Nat) (hp : p ≤ d.length)
    (hs : str.length < 2 ^ 32) (hd : d.drop p = str ++ rest) :
    rpa_unpickle_read_string ⟨d, p⟩ str.length = .ok (some str, ⟨d, p + str.length⟩)
      ∧ d.drop (p + str.length) = rest ∧ p + str.length ≤ d.length := by
  have h := io_read_string_drop d str rest p hp hd
  refine ⟨?_, h.2⟩
  unfold rpa_unpickle_read_string
  have e : (str.length + 1) % 2 ^ SIZE_BITS = str.length + 1 := by
    unfold SIZE_BITS
    omega
  rw [e, if_neg (by unfold MALLOC_MAX; omega), if_neg (by omega), h.1]

/-! ## The opcodes one by one -/

theorem le_value_drop (digits : Bytes) (k : Nat) (hk : k < digits.length) :
    digits.drop k = digits.get ⟨k, hk⟩ :: digits.drop (k + 1)
      ∧ le_value (digits.drop k)
        = (digits.get ⟨k, hk⟩).val + 256 * le_value (digits.drop (k + 1)) := by
  have h : digits.drop k = digits.get ⟨k, hk⟩ :: digits.drop (k + 1) :=
    List.drop_eq_getElem_cons hk
  refine ⟨h, ?_⟩
  rw [h]
  rfl

/-- The loop of `PICKLE_LONG1` over digits that stand complete after the length
byte: the little-endian value of the digits, in `uint32_t` arithmetic. -/
theorem rpa_unpickle_long1_drop (d digits rest : Bytes) (pos i : Nat)
    (hp : pos ≤ d.length) (hd : d.drop pos = digits ++ rest) (hi : i ≤ digits.length) :
    ∃ q, q ≤ d.length ∧
      (List.range i).foldl
        (fun (acc : Nat × ByteStream) i =>
          (((acc.1 * 256) % 2 ^ 32
              + (io_read_u8 (io_seek acc.2 (pos + digits.length - 1 - i)).2).1) % 2 ^ 32,
            (io_read_u8 (io_seek acc.2 (pos + digits.length - 1 - i)).2).2))
        (0, ⟨d, pos⟩)
        = (le_value (digits.drop (digits.length - i)) % 2 ^ 32, ⟨d, q⟩) := by
  have hlen : pos + digits.length ≤ d.length := (io_read_string_drop d digits rest pos hp hd).2.2
  induction i with
  | zero =>
    refine ⟨pos, hp, ?_⟩
    simp [le_value]
  | succ i ih =>
    obtain ⟨q, hq, e⟩ := ih (by omega)
    rw [List.range_succ, List.foldl_append, e]
    simp only [List.foldl_cons, List.foldl_nil]
    have hk : digits.length - 1 - i < digits.length := by omega
    have ht : pos + digits.length - 1 - i ≤ d.length := by omega
    have hs : (io_seek ⟨d, q⟩ (pos + digits.length - 1 - i)).2
        = ⟨d, pos + digits.length - 1 - i⟩ := by
      unfold io_seek
      rw [if_pos ht]
    have hdrop : d.drop (pos + digits.length - 1 - i)
        = digits.get ⟨digits.length - 1 - i, hk⟩
          :: (digits.drop (digits.length - 1 - i + 1) ++ rest) := by
      have e1 : pos + digits.length - 1 - i = pos + (digits.length - 1 - i) := by omega
      rw [e1, ← List.drop_drop, hd, List.drop_append_of_le_length (by omega),
        (le_value_drop digits _ hk).1]
      rfl
    have hr := io_read_u8_drop d _ _ _ ht hdrop
    rw [hs, hr.1]
    refine ⟨_, hr.2.2, ?_⟩
    have e2 : digits.length - (i + 1) = digits.length - 1 - i := by omega
    have e3 : digits.length - i = digits.length - 1 - i + 1 := by omega
    rw [e2, (le_value_drop digits _ hk).2, e3]
    simp only [Prod.mk.injEq, and_true]
    omega

theorem rpa_unpickle_long1_value (d digits rest : Bytes) (pos : Nat)
    (hp : pos ≤ d.length) (hd : d.drop pos = digits ++ rest) :
    ∃ q, q ≤ d.length ∧
      rpa_unpickle_long1 pos digits.length ⟨d, pos⟩ = (le_value digits % 2 ^ 32, ⟨d, q⟩) := by
  obtain ⟨q, hq, e⟩ := rpa_unpickle_long1_drop d digits rest pos digits.length hp hd
    (Nat.le_refl _)
  refine ⟨q, hq, ?_⟩
  unfold rpa_unpickle_long1
  rw [e]
  simp

theorem size_t_of_char_small (n : Nat) (h : n < 128) : size_t_of_int (char_of_u8 n) = n := by
  unfold size_t_of_int char_of_u8 SIZE_BITS
  rw [if_pos h]
  omega

/-- One pass of the loop over an opcode that stands complete at the cursor: the
loop goes on right after the opcode, with its value pushed. -/
theorem rpa_unpickle_body_op (op : PickleOp) (hv : op.valid) (d rest : Bytes) (p : Nat)
    (ctx : RpaUnpickleContext) (hp : p ≤ d.length) (hd : d.drop p = op.encode ++ rest) :
    rpa_unpickle_body ⟨d, p⟩ ctx = .ok (none, ⟨d, p + op.encode.length⟩, op.push ctx)
      ∧ d.drop (p + op.encode.length) = rest ∧ p + op.encode.length ≤ d.length := by
  have hall := io_read_string_drop d op.encode rest p hp hd
  refine ⟨?_, hall.2⟩
  unfold rpa_unpickle_body
  cases op with
  | short_binstring str =>
    simp only [PickleOp.encode, PickleOp.valid, List.cons_append, List.length_cons,
      PickleOp.push] at *
    obtain ⟨r1, d1, p1⟩ := io_read_u8_drop d _ _ p hp hd
    obtain ⟨r2, d2, p2⟩ := io_read_u8_drop d _ _ (p + 1) p1 d1
    obtain ⟨r3, d3, p3⟩ := rpa_unpickle_read_string_drop d str rest (p + 1 + 1) p2
      (by omega) d2
    rw [r1]
    simp only [u8_val PICKLE_SHORT_BINSTRING (by decide)]
    rw [rpa_unpickle_switch_short_binstring, r2]
    simp only [u8_val str.length (by omega), size_t_of_char_small str.length hv]
    rw [r3]
    simp only [Except.ok.injEq, Prod.mk.injEq, ByteStream.mk.injEq, true_and, and_true]
    omega
  | binunicode str =>
    simp only [PickleOp.encode, PickleOp.valid, List.cons_append, List.length_cons,
      PickleOp.push, List.append_assoc, List.length_append] at *
    obtain ⟨r1, d1, p1⟩ := io_read_u8_drop d _ _ p hp hd
    obtain ⟨r2, d2, p2⟩ := io_read_u32_le_drop d _ str.length (p + 1) hv p1 d1
    obtain ⟨r3, d3, p3⟩ := rpa_unpickle_read_string_drop d str rest (p + 1 + 4) p2 hv d2
    rw [r1]
    simp only [u8_val PICKLE_BINUNICODE (by decide)]
    rw [rpa_unpickle_switch_binunicode, r2]
    simp only
    rw [r3]
    simp only [Except.ok.injEq, Prod.mk.injEq, ByteStream.mk.injEq, true_and, and_true, u32_le,
      List.length_cons, List.length_nil]
    omega
  | binint1 n =>
    simp only [PickleOp.encode, PickleOp.valid, List.cons_append, List.length_cons,
      PickleOp.push, List.nil_append, List.length_nil] at *
    obtain ⟨r1, d1, p1⟩ := io_read_u8_drop d _ _ p hp hd
    obtain ⟨r2, d2, p2⟩ := io_read_u8_drop d _ _ (p + 1) p1 d1
    rw [r1]
    simp only [u8_val PICKLE_BININT1 (by decide)]
    rw [rpa_unpickle_switch_binint1, r2]
    simp only [u8_val n hv]
  | binint2 n =>
    simp only [PickleOp.encode, PickleOp.valid, List.cons_append, List.length_cons,
      PickleOp.push] at *
    obtain ⟨r1, d1, p1⟩ := io_read_u8_drop d _ _ p hp hd
    obtain ⟨r2, d2, p2⟩ := io_read_u16_le_drop d _ n (p + 1) hv p1 d1
    rw [r1]
    simp only [u8_val PICKLE_BININT2 (by decide)]
    rw [rpa_unpickle_switch_binint2, r2]
    rfl
  | binint4 n =>
    simp only [PickleOp.encode, PickleOp.valid, List.cons_append, List.length_cons,
      PickleOp.push] at *
    obtain ⟨r1, d1, p1⟩ := io_read_u8_drop d _ _ p hp hd
    obtain ⟨r2, d2, p2⟩ := io_read_u32_le_drop d _ n (p + 1) hv p1 d1
    rw [r1]
    simp only [u8_val PICKLE_BININT4 (by decide)]
    rw [rpa_unpickle_switch_binint4, r2]
    rfl
  | long1 digits =>
    simp only [PickleOp.encode, PickleOp.valid, List.cons_append, List.length_cons,
      PickleOp.push] at *
    obtain ⟨r1, d1, p1⟩ := io_read_u8_drop d _ _ p hp hd
    obtain ⟨r2, d2, p2⟩ := io_read_u8_drop d _ _ (p + 1) p1 d1
    obtain ⟨q, hq, e⟩ := rpa_unpickle_long1_value d digits rest (p + 1 + 1) p2 d2
    rw [r1]
    simp only [u8_val PICKLE_LONG1 (by decide)]
    rw [rpa_unpickle_switch_long1, r2]
    simp only [u8_val digits.length (by omega), io_tell]
    rw [e]
    simp only [io_seek]
    rw [if_pos (by omega)]
    simp only [Except.ok.injEq, Prod.mk.injEq, ByteStream.mk.injEq, true_and, and_true]
    omega
  | proto version =>
    simp only [PickleOp.encode, PickleOp.valid, List.cons_append, List.length_cons,
      PickleOp.push, List.nil_append, List.length_nil] at *
    obtain ⟨r1, d1, p1⟩ := io_read_u8_drop d _ _ p hp hd
    obtain ⟨r2, d2, p2⟩ := io_skip_drop d [version] rest (p + 1) p1 d1
    rw [r1]
    simp only [u8_val PICKLE_PROTO (by decide)]
    rw [rpa_unpickle_switch_proto]
    simp only [List.length_cons, List.length_nil] at r2
    rw [r2]
  | binput index =>
    simp only [PickleOp.encode, PickleOp.valid, List.cons_append, List.length_cons,
      PickleOp.push, List.nil_append, List.length_nil] at *
    obtain ⟨r1, d1, p1⟩ := io_read_u8_drop d _ _ p hp hd
    obtain ⟨r2, d2, p2⟩ := io_skip_drop d [index] rest (p + 1) p1 d1
    rw [r1]
    simp only [u8_val PICKLE_BINPUT (by decide)]
    rw [rpa_unpickle_switch_binput]
    simp only [List.length_cons, List.length_nil] at r2
    rw [r2]
  | long_binput index =>
    simp only [PickleOp.encode, PickleOp.valid, List.cons_append, List.length_cons,
      PickleOp.push] at *
    obtain ⟨r1, d1, p1⟩ := io_read_u8_drop d _ _ p hp hd
    obtain ⟨r2, d2, p2⟩ := io_skip_drop d (u32_le index) rest (p + 1) p1 d1
    rw [r1]
    simp only [u8_val PICKLE_LONG_BINPUT (by decide)]
    rw [rpa_unpickle_switch_long_binput]
    rw [show (4 : Nat) = (u32_le index).length from rfl, r2, Nat.add_assoc,
      Nat.add_comm 1]
  | structural c =>
    simp only [PickleOp.encode, PickleOp.valid, List.cons_append, List.length_cons,
      PickleOp.push, List.nil_append, List.length_nil] at *
    obtain ⟨r1, d1, p1⟩ := io_read_u8_drop d _ _ p hp hd
    rw [r1]
    simp only
    rw [rpa_unpickle_switch_structural _ _ _ hv]

theorem PickleOp.encode_length_pos (op : PickleOp) : 0 < op.encode.length := by
  cases op <;> simp [PickleOp.encode]

/-- The passes over a sequence of opcodes that stand complete at the cursor. -/
theorem rpa_unpickle_passes_ops (ops : List PickleOp) (hv : ∀ op ∈ ops, op.valid)
    (d rest : Bytes) (p : Nat) (ctx : RpaUnpickleContext) (hp : p ≤ d.length)
    (hd : d.drop p = encode_ops ops ++ rest) :
    rpa_unpickle_passes ops.length ⟨d, p⟩ ctx
        = some (⟨d, p + (encode_ops ops).length⟩, ops.foldl PickleOp.push ctx)
      ∧ d.drop (p + (encode_ops ops).length) = rest
      ∧ p + (encode_ops ops).length ≤ d.length := by
  induction ops generalizing p ctx with
  | nil =>
    simp only [encode_ops, List.nil_append, List.length_nil, Nat.add_zero] at *
    exact ⟨rfl, hd, hp⟩
  | cons op ops ih =>
    simp only [encode_ops, List.append_assoc] at hd
    obtain ⟨b1, b2, b3⟩ := rpa_unpickle_body_op op (hv op (List.mem_cons_self _ _)) d
      (encode_ops ops ++ rest) p ctx hp hd
    obtain ⟨i1, i2, i3⟩ := ih (fun o ho => hv o (List.mem_cons_of_mem _ ho))
      (p + op.encode.length) (op.push ctx) b3 b2
    have hpos := op.encode_length_pos
    simp only [encode_ops, List.length_append, List.length_cons, List.foldl_cons]
    rw [← Nat.add_assoc]
    refine ⟨?_, i2, i3⟩
    rw [rpa_unpickle_passes, if_pos (by unfold io_tell io_size; simp only; omega), b1]
    exact i1

/-- `rpa_unpickle` on a payload of complete opcodes followed by the stop marker. -/
theorem rpa_unpickle_ops_stop (ops : List PickleOp) (hv : ∀ op ∈ ops, op.valid)
    (rest : Bytes) (ctx : RpaUnpickleContext) :
    rpa_unpickle (io_create_from_buffer (encode_ops ops ++ u8 PICKLE_STOP :: rest)) ctx
      = .ok (true, ⟨encode_ops ops ++ u8 PICKLE_STOP :: rest, (encode_ops ops).length + 1⟩,
          ops.foldl PickleOp.push ctx) := by
  obtain ⟨h1, h2, h3⟩ := rpa_unpickle_passes_ops ops hv
    (encode_ops ops ++ u8 PICKLE_STOP :: rest) (u8 PICKLE_STOP :: rest) 0 ctx (Nat.zero_le _) rfl
  rw [Nat.zero_add] at h1 h2 h3
  unfold io_create_from_buffer
  rw [rpa_unpickle_passes_run _ _ _ _ _ h1, rpa_unpickle_unfold]
  obtain ⟨r1, _, r3⟩ := io_read_u8_drop _ _ _ _ h3 h2
  rw [if_pos (by unfold io_tell io_size; exact r3)]
  unfold rpa_unpickle_body
  rw [r1]
  simp only [u8_val PICKLE_STOP (by decide)]
  rw [rpa_unpickle_switch_stop]

/-- `rpa_unpickle` on a payload of complete opcodes and nothing else. -/
theorem rpa_unpickle_ops_end (ops : List PickleOp) (hv : ∀ op ∈ ops, op.valid)
    (ctx : RpaUnpickleContext) :
    rpa_unpickle (io_create_from_buffer (encode_ops ops)) ctx
      = .ok (false, ⟨encode_ops ops, (encode_ops ops).length⟩, ops.foldl PickleOp.push ctx) := by
  obtain ⟨h1, _, _⟩ := rpa_unpickle_passes_ops ops hv (encode_ops ops) [] 0 ctx
    (Nat.zero_le _) (by simp)
  rw [Nat.zero_add] at h1
  unfold io_create_from_buffer
  rw [rpa_unpickle_passes_run _ _ _ _ _ h1, rpa_unpickle_unfold]
  rw [if_neg (by unfold io_tell io_size; simp)]

/-! ## What the arrays of the context hold -/

theorem RpaUnpickleContext.consistent_empty :
    RpaUnpickleContext.consistent { strings := [], string_lengths := [], numbers := [] } := by
  refine ⟨rfl, ?_, ?_⟩ <;> simp

theorem rpa_unpickle_handle_number_consistent (ctx : RpaUnpickleContext) (n : Nat)
    (hn : n < 2 ^ 32) (h : ctx.consistent) :
    (rpa_unpickle_handle_number n ctx).consistent := by
  obtain ⟨h1, h2, h3⟩ := h
  refine ⟨h1, ?_, h3⟩
  intro m hm
  simp only [rpa_unpickle_handle_number, List.mem_append, List.mem_singleton] at hm
  rcases hm with hm | hm
  · exact h2 m hm
  · rw [hm]; exact hn

theorem rpa_unpickle_handle_string_consistent (ctx : RpaUnpickleContext) (str : Option Bytes)
    (n : Nat) (hn : ∀ b, str = some b → n = b.length) (h : ctx.consistent) :
    (rpa_unpickle_handle_string str n ctx).consistent := by
  obtain ⟨h1, h2, h3⟩ := h
  refine ⟨?_, h2, ?_⟩
  · simp only [rpa_unpickle_handle_string, List.length_append, h1, List.length_cons,
      List.length_nil]
  · intro p hp b hb
    simp only [rpa_unpickle_handle_string] at hp
    rw [List.zip_append h1.symm] at hp
    simp only [List.mem_append, List.zip_cons_cons, List.zip_nil_right, List.mem_singleton] at hp
    rcases hp with hp | hp
    · exact h3 p hp b hb
    · subst hp
      exact hn b hb

theorem rpa_unpickle_read_string_length (s s2 : ByteStream) (n : Nat) (str : Option Bytes)
    (h : rpa_unpickle_read_string s n = .ok (str, s2)) : ∀ b, str = some b → n = b.length := by
  intro b hb
  unfold rpa_unpickle_read_string at h
  split at h
  · cases h
  · split at h
    · cases h
    · simp only [Except.ok.injEq] at h
      have := io_read_string_length s n b (by rw [h, hb])
      exact this.symm

theorem rpa_unpickle_long1_lt (pos length : Nat) (s : ByteStream) :
    (rpa_unpickle_long1 pos length s).1 < 2 ^ 32 := by
  unfold rpa_unpickle_long1
  have : ∀ (l : List Nat) (acc : Nat × ByteStream), acc.1 < 2 ^ 32 →
      (l.foldl
        (fun (acc : Nat × ByteStream) i =>
          (((acc.1 * 256) % 2 ^ 32
            + (io_read_u8 (io_seek acc.2 (pos + length - 1 - i)).2).1) % 2 ^ 32,
            (io_read_u8 (io_seek acc.2 (pos + length - 1 - i)).2).2))
        acc).1 < 2 ^ 32 := by
    intro l
    induction l with
    | nil => intro acc h; exact h
    | cons i l ih =>
      intro acc _
      simp only [List.foldl_cons]
      exact ih _ (Nat.mod_lt _ (by norm_num))
  exact this _ _ (by norm_num)

/-- The `switch` keeps the arrays consistent. -/
theorem rpa_unpickle_switch_consistent (c : Nat) (s s2 : ByteStream)
    (ctx ctx2 : RpaUnpickleContext) (r : Option Bool) (hc : ctx.consistent)
    (h : rpa_unpickle_switch c s ctx = .ok (r, s2, ctx2)) : ctx2.consistent := by
  by_cases hs : rpa_opcode_supported c
  swap
  · rw [rpa_unpickle_switch_default c s ctx hs] at h
    simp only [Except.ok.injEq, Prod.mk.injEq] at h
    obtain ⟨_, _, rfl⟩ := h
    exact hc
  unfold rpa_opcode_supported at hs
  rcases hs with hs | hs | hs | hs | hs | hs | hs | hs | hs | hs | hs
  · subst hs
    rw [rpa_unpickle_switch_short_binstring] at h
    split at h
    · cases h
    · rename_i str s3 hs
      simp only [Except.ok.injEq, Prod.mk.injEq] at h
      obtain ⟨_, _, rfl⟩ := h
      exact rpa_unpickle_handle_string_consistent _ _ _
        (rpa_unpickle_read_string_length _ _ _ _ hs) hc
  · subst hs
    rw [rpa_unpickle_switch_binunicode] at h
    split at h
    · cases h
    · rename_i str s3 hs
      simp only [Except.ok.injEq, Prod.mk.injEq] at h
      obtain ⟨_, _, rfl⟩ := h
      exact rpa_unpickle_handle_string_consistent _ _ _
        (rpa_unpickle_read_string_length _ _ _ _ hs) hc
  · subst hs
    rw [rpa_unpickle_switch_binint1] at h
    simp only [Except.ok.injEq, Prod.mk.injEq] at h
    obtain ⟨_, _, rfl⟩ := h
    exact rpa_unpickle_handle_number_consistent _ _
      (Nat.lt_trans (io_read_u8_lt s) (by norm_num)) hc
  · subst hs
    rw [rpa_unpickle_switch_binint2] at h
    simp only [Except.ok.injEq, Prod.mk.injEq] at h
    obtain ⟨_, _, rfl⟩ := h
    exact rpa_unpickle_handle_number_consistent _ _
      (Nat.lt_trans (io_read_u16_le_lt s) (by norm_num)) hc
  · subst hs
    rw [rpa_unpickle_switch_binint4] at h
    simp only [Except.ok.injEq, Prod.mk.injEq] at h
    obtain ⟨_, _, rfl⟩ := h
    exact rpa_unpickle_handle_number_consistent _ _ (io_read_u32_le_lt s) hc
  · subst hs
    rw [rpa_unpickle_switch_long1] at h
    simp only [Except.ok.injEq, Prod.mk.injEq] at h
    obtain ⟨_, _, rfl⟩ := h
    exact rpa_unpickle_handle_number_consistent _ _ (rpa_unpickle_long1_lt _ _ _) hc
  · subst hs
    rw [rpa_unpickle_switch_proto] at h
    simp only [Except.ok.injEq, Prod.mk.injEq] at h
    obtain ⟨_, _, rfl⟩ := h
    exact hc
  · subst hs
    rw [rpa_unpickle_switch_binput] at h
    simp only [Except.ok.injEq, Prod.mk.injEq] at h
    obtain ⟨_, _, rfl⟩ := h
    exact hc
  · subst hs
    rw [rpa_unpickle_switch_long_binput] at h
    simp only [Except.ok.injEq, Prod.mk.injEq] at h
    obtain ⟨_, _, rfl⟩ := h
    exact hc
  · rw [rpa_unpickle_switch_structural c s ctx hs] at h
    simp only [Except.ok.injEq, Prod.mk.injEq] at h
    obtain ⟨_, _, rfl⟩ := h
    exact hc
  · subst hs
    rw [rpa_unpickle_switch_stop] at h
    simp only [Except.ok.injEq, Prod.mk.injEq] at h
    obtain ⟨_, _, rfl⟩ := h
    exact hc

/-- Whatever `rpa_unpickle` returns, the arrays it leaves are consistent. -/
theorem rpa_unpickle_loop_consistent (fuel : Nat) (s s2 : ByteStream)
    (ctx ctx2 : RpaUnpickleContext) (b : Bool) (hc : ctx.consistent)
    (h : rpa_unpickle_loop fuel s ctx = .ok (b, s2, ctx2)) : ctx2.consistent := by
  induction fuel generalizing s ctx with
  | zero => rw [rpa_unpickle_loop] at h; cases h
  | succ n ih =>
    rw [rpa_unpickle_loop] at h
    by_cases hlt : io_tell s < io_size s
    · rw [if_pos hlt] at h
      cases hb : rpa_unpickle_body s ctx with
      | error f => rw [hb] at h; cases h
      | ok res =>
        obtain ⟨r, s3, ctx3⟩ := res
        have h3 : ctx3.consistent := rpa_unpickle_switch_consistent _ _ _ _ _ _ hc hb
        rw [hb] at h
        cases r with
        | some b2 =>
          simp only [Except.ok.injEq, Prod.mk.injEq] at h
          obtain ⟨_, _, rfl⟩ := h
          exact h3
        | none => exact ih s3 ctx3 h3 h
    · rw [if_neg hlt] at h
      simp only [Except.ok.injEq, Prod.mk.injEq] at h
      obtain ⟨_, _, rfl⟩ := h
      exact hc

theorem rpa_unpickle_consistent (s s2 : ByteStream) (ctx ctx2 : RpaUnpickleContext) (b : Bool)
    (hc : ctx.consistent) (h : rpa_unpickle s ctx = .ok (b, s2, ctx2)) : ctx2.consistent :=
  rpa_unpickle_loop_consistent _ s s2 ctx ctx2 b hc h

/-! ## `rpa_decode_table` -/

/-- `rpa_decode_table` in terms of what `rpa_unpickle` left in the arrays. -/
theorem rpa_decode_table_of_unpickle (table : Bytes) (key : Nat) (b : Bool) (s : ByteStream)
    (ctx : RpaUnpickleContext)
    (h : rpa_unpickle (io_create_from_buffer table)
      { strings := [], string_lengths := [], numbers := [] } = .ok (b, s, ctx)) :
    rpa_decode_table table key =
      if ctx.strings.length % 2 ≠ 0 then .error .assertion
      else if ctx.numbers.length ≠ ctx.strings.length then .error .assertion
      else .ok ((List.range (ctx.strings.length / 2)).map (rpa_decode_entry ctx key)) := by
  unfold rpa_decode_table
  simp only [h]

theorem rpa_table_ops_valid (key : Nat) (hk : key < 2 ^ 32) (rows : List RpaQuad)
    (hr : ∀ q ∈ rows, q.fits) : ∀ op ∈ rpa_table_ops key rows, op.valid := by
  induction rows with
  | nil => intro op hop; simp [rpa_table_ops] at hop
  | cons q rows ih =>
    intro op hop
    obtain ⟨f1, f2, f3, f4⟩ := hr q (List.mem_cons_self _ _)
    simp only [rpa_table_ops, RpaQuad.ops, List.cons_append, List.nil_append,
      List.mem_cons] at hop
    rcases hop with hop | hop | hop | hop | hop
    · subst hop; exact f1
    · subst hop; exact f2
    · subst hop; exact Nat.xor_lt_two_pow f3 hk
    · subst hop; exact Nat.xor_lt_two_pow f4 hk
    · exact ih (fun q hq => hr q (List.mem_cons_of_mem _ hq)) op hop

theorem rpa_table_ops_push (key : Nat) (rows : List RpaQuad) (ctx : RpaUnpickleContext) :
    (rpa_table_ops key rows).foldl PickleOp.push ctx
      = { strings := ctx.strings ++ rpa_rows_strings rows
          string_lengths := ctx.string_lengths ++ rpa_rows_lengths rows
          numbers := ctx.numbers ++ rpa_rows_numbers key rows } := by
  induction rows generalizing ctx with
  | nil => simp [rpa_table_ops, rpa_rows_strings, rpa_rows_lengths, rpa_rows_numbers]
  | cons q rows ih =>
    simp only [rpa_table_ops, RpaQuad.ops, List.cons_append, List.nil_append, List.foldl_cons,
      PickleOp.push, rpa_unpickle_handle_string, rpa_unpickle_handle_number]
    rw [ih]
    simp [rpa_rows_strings, rpa_rows_lengths, rpa_rows_numbers]

theorem rpa_rows_strings_length (rows : List RpaQuad) :
    (rpa_rows_strings rows).length = 2 * rows.length := by
  induction rows with
  | nil => rfl
  | cons q rows ih => simp only [rpa_rows_strings, List.length_cons, ih]; omega

theorem rpa_rows_numbers_length (key : Nat) (rows : List RpaQuad) :
    (rpa_rows_numbers key rows).length = 2 * rows.length := by
  induction rows with
  | nil => rfl
  | cons q rows ih => simp only [rpa_rows_numbers, List.length_cons, ih]; omega

theorem xor_key_cancel (v key : Nat) (hv : v < 2 ^ 32) (hk : key < 2 ^ 32) :
    ((v ^^^ key) % 2 ^ 32) ^^^ (key % 2 ^ 32) = v := by
  rw [Nat.mod_eq_of_lt (Nat.xor_lt_two_pow hv hk), Nat.mod_eq_of_lt hk, Nat.xor_assoc,
    Nat.xor_self, Nat.xor_zero]

/-- Entry `i` assembled from the arrays the rows of a table leave. -/
theorem rpa_decode_entry_rows (key : Nat) (hk : key < 2 ^ 32) (rows : List RpaQuad)
    (hr : ∀ q ∈ rows, q.fits) (i : Nat) (hi : i < rows.length) :
    rpa_decode_entry
      { strings := rpa_rows_strings rows, string_lengths := rpa_rows_lengths rows
        numbers := rpa_rows_numbers key rows } key i
      = (rows.get ⟨i, hi⟩).entry := by
  induction rows generalizing i with
  | nil => simp at hi
  | cons q rows ih =>
    cases i with
    | zero =>
      obtain ⟨_, _, f3, f4⟩ := hr q (List.mem_cons_self _ _)
      simp only [rpa_decode_entry, rpa_rows_strings, rpa_rows_lengths, rpa_rows_numbers,
        Nat.zero_mul, Nat.zero_add, List.getD_cons_zero, List.getD_cons_succ, List.get,
        RpaQuad.entry, xor_key_cancel _ _ f3 hk, xor_key_cancel _ _ f4 hk]
    | succ i =>
      have := ih (fun q hq => hr q (List.mem_cons_of_mem _ hq)) i (by simpa using hi)
      simp only [rpa_decode_entry, rpa_rows_strings, rpa_rows_lengths, rpa_rows_numbers,
        Nat.succ_mul, List.getD_cons_succ, List.get] at this ⊢
      exact this

/-! ## Claims about the compressed-table decoder -/

/-- C2. Compressed-table round trip: for every 32-bit key and every list of rows
(name, prefix, offset, size) whose string lengths, offsets and sizes fit 32
bits, the payload made of the rows in order, each as two long strings ('X',
4-byte little-endian length) and two 4-byte integers ('J') holding offset XOR
key and size XOR key, followed by the stop marker, is decoded by
`rpa_decode_table` with that key into exactly one entry per row, in order,
with the row's name, prefix, prefix length, offset and size. -/
theorem rpa_decode_table_round_trip (key : Nat) (rows : List RpaQuad) (hk : key < 2 ^ 32)
    (hr : ∀ q ∈ rows, q.fits) :
    rpa_decode_table (rpa_encode_table key rows) key = .ok (rows.map RpaQuad.entry)
      ∧ (rows.map RpaQuad.entry).length = rows.length := by
  refine ⟨?_, List.length_map _ _⟩
  have hu := rpa_unpickle_ops_stop (rpa_table_ops key rows) (rpa_table_ops_valid key hk rows hr)
    [] { strings := [], string_lengths := [], numbers := [] }
  rw [rpa_table_ops_push] at hu
  simp only [List.nil_append] at hu
  rw [show rpa_encode_table key rows = encode_ops (rpa_table_ops key rows) ++ [u8 PICKLE_STOP]
    from rfl, rpa_decode_table_of_unpickle _ key _ _ _ hu]
  simp only [rpa_rows_strings_length, rpa_rows_numbers_length]
  rw [if_neg (by omega), if_neg (by simp), Nat.mul_div_cancel_left _ (by norm_num)]
  congr 1
  apply List.ext_get
  · simp
  · intro i h1 h2
    simp only [List.get_eq_getElem, List.getElem_map, List.getElem_range]
    have hi : i < rows.length := by simpa using h2
    exact rpa_decode_entry_rows key hk rows hr i hi

/-- Witness of C2: two rows under the key 0x42. -/
theorem rpa_decode_table_round_trip_witness :
    (0x42 < 2 ^ 32
      ∧ ∀ q ∈ [(⟨[0x61, 0x62], [0x70], 100, 5⟩ : RpaQuad), ⟨[0x63], [], 0x12345678, 0xffffffff⟩],
          q.fits)
    ∧ rpa_decode_table
        (rpa_encode_table 0x42
          [⟨[0x61, 0x62], [0x70], 100, 5⟩, ⟨[0x63], [], 0x12345678, 0xffffffff⟩]) 0x42
      = .ok [⟨some [0x61, 0x62], 100, 5, some [0x70], 1⟩,
             ⟨some [0x63], 0x12345678, 0xffffffff, some [], 0⟩] :=
  ⟨⟨by decide, by decide⟩,
    (rpa_decode_table_round_trip 0x42
      [⟨[0x61, 0x62], [0x70], 100, 5⟩, ⟨[0x63], [], 0x12345678, 0xffffffff⟩]
      (by decide) (by decide)).1⟩

set_option maxRecDepth 100000 in
/-- C1. On a table payload that `rpa_unpickle` fails on, `rpa_decode_table` still
returns entries: the payload with one complete row followed by the unsupported
byte 0xff, and the same payload cut before any stop marker, both make
`rpa_unpickle` return `false` and `rpa_decode_table` return the entry of the
row, and `rpa_unpack` deposits that file and returns `true`. -/
theorem rpa_decode_table_ignores_unpickle_failure :
    rpa_unpickle (io_create_from_buffer rpa_table_bad_opcode)
        { strings := [], string_lengths := [], numbers := [] }
      = .ok (false, ⟨rpa_table_bad_opcode, 23⟩,
          { strings := [some [0x61], some [0x70]], string_lengths := [1, 1], numbers := [5, 3] })
    ∧ rpa_decode_table rpa_table_bad_opcode 0 = .ok [⟨some [0x61], 5, 3, some [0x70], 1⟩]
    ∧ rpa_unpickle (io_create_from_buffer rpa_table_no_stop)
        { strings := [], string_lengths := [], numbers := [] }
      = .ok (false, ⟨rpa_table_no_stop, 22⟩,
          { strings := [some [0x61], some [0x70]], string_lengths := [1, 1], numbers := [5, 3] })
    ∧ rpa_decode_table rpa_table_no_stop 0 = .ok [⟨some [0x61], 5, 3, some [0x70], 1⟩]
    ∧ rpa_unpack (host_inflating rpa_table_bad_opcode) (io_create_from_buffer rpa_archive_v2)
        output_files_create_memory
      = .ok (true, ⟨rpa_archive_v2, 8⟩,
          { output_files_create_memory with
            files := [⟨[0x61], [0x70, 0x2e, 0x30, 0x20]⟩] }) := by
  refine ⟨?_, ?_, ?_, ?_, ?_⟩ <;> decide

/-- A pass that ended in `break` read a supported opcode other than the stop
marker. -/
theorem rpa_unpickle_passes_supported (n : Nat) (s s1 : ByteStream)
    (ctx c1 : RpaUnpickleContext) (h : rpa_unpickle_passes (n + 1) s ctx = some (s1, c1)) :
    rpa_opcode_supported (io_read_u8 s).1 ∧ (io_read_u8 s).1 ≠ PICKLE_STOP := by
  obtain ⟨_, s2, ctx2, hb, _⟩ := rpa_unpickle_passes_succ n s s1 ctx c1 h
  unfold rpa_unpickle_body at hb
  rcases rpa_unpickle_switch_cases (io_read_u8 s).1 (io_read_u8 s).2 ctx with
    ⟨_, h2⟩ | ⟨_, h2⟩ | ⟨h3, h4, _⟩
  · rw [h2] at hb; cases hb
  · rw [h2] at hb; cases hb
  · exact ⟨h3, h4⟩

set_option maxRecDepth 100000 in
/-- C4. `rpa_unpickle` returns `true` if and only if, after some number of passes
of its loop that each read a supported opcode and ended in `break`, the byte
at the cursor (an opcode position) is the stop marker '.'. When such passes
bring the cursor to the end of the payload it returns `false`, as on the
empty payload and on every payload of complete supported opcodes without a
stop marker whose short strings are shorter than 128 bytes. It does not
return `false` on every such payload: the payload 'U', 128, 128 bytes is one
complete short string opcode without a stop marker, and on it `rpa_unpickle`
stops on the assertion `str != NULL`, because the length byte goes through a
signed `char`. -/
theorem rpa_unpickle_success_iff_stop (payload : Bytes) (ctx : RpaUnpickleContext) :
    ((∃ s c, rpa_unpickle (io_create_from_buffer payload) ctx = .ok (true, s, c)) ↔
      ∃ n s c, rpa_unpickle_passes n (io_create_from_buffer payload) ctx = some (s, c)
        ∧ io_tell s < io_size s ∧ (io_read_u8 s).1 = PICKLE_STOP)
    ∧ (∀ n s c, rpa_unpickle_passes n (io_create_from_buffer payload) ctx = some (s, c) →
        io_size s ≤ io_tell s →
        rpa_unpickle (io_create_from_buffer payload) ctx = .ok (false, s, c))
    ∧ (∀ ops : List PickleOp, (∀ op ∈ ops, op.valid) → payload = encode_ops ops →
        rpa_unpickle (io_create_from_buffer payload) ctx
          = .ok (false, ⟨payload, payload.length⟩, ops.foldl PickleOp.push ctx))
    ∧ (payload = [] → rpa_unpickle (io_create_from_buffer payload) ctx
          = .ok (false, ⟨[], 0⟩, ctx))
    ∧ rpa_table_short_string_no_stop
        = encode_ops [PickleOp.short_binstring (List.replicate 128 0x61)]
    ∧ rpa_unpickle (io_create_from_buffer rpa_table_short_string_no_stop)
        { strings := [], string_lengths := [], numbers := [] } = .error .assertion := by
  refine ⟨⟨?_, ?_⟩, ?_, ?_, ?_, by decide, by decide⟩
  · rintro ⟨s, c, h⟩
    obtain ⟨n, s1, h1, h2, h3, _⟩ := rpa_unpickle_true_stop _ _ s ctx c (Nat.le_refl _) h
    exact ⟨n, s1, c, h1, h2, h3⟩
  · rintro ⟨n, s, c, h1, h2, h3⟩
    rw [rpa_unpickle_passes_run _ _ _ _ _ h1, rpa_unpickle_unfold, if_pos h2]
    unfold rpa_unpickle_body
    rw [h3, rpa_unpickle_switch_stop]
    exact ⟨_, _, rfl⟩
  · intro n s c h1 h2
    rw [rpa_unpickle_passes_run _ _ _ _ _ h1, rpa_unpickle_unfold, if_neg (by omega)]
  · intro ops hv hp
    subst hp
    exact rpa_unpickle_ops_end ops hv ctx
  · intro hp
    subst hp
    rfl

/-- The set of bytes the `switch` has a `case` for, against the listed opcode
set: append-many 'e' is listed and has no `case`, set-items 'u' has a `case`
and is not listed. -/
theorem rpa_opcode_supported_iff_listed (c : Nat) :
    rpa_opcode_supported c
      ↔ (rpa_opcode_listed c ∧ c ≠ PICKLE_APPENDS) ∨ c = PICKLE_SETITEMS := by
  simp only [rpa_opcode_supported, rpa_opcode_structural, rpa_opcode_listed,
    PICKLE_SHORT_BINSTRING, PICKLE_BINUNICODE, PICKLE_BININT1, PICKLE_BININT2, PICKLE_BININT4,
    PICKLE_LONG1, PICKLE_PROTO, PICKLE_BINPUT, PICKLE_LONG_BINPUT, PICKLE_APPEND,
    PICKLE_SETITEMS, PICKLE_MARK, PICKLE_EMPTY_LIST, PICKLE_EMPTY_DICT, PICKLE_TUPLE1,
    PICKLE_TUPLE2, PICKLE_TUPLE3, PICKLE_STOP, PICKLE_APPENDS]
  omega

/-- C6. Whatever `rpa_unpickle` leaves in the arrays, `rpa_decode_table` fails its
assertion when the number of strings is odd and when the number of integers
differs from the number of strings; when it returns a table, the number of
strings is even, equals the number of integers, and the file count is half
of it. -/
theorem rpa_decode_table_count_guards (table : Bytes) (key : Nat) (b : Bool) (s : ByteStream)
    (ctx : RpaUnpickleContext)
    (h : rpa_unpickle (io_create_from_buffer table)
      { strings := [], string_lengths := [], numbers := [] } = .ok (b, s, ctx)) :
    (ctx.strings.length % 2 = 1 → rpa_decode_table table key = .error .assertion)
    ∧ (ctx.numbers.length ≠ ctx.strings.length →
        rpa_decode_table table key = .error .assertion)
    ∧ (∀ entries, rpa_decode_table table key = .ok entries →
        entries.length = ctx.strings.length / 2 ∧ ctx.strings.length % 2 = 0
          ∧ ctx.numbers.length = ctx.strings.length) := by
  rw [rpa_decode_table_of_unpickle table key b s ctx h]
  refine ⟨?_, ?_, ?_⟩
  · intro ho
    rw [if_pos (by omega)]
  · intro hn
    by_cases h1 : ctx.strings.length % 2 ≠ 0
    · rw [if_pos h1]
    · rw [if_neg h1, if_pos hn]
  · intro entries he
    split at he
    · cases he
    · split at he
      · cases he
      · simp only [Except.ok.injEq] at he
        subst he
        rename_i h1 h2
        refine ⟨by simp, by omega, by omega⟩

set_option maxRecDepth 100000 in
/-- Witness of C6: three strings and three integers before the stop marker. -/
theorem rpa_decode_table_count_guards_witness :
    rpa_unpickle
        (io_create_from_buffer [0x55, 0, 0x55, 0, 0x55, 0, 0x4b, 1, 0x4b, 2, 0x4b, 3, 0x2e])
        { strings := [], string_lengths := [], numbers := [] }
      = .ok (true, ⟨[0x55, 0, 0x55, 0, 0x55, 0, 0x4b, 1, 0x4b, 2, 0x4b, 3, 0x2e], 13⟩,
          { strings := [some [], some [], some []], string_lengths := [0, 0, 0]
            numbers := [1, 2, 3] })
    ∧ rpa_decode_table [0x55, 0, 0x55, 0, 0x55, 0, 0x4b, 1, 0x4b, 2, 0x4b, 3, 0x2e] 0
      = .error .assertion :=
  ⟨by decide,
    (rpa_decode_table_count_guards
      [0x55, 0, 0x55, 0, 0x55, 0, 0x4b, 1, 0x4b, 2, 0x4b, 3, 0x2e] 0 true
      ⟨[0x55, 0, 0x55, 0, 0x55, 0, 0x4b, 1, 0x4b, 2, 0x4b, 3, 0x2e], 13⟩
      { strings := [some [], some [], some []], string_lengths := [0, 0, 0]
        numbers := [1, 2, 3] }
      (by decide)).1 (by decide)⟩

/-- C7. When `rpa_unpickle` leaves `2 * k` strings and `2 * k` integers, for every
32-bit key `rpa_decode_table` returns `k` entries, and entry `i` has name
`strings[2i]`, prefix `strings[2i+1]`, prefix size `string_lengths[2i+1]`
(the length of the prefix as read), offset `numbers[2i] XOR key` and size
`numbers[2i+1] XOR key`, the integers being 32-bit values; names and prefixes
do not depend on the key, and with key 0 offset and size are the integers
themselves. -/
theorem rpa_decode_table_entries (table : Bytes) (key k : Nat) (b : Bool) (s : ByteStream)
    (ctx : RpaUnpickleContext)
    (h : rpa_unpickle (io_create_from_buffer table)
      { strings := [], string_lengths := [], numbers := [] } = .ok (b, s, ctx))
    (hs : ctx.strings.length = 2 * k) (hn : ctx.numbers.length = 2 * k) (hk : key < 2 ^ 32) :
    ∃ entries, rpa_decode_table table key = .ok entries ∧ entries.length = k ∧
      ∀ i, i < k → ∃ e name pfx len o z,
        entries[i]? = some e
        ∧ ctx.strings[2 * i]? = some name ∧ ctx.strings[2 * i + 1]? = some pfx
        ∧ ctx.string_lengths[2 * i + 1]? = some len
        ∧ ctx.numbers[2 * i]? = some o ∧ ctx.numbers[2 * i + 1]? = some z
        ∧ e = { name := name, prefix_data := pfx, prefix_size := len
                offset := o ^^^ key, size := z ^^^ key }
        ∧ o < 2 ^ 32 ∧ z < 2 ^ 32 ∧ e.offset < 2 ^ 32 ∧ e.size < 2 ^ 32
        ∧ (∀ p, pfx = some p → len = p.length)
        ∧ (key = 0 → e.offset = o ∧ e.size = z) := by
  obtain ⟨c1, c2, c3⟩ := rpa_unpickle_consistent _ _ _ _ _
    RpaUnpickleContext.consistent_empty h
  refine ⟨(List.range (ctx.strings.length / 2)).map (rpa_decode_entry ctx key), ?_, ?_, ?_⟩
  · rw [rpa_decode_table_of_unpickle table key b s ctx h, if_neg (by omega), if_neg (by omega)]
  · simp only [List.length_map, List.length_range]
    omega
  · intro i hi
    have hk2 : ctx.strings.length / 2 = k := by omega
    have i0 : 2 * i < ctx.strings.length := by omega
    have i1 : 2 * i + 1 < ctx.strings.length := by omega
    have l1 : 2 * i + 1 < ctx.string_lengths.length := by omega
    have n0 : 2 * i < ctx.numbers.length := by omega
    have n1 : 2 * i + 1 < ctx.numbers.length := by omega
    have ho : ctx.numbers[2 * i] < 2 ^ 32 := c2 _ (List.getElem_mem _)
    have hz : ctx.numbers[2 * i + 1] < 2 ^ 32 := c2 _ (List.getElem_mem _)
    refine ⟨rpa_decode_entry ctx key i, ctx.strings[2 * i], ctx.strings[2 * i + 1],
      ctx.string_lengths[2 * i + 1], ctx.numbers[2 * i], ctx.numbers[2 * i + 1],
      ?_, List.getElem?_eq_getElem i0, List.getElem?_eq_getElem i1,
      List.getElem?_eq_getElem l1, List.getElem?_eq_getElem n0, List.getElem?_eq_getElem n1,
      ?_, ho, hz, ?_, ?_, ?_, ?_⟩
    · rw [List.getElem?_map, List.getElem?_range (by omega)]
      rfl
    · unfold rpa_decode_entry
      rw [Nat.mul_comm i 2, List.getD_eq_getElem _ _ i0, List.getD_eq_getElem _ _ i1,
        List.getD_eq_getElem _ _ l1, List.getD_eq_getElem _ _ n0, List.getD_eq_getElem _ _ n1,
        Nat.mod_eq_of_lt ho, Nat.mod_eq_of_lt hz, Nat.mod_eq_of_lt hk]
    · unfold rpa_decode_entry
      exact Nat.xor_lt_two_pow (Nat.mod_lt _ (by norm_num)) (Nat.mod_lt _ (by norm_num))
    · unfold rpa_decode_entry
      exact Nat.xor_lt_two_pow (Nat.mod_lt _ (by norm_num)) (Nat.mod_lt _ (by norm_num))
    · intro p hp
      have hm : (ctx.strings[2 * i + 1], ctx.string_lengths[2 * i + 1])
          ∈ ctx.strings.zip ctx.string_lengths := by
        rw [List.mem_iff_getElem]
        refine ⟨2 * i + 1, by simp only [List.length_zip]; omega, ?_⟩
        rw [List.getElem_zip]
      exact c3 _ hm p hp
    · intro hk0
      subst hk0
      unfold rpa_decode_entry
      rw [Nat.mul_comm i 2, List.getD_eq_getElem _ _ n0, List.getD_eq_getElem _ _ n1,
        Nat.mod_eq_of_lt ho, Nat.mod_eq_of_lt hz]
      simp

set_option maxRecDepth 100000 in
/-- Witness of C7: one row read under the key 0xff. -/
theorem rpa_decode_table_entries_witness :
    rpa_unpickle
        (io_create_from_buffer [0x55, 1, 0x61, 0x55, 2, 0x70, 0x71, 0x4b, 0xf5, 0x4d, 0xff, 1, 0x2e])
        { strings := [], string_lengths := [], numbers := [] }
      = .ok (true, ⟨[0x55, 1, 0x61, 0x55, 2, 0x70, 0x71, 0x4b, 0xf5, 0x4d, 0xff, 1, 0x2e], 13⟩,
          { strings := [some [0x61], some [0x70, 0x71]], string_lengths := [1, 2]
            numbers := [0xf5, 0x1ff] })
    ∧ rpa_decode_table [0x55, 1, 0x61, 0x55, 2, 0x70, 0x71, 0x4b, 0xf5, 0x4d, 0xff, 1, 0x2e] 0xff
      = .ok [⟨some [0x61], 0x0a, 0x100, some [0x70, 0x71], 2⟩]
    ∧ ∃ entries,
        rpa_decode_table [0x55, 1, 0x61, 0x55, 2, 0x70, 0x71, 0x4b, 0xf5, 0x4d, 0xff, 1, 0x2e] 0xff
          = .ok entries ∧ entries.length = 1 :=
  ⟨by decide, by decide,
    match rpa_decode_table_entries
      [0x55, 1, 0x61, 0x55, 2, 0x70, 0x71, 0x4b, 0xf5, 0x4d, 0xff, 1, 0x2e] 0xff 1 true
      ⟨[0x55, 1, 0x61, 0x55, 2, 0x70, 0x71, 0x4b, 0xf5, 0x4d, 0xff, 1, 0x2e], 13⟩
      { strings := [some [0x61], some [0x70, 0x71]], string_lengths := [1, 2]
        numbers := [0xf5, 0x1ff] }
      (by decide) (by decide) (by decide) (by decide) with
    | ⟨entries, h1, h2, _⟩ => ⟨entries, h1, h2⟩⟩

/-! ## Claims about extraction -/

/-- Counterexample of C8: an empty entry at the very end of the stream has
`offset + size` not past the end, and `rpa_read_file` fails the assertion
`offset < io_size` instead of producing a file. -/
theorem rpa_read_file_at_end_of_stream :
    (3 + 0 ≤ io_size ⟨[1, 2, 3], 0⟩)
    ∧ rpa_read_file ⟨⟨[1, 2, 3], 0⟩, ⟨some [0x61], 3, 0, some [], 0⟩⟩ = .error .assertion :=
  ⟨by decide, by decide⟩

/-- C8, amended. For every table entry with `offset` below the size of the archive
stream and `offset + size` not past its end, and whatever the cursor was
before the call, `rpa_read_file` returns a file named by the entry (its name
as a C string) whose content is the first `prefix_size` bytes of the prefix
followed by the `size` bytes of the stream at `offset .. offset + size - 1`,
and leaves the cursor at `offset + size`. -/
theorem rpa_read_file_in_bounds (arc_io : ByteStream) (entry : RpaTableEntry)
    (name pfx : Bytes) (hname : entry.name = some name) (hpfx : entry.prefix_data = some pfx)
    (hps : entry.prefix_size ≤ pfx.length) (ho : entry.offset < io_size arc_io)
    (hsz : entry.offset + entry.size ≤ io_size arc_io) :
    rpa_read_file ⟨arc_io, entry⟩
      = .ok (some ⟨c_string name,
              pfx.take entry.prefix_size ++ (arc_io.data.drop entry.offset).take entry.size⟩,
            ⟨⟨arc_io.data, entry.offset + entry.size⟩, entry⟩) := by
  unfold io_size at ho hsz
  unfold rpa_read_file
  simp only [io_seek, io_size, io_read_string, hname, hpfx]
  rw [if_pos (Nat.le_of_lt ho)]
  simp only [Bool.true_eq_false, if_false, ho, not_true_eq_false]
  rw [if_neg (by omega), if_pos hsz, List.take_append_of_le_length hps]

/-- Witness of C8, amended: two bytes read at offset 1 after a two-byte prefix,
with the cursor at the end of the stream before the call. -/
theorem rpa_read_file_in_bounds_witness :
    (1 < io_size ⟨[1, 2, 3], 3⟩ ∧ 1 + 2 ≤ io_size ⟨[1, 2, 3], 3⟩)
    ∧ rpa_read_file ⟨⟨[1, 2, 3], 3⟩, ⟨some [0x61], 1, 2, some [9, 8], 2⟩⟩
      = .ok (some ⟨[0x61], [9, 8, 2, 3]⟩,
          ⟨⟨[1, 2, 3], 3⟩, ⟨some [0x61], 1, 2, some [9, 8], 2⟩⟩) :=
  ⟨by decide,
    rpa_read_file_in_bounds ⟨[1, 2, 3], 3⟩ ⟨some [0x61], 1, 2, some [9, 8], 2⟩ [0x61] [9, 8]
      rfl rfl (by decide) (by decide) (by decide)⟩

theorem rpa_read_file_data (ctx ctx2 : RpaUnpackContext) (file : Option VirtualFile)
    (h : rpa_read_file ctx = .ok (file, ctx2)) : ctx2.arc_io.data = ctx.arc_io.data := by
  unfold rpa_read_file at h
  simp only at h
  split at h
  · cases h
  split at h
  · cases h
  split at h
  · cases h
  split at h
  · cases h
  split at h
  · cases h
  rename_i body s hr
  split at h
  · cases h
  simp only [Except.ok.injEq, Prod.mk.injEq] at h
  obtain ⟨_, rfl⟩ := h
  simp only
  have h1 := io_read_string_forward (io_seek ctx.arc_io ctx.table_entry.offset).2
    ctx.table_entry.size
  rw [hr] at h1
  rw [h1.1, io_seek_data]

/-- `rpa_read_file` on an entry that is not inside the stream never returns. -/
theorem rpa_read_file_out_of_bounds (ctx : RpaUnpackContext)
    (hb : io_size ctx.arc_io ≤ ctx.table_entry.offset
      ∨ io_size ctx.arc_io < ctx.table_entry.offset + ctx.table_entry.size) :
    (∃ f, rpa_read_file ctx = .error f)
      ∧ (ctx.table_entry.name ≠ none → ctx.table_entry.prefix_data ≠ none →
          (∀ p, ctx.table_entry.prefix_data = some p → ctx.table_entry.prefix_size ≤ p.length) →
          rpa_read_file ctx = .error .assertion) := by
  unfold io_size at hb
  unfold rpa_read_file
  simp only [io_seek, io_size]
  by_cases h1 : ctx.table_entry.offset ≤ ctx.arc_io.data.length
  swap
  · rw [if_neg h1]
    simp only [if_true]
    exact ⟨⟨_, rfl⟩, fun _ _ _ => trivial⟩
  rw [if_pos h1]
  simp only [Bool.true_eq_false, if_false]
  by_cases h2 : ctx.table_entry.offset < ctx.arc_io.data.length
  swap
  · rw [if_pos h2]
    exact ⟨⟨_, rfl⟩, fun _ _ _ => rfl⟩
  rw [if_neg (by simpa using h2)]
  have h3 : ¬ ctx.table_entry.offset + ctx.table_entry.size ≤ ctx.arc_io.data.length := by
    omega
  cases hp : ctx.table_entry.prefix_data with
  | none => exact ⟨⟨_, rfl⟩, fun _ hne _ => absurd rfl hne⟩
  | some buf =>
    simp only
    by_cases h4 : buf.length + 1 < ctx.table_entry.prefix_size
    · rw [if_pos h4]
      refine ⟨⟨_, rfl⟩, fun _ _ hle => ?_⟩
      have := hle buf rfl
      omega
    · rw [if_neg h4]
      simp only [io_read_string, if_neg h3]
      exact ⟨⟨_, rfl⟩, fun _ _ _ => trivial⟩

theorem output_files_save_rpa_read_file (host : Host) (out out2 : OutputFiles)
    (ctx ctx2 : RpaUnpackContext) (r : Option Bool)
    (h : output_files_save host out rpa_read_file ctx = .ok (r, out2, ctx2)) :
    ∃ file, rpa_read_file ctx = .ok (file, ctx2) := by
  unfold output_files_save at h
  cases hs : out.save with
  | save_to_hdd =>
    rw [hs] at h
    simp only [save_to_hdd] at h
    split at h
    · cases h
    cases hr : rpa_read_file ctx with
    | error f => rw [hr] at h; cases h
    | ok res =>
      obtain ⟨file, c⟩ := res
      rw [hr] at h
      cases file with
      | none =>
        simp only [Except.ok.injEq, Prod.mk.injEq] at h
        obtain ⟨_, _, rfl⟩ := h
        exact ⟨_, rfl⟩
      | some f =>
        simp only at h
        split at h
        · cases h
        split at h
        · cases h
        split at h
        · simp only [Except.ok.injEq, Prod.mk.injEq] at h
          obtain ⟨_, _, rfl⟩ := h
          exact ⟨_, rfl⟩
        · simp only [Except.ok.injEq, Prod.mk.injEq] at h
          obtain ⟨_, _, rfl⟩ := h
          exact ⟨_, rfl⟩
  | save_to_memory =>
    rw [hs] at h
    simp only [save_to_memory] at h
    split at h
    · cases h
    cases hr : rpa_read_file ctx with
    | error f => rw [hr] at h; cases h
    | ok res =>
      obtain ⟨file, c⟩ := res
      rw [hr] at h
      cases file with
      | none =>
        simp only [Except.ok.injEq, Prod.mk.injEq] at h
        obtain ⟨_, _, rfl⟩ := h
        exact ⟨_, rfl⟩
      | some f =>
        simp only [Except.ok.injEq, Prod.mk.injEq] at h
        obtain ⟨_, _, rfl⟩ := h
        exact ⟨_, rfl⟩

/-- The extraction loop does not complete when one entry of the table is not
inside the stream. -/
theorem rpa_unpack_files_out_of_bounds (host : Host) (entries : List RpaTableEntry)
    (arc_io : ByteStream) (out : OutputFiles) (e : RpaTableEntry) (he : e ∈ entries)
    (hb : io_size arc_io ≤ e.offset ∨ io_size arc_io < e.offset + e.size) :
    ∃ f, rpa_unpack_files host entries arc_io out = .error f := by
  induction entries generalizing arc_io out with
  | nil => cases he
  | cons entry rest ih =>
    rw [rpa_unpack_files]
    cases hs : output_files_save host out rpa_read_file
        { arc_io := arc_io, table_entry := entry } with
    | error f => exact ⟨f, rfl⟩
    | ok res =>
      obtain ⟨r, out2, ctx2⟩ := res
      obtain ⟨file, hf⟩ := output_files_save_rpa_read_file host out out2 _ ctx2 r hs
      simp only
      rcases List.mem_cons.mp he with rfl | hm
      · obtain ⟨⟨f, hf2⟩, _⟩ := rpa_read_file_out_of_bounds
          { arc_io := arc_io, table_entry := e } hb
        rw [hf2] at hf
        cases hf
      · apply ih ctx2.arc_io out2 hm
        have := rpa_read_file_data _ _ _ hf
        unfold io_size at hb ⊢
        rw [this]
        exact hb

theorem rpa_read_hex_digit_data (acc : Nat × ByteStream) :
    (rpa_read_hex_digit acc).2.data = acc.2.data := by
  have h := (io_read_u8_forward acc.2).1
  unfold rpa_read_hex_digit
  simp only
  split
  · exact h
  split
  · exact h
  split
  · exact h
  · exact h

theorem rpa_read_hex_number_data (arc_io : ByteStream) (length : Nat) :
    (rpa_read_hex_number arc_io length).2.data = arc_io.data := by
  unfold rpa_read_hex_number
  have : ∀ (l : List Nat) (acc : Nat × ByteStream),
      (l.foldl (fun acc _ => rpa_read_hex_digit acc) acc).2.data = acc.2.data := by
    intro l
    induction l with
    | nil => intro acc; rfl
    | cons i l ih =>
      intro acc
      simp only [List.foldl_cons]
      rw [ih, rpa_read_hex_digit_data]
  exact this _ _

theorem rpa_check_version_data (arc_io s : ByteStream) (v : Int)
    (h : rpa_check_version arc_io = .ok (v, s)) : s.data = arc_io.data := by
  have hf := (io_read_string_forward arc_io 8).1
  unfold rpa_check_version at h
  split at h
  · cases h
  · rename_i magic s1 hr
    rw [hr] at hf
    split at h
    · cases h; exact hf
    split at h
    · cases h; exact hf
    · cases h; exact hf

theorem rpa_unpack_header_data (arc_io s : ByteStream) (r : Option (Nat × Nat))
    (h : rpa_unpack_header arc_io = .ok (r, s)) : s.data = arc_io.data := by
  unfold rpa_unpack_header at h
  cases hv : rpa_check_version arc_io with
  | error f => rw [hv] at h; cases h
  | ok res =>
    obtain ⟨v, s0⟩ := res
    have hd := rpa_check_version_data arc_io s0 v hv
    rw [hv] at h
    simp only at h
    split at h
    · simp only [Except.ok.injEq, Prod.mk.injEq] at h
      obtain ⟨_, rfl⟩ := h
      rw [rpa_read_hex_number_data, (io_skip_forward _ _).1, rpa_read_hex_number_data, hd]
    split at h
    · simp only [Except.ok.injEq, Prod.mk.injEq] at h
      obtain ⟨_, rfl⟩ := h
      rw [rpa_read_hex_number_data, hd]
    · simp only [Except.ok.injEq, Prod.mk.injEq] at h
      obtain ⟨_, rfl⟩ := h
      exact hd

theorem rpa_read_raw_table_data (host : Host) (arc_io s : ByteStream) (r : Option Bytes)
    (h : rpa_read_raw_table host arc_io = .ok (r, s)) : s.data = arc_io.data := by
  have hf := (io_read_string_forward arc_io (io_size arc_io - io_tell arc_io)).1
  unfold rpa_read_raw_table at h
  simp only at h
  split at h
  · cases h
  · rename_i c s1 hr
    rw [hr] at hf
    simp only [Except.ok.injEq, Prod.mk.injEq] at h
    obtain ⟨_, rfl⟩ := h
    exact hf

set_option maxRecDepth 100000 in
/-- Counterexample of C9: the table of the archive has the row "a" at offset 100,
past the 26 bytes of the stream, and then the row "b" inside the stream; with
the persisted sink `rpa_unpack` fails the assertion of `rpa_read_file` on "a",
so it neither extracts "b" nor returns success. -/
theorem rpa_unpack_aborts_on_out_of_bounds_entry :
    io_size (io_create_from_buffer rpa_archive_v2) = 26
    ∧ rpa_decode_table rpa_table_two_rows 0
      = .ok [⟨some [0x61], 100, 1, some [], 0⟩, ⟨some [0x62], 5, 3, some [], 0⟩]
    ∧ rpa_unpack (host_inflating rpa_table_two_rows) (io_create_from_buffer rpa_archive_v2)
        (output_files_create_hdd none) = .error .assertion := by
  refine ⟨?_, ?_, ?_⟩ <;> decide

/-- C9, amended. In `rpa_unpack`, with either sink, an entry of the decoded table
whose offset is not below the size of the archive stream, or whose
`offset + size` exceeds it, is not isolated: `rpa_read_file` stops on it
whatever the cursor is, and `rpa_unpack` does not return. -/
theorem rpa_unpack_out_of_bounds_entry (host : Host) (arc_io s s1 s2 : ByteStream)
    (out : OutputFiles) (table_offset key : Nat) (table : Bytes)
    (entries : List RpaTableEntry) (e : RpaTableEntry)
    (hh : rpa_unpack_header arc_io = .ok (some (table_offset, key), s))
    (hseek : io_seek s table_offset = (true, s1))
    (hraw : rpa_read_raw_table host s1 = .ok (some table, s2))
    (hdec : rpa_decode_table table key = .ok entries) (he : e ∈ entries)
    (hb : io_size arc_io ≤ e.offset ∨ io_size arc_io < e.offset + e.size) :
    (∃ f, rpa_unpack host arc_io out = .error f)
      ∧ ∀ cursor, ∃ f, rpa_read_file ⟨⟨arc_io.data, cursor⟩, e⟩ = .error f := by
  refine ⟨?_, fun cursor => (rpa_read_file_out_of_bounds ⟨⟨arc_io.data, cursor⟩, e⟩ hb).1⟩
  have d1 := rpa_unpack_header_data _ _ _ hh
  have d2 : s1.data = s.data := by
    have := io_seek_data s table_offset
    rw [hseek] at this
    exact this
  have d3 := rpa_read_raw_table_data _ _ _ _ hraw
  have hb2 : io_size s2 ≤ e.offset ∨ io_size s2 < e.offset + e.size := by
    unfold io_size at hb ⊢
    rw [d3, d2, d1]
    exact hb
  obtain ⟨f, hf⟩ := rpa_unpack_files_out_of_bounds host entries s2 out e he hb2
  refine ⟨f, ?_⟩
  unfold rpa_unpack
  rw [hh]
  simp only [hseek, Bool.true_eq_false, if_false, hraw, hdec, hf]

set_option maxRecDepth 100000 in
/-- Witness of C9, amended: the archive of the counterexample, with the row "a"
at offset 100 of a stream of 26 bytes. -/
theorem rpa_unpack_out_of_bounds_entry_witness :
    (rpa_unpack_header (io_create_from_buffer rpa_archive_v2)
        = .ok (some (24, 0), ⟨rpa_archive_v2, 24⟩)
      ∧ io_size (io_create_from_buffer rpa_archive_v2) ≤ 100)
    ∧ ∃ f, rpa_unpack (host_inflating rpa_table_two_rows)
        (io_create_from_buffer rpa_archive_v2) output_files_create_memory = .error f :=
  ⟨⟨by decide, by decide⟩,
    (rpa_unpack_out_of_bounds_entry (host_inflating rpa_table_two_rows)
      (io_create_from_buffer rpa_archive_v2) ⟨rpa_archive_v2, 24⟩ ⟨rpa_archive_v2, 24⟩
      ⟨rpa_archive_v2, 26⟩ output_files_create_memory 24 0 rpa_table_two_rows
      [⟨some [0x61], 100, 1, some [], 0⟩, ⟨some [0x62], 5, 3, some [], 0⟩]
      ⟨some [0x61], 100, 1, some [], 0⟩
      (by decide) (by decide) (by decide) (by decide) (by decide) (Or.inl (by decide))).1⟩

/-- C10. On a stream with 8 bytes at the cursor, `rpa_check_version` returns 2 if
and only if these bytes are "RPA-2.0 " and 3 if and only if they are
"RPA-3.0 "; for every other signature it returns -1 and `rpa_unpack` returns
`false` with the cursor just after the signature, nothing else read, and the
sink unchanged. -/
theorem rpa_check_version_signature (arc_io : ByteStream)
    (h : arc_io.pos + 8 ≤ arc_io.data.length) :
    ∃ v, rpa_check_version arc_io = .ok (v, ⟨arc_io.data, arc_io.pos + 8⟩)
      ∧ (v = 2 ↔ (arc_io.data.drop arc_io.pos).take 8 = rpa_magic_2)
      ∧ (v = 3 ↔ (arc_io.data.drop arc_io.pos).take 8 = rpa_magic_3)
      ∧ ((arc_io.data.drop arc_io.pos).take 8 ≠ rpa_magic_2 →
          (arc_io.data.drop arc_io.pos).take 8 ≠ rpa_magic_3 →
          v = -1 ∧ ∀ (host : Host) (out : OutputFiles),
            rpa_unpack host arc_io out = .ok (false, ⟨arc_io.data, arc_io.pos + 8⟩, out)) := by
  have hr : io_read_string arc_io 8
      = (some ((arc_io.data.drop arc_io.pos).take 8), ⟨arc_io.data, arc_io.pos + 8⟩) := by
    unfold io_read_string
    rw [if_pos h]
  by_cases h2 : rpa_magic_2 = (arc_io.data.drop arc_io.pos).take 8
  · refine ⟨2, ?_, ?_, ?_, ?_⟩
    · unfold rpa_check_version
      rw [hr]
      simp only [if_pos h2]
    · exact ⟨fun _ => h2.symm, fun _ => rfl⟩
    · rw [← h2]
      exact ⟨fun hv => absurd hv (by decide), fun hm => absurd hm (by decide)⟩
    · intro hn; exact absurd h2.symm hn
  by_cases h3 : rpa_magic_3 = (arc_io.data.drop arc_io.pos).take 8
  · refine ⟨3, ?_, ?_, ?_, ?_⟩
    · unfold rpa_check_version
      rw [hr]
      simp only [if_neg h2, if_pos h3]
    · rw [← h3]
      exact ⟨fun hv => absurd hv (by decide), fun hm => absurd hm (by decide)⟩
    · exact ⟨fun _ => h3.symm, fun _ => rfl⟩
    · intro _ hn; exact absurd h3.symm hn
  · have hv : rpa_check_version arc_io = .ok (-1, ⟨arc_io.data, arc_io.pos + 8⟩) := by
      unfold rpa_check_version
      rw [hr]
      simp only [if_neg h2, if_neg h3]
    refine ⟨-1, hv, ?_, ?_, ?_⟩
    · exact ⟨fun hv => absurd hv (by decide), fun hm => absurd hm.symm h2⟩
    · exact ⟨fun hv => absurd hv (by decide), fun hm => absurd hm.symm h3⟩
    · intro _ _
      refine ⟨rfl, fun host out => ?_⟩
      unfold rpa_unpack rpa_unpack_header
      rw [hv]
      rfl

set_option maxRecDepth 100000 in
/-- Witness of C10: the signature "RPA-1.0 " in front of a well-formed header. -/
theorem rpa_check_version_signature_witness :
    (0 + 8 ≤ ([0x52, 0x50, 0x41, 0x2d, 0x31, 0x2e, 0x30, 0x20, 0x30, 0x30] : Bytes).length)
    ∧ ∃ v, rpa_check_version ⟨[0x52, 0x50, 0x41, 0x2d, 0x31, 0x2e, 0x30, 0x20, 0x30, 0x30], 0⟩
        = .ok (v, ⟨[0x52, 0x50, 0x41, 0x2d, 0x31, 0x2e, 0x30, 0x20, 0x30, 0x30], 8⟩)
      ∧ v = -1 :=
  ⟨by decide,
    match rpa_check_version_signature
      ⟨[0x52, 0x50, 0x41, 0x2d, 0x31, 0x2e, 0x30, 0x20, 0x30, 0x30], 0⟩ (by decide) with
    | ⟨v, h1, _, _, h4⟩ => ⟨v, h1, (h4 (by decide) (by decide)).1⟩⟩

/-! ## `sar_archive.cc` -/

theorem be_value_u16_be (n : Nat) (h : n < 2 ^ 16) : be_value (u16_be n) = n := by
  simp only [u16_be, be_value, u8, List.foldl_cons, List.foldl_nil]
  omega

theorem be_value_u32_be (n : Nat) (h : n < 2 ^ 32) : be_value (u32_be n) = n := by
  simp only [u32_be, be_value, u8, List.foldl_cons, List.foldl_nil]
  omega

theorem sar_read_bytes_drop (d bs rest : Bytes) (p : Nat) (hp : p ≤ d.length)
    (hd : d.drop p = bs ++ rest) :
    SarArchive.read_bytes ⟨d, p⟩ bs.length = .ok (bs, ⟨d, p + bs.length⟩)
      ∧ d.drop (p + bs.length) = rest ∧ p + bs.length ≤ d.length := by
  have h := io_read_string_drop d bs rest p hp hd
  refine ⟨?_, h.2⟩
  unfold SarArchive.read_bytes
  rw [h.1]

theorem sar_read_u16_be_drop (d rest : Bytes) (n p : Nat) (hn : n < 2 ^ 16) (hp : p ≤ d.length)
    (hd : d.drop p = u16_be n ++ rest) :
    SarArchive.read_u16_be ⟨d, p⟩ = .ok (n, ⟨d, p + 2⟩)
      ∧ d.drop (p + 2) = rest ∧ p + 2 ≤ d.length := by
  have h := sar_read_bytes_drop d (u16_be n) rest p hp hd
  refine ⟨?_, h.2⟩
  unfold SarArchive.read_u16_be
  have h1 : SarArchive.read_bytes ⟨d, p⟩ 2 = .ok (u16_be n, ⟨d, p + 2⟩) := h.1
  rw [h1]
  simp only [be_value_u16_be n hn]

theorem sar_read_u32_be_drop (d rest : Bytes) (n p : Nat) (hn : n < 2 ^ 32) (hp : p ≤ d.length)
    (hd : d.drop p = u32_be n ++ rest) :
    SarArchive.read_u32_be ⟨d, p⟩ = .ok (n, ⟨d, p + 4⟩)
      ∧ d.drop (p + 4) = rest ∧ p + 4 ≤ d.length := by
  have h := sar_read_bytes_drop d (u32_be n) rest p hp hd
  refine ⟨?_, h.2⟩
  unfold SarArchive.read_u32_be
  have h1 : SarArchive.read_bytes ⟨d, p⟩ 4 = .ok (u32_be n, ⟨d, p + 4⟩) := h.1
  rw [h1]
  simp only [be_value_u32_be n hn]

theorem c_string_append_zero (name rest : Bytes) (h : (0 : Byte) ∉ name) :
    c_string (name ++ 0 :: rest) = name := by
  unfold c_string
  induction name with
  | nil => simp
  | cons b name ih =>
    have hb : b ≠ 0 := fun e => h (by rw [e]; exact List.mem_cons_self _ _)
    have hn : (0 : Byte) ∉ name := fun e => h (List.mem_cons_of_mem _ e)
    simp only [List.cons_append, List.takeWhile_cons, bne_iff_ne, ne_eq, hb, not_false_eq_true,
      if_true, ih hn]

theorem sar_read_to_zero_drop (d name rest : Bytes) (p : Nat) (hp : p ≤ d.length)
    (h0 : (0 : Byte) ∉ name) (hd : d.drop p = name ++ 0 :: rest) :
    SarArchive.read_to_zero ⟨d, p⟩ = .ok (name, ⟨d, p + name.length + 1⟩)
      ∧ d.drop (p + name.length + 1) = rest ∧ p + name.length + 1 ≤ d.length := by
  have h := io_read_string_drop d (name ++ [0]) rest p hp (by simpa using hd)
  simp only [List.length_append, List.length_cons, List.length_nil, Nat.zero_add,
    ← Nat.add_assoc] at h
  refine ⟨?_, h.2⟩
  unfold SarArchive.read_to_zero
  simp only [hd, c_string_append_zero name rest h0, List.length_append, List.length_cons]
  rw [if_pos (by omega)]

/-- `read_entries` over the rows of a table that stand at the cursor. -/
theorem sar_read_entries_drop (base : Nat) (items : List SarItem) (d rest : Bytes) (p : Nat)
    (hp : p ≤ d.length)
    (hi : ∀ it ∈ items, (0 : Byte) ∉ it.name ∧ it.rel < 2 ^ 32 ∧ it.content.length < 2 ^ 32)
    (hd : d.drop p = sar_entries items ++ rest) :
    SarArchive.read_entries base items.length ⟨d, p⟩
      = .ok (items.map (SarItem.entry base), ⟨d, p + (sar_entries items).length⟩) := by
  induction items generalizing p with
  | nil => rfl
  | cons it items ih =>
    obtain ⟨h0, h1, h2⟩ := hi it (List.mem_cons_self _ _)
    simp only [sar_entries, List.append_assoc, List.cons_append] at hd
    obtain ⟨r1, d1, p1⟩ := sar_read_to_zero_drop d it.name _ p hp h0 hd
    obtain ⟨r2, d2, p2⟩ := sar_read_u32_be_drop d _ it.rel _ h1 p1 d1
    obtain ⟨r3, d3, p3⟩ := sar_read_u32_be_drop d _ it.content.length _ h2 p2 d2
    have r4 := ih (p + it.name.length + 1 + 4 + 4) p3
      (fun j hj => hi j (List.mem_cons_of_mem _ hj)) d3
    simp only [List.length_cons, SarArchive.read_entries, r1, r2, r3, r4, List.map_cons,
      SarItem.entry, sar_entries, List.length_append, u32_be, List.length_nil]
    simp only [Except.ok.injEq, Prod.mk.injEq, ByteStream.mk.injEq, true_and]
    omega

/-- `read_table` on an archive that starts with a header and table. -/
theorem sar_read_table_spec (base : Nat) (items : List SarItem) (tail : Bytes)
    (hN : items.length < 2 ^ 16) (hbase : base < 2 ^ 32)
    (hi : ∀ it ∈ items, (0 : Byte) ∉ it.name ∧ it.rel < 2 ^ 32 ∧ it.content.length < 2 ^ 32) :
    SarArchive.read_table (io_create_from_buffer (sar_table base items ++ tail))
      = .ok (items.map (SarItem.entry base),
          ⟨sar_table base items ++ tail, (sar_table base items).length⟩) := by
  have hd : (sar_table base items ++ tail).drop 0
      = u16_be items.length ++ (u32_be base ++ (sar_entries items ++ tail)) := by
    simp [sar_table]
  obtain ⟨r1, d1, p1⟩ := sar_read_u16_be_drop _ _ items.length 0 hN (Nat.zero_le _) hd
  obtain ⟨r2, d2, p2⟩ := sar_read_u32_be_drop _ _ base _ hbase p1 d1
  have r3 := sar_read_entries_drop base items _ tail _ p2 hi d2
  unfold SarArchive.read_table io_create_from_buffer
  simp only [r1, r2, r3]
  simp only [sar_table, List.length_append, u16_be, u32_be, List.length_cons, List.length_nil,
    Except.ok.injEq, Prod.mk.injEq, ByteStream.mk.injEq, true_and]
  omega

/-- `read_file` on an entry that lies inside the stream. -/
theorem sar_read_file_in_bounds (d : Bytes) (p : Nat) (e : SarArchive.TableEntry)
    (h : e.offset + e.size ≤ d.length) :
    SarArchive.read_file ⟨d, p⟩ e
      = .ok (⟨e.name, (d.drop e.offset).take e.size⟩, ⟨d, e.offset + e.size⟩) := by
  unfold SarArchive.read_file SarArchive.seek SarArchive.read_bytes io_seek io_read_string
  simp only
  rw [if_pos (by omega)]
  simp only
  rw [if_pos h]

/-- The loop of `unpack_internal` over members that are stored in the archive and
whose offsets do not wrap. -/
theorem sar_save_entries_stored (archive : Bytes) (base : Nat) (items : List SarItem)
    (p : Nat) (saver : List SarArchive.File)
    (hi : ∀ it ∈ items, base + it.rel < 2 ^ 32 ∧ it.stored archive base) :
    ∃ s, SarArchive.save_entries (items.map (SarItem.entry base)) ⟨archive, p⟩ saver
      = .ok (saver ++ items.map SarItem.file, s) := by
  induction items generalizing p saver with
  | nil => exact ⟨⟨archive, p⟩, by simp [SarArchive.save_entries]⟩
  | cons it items ih =>
    obtain ⟨hw, hs1, hs2⟩ := hi it (List.mem_cons_self _ _)
    have ho : (it.rel + base) % 2 ^ 32 = base + it.rel := by
      rw [Nat.mod_eq_of_lt (by omega)]; omega
    have hr := sar_read_file_in_bounds archive p (it.entry base)
      (by simp only [SarItem.entry, ho]; exact hs1)
    simp only [SarItem.entry, ho, hs2] at hr
    obtain ⟨s, hs⟩ := ih (base + it.rel + it.content.length) (saver ++ [it.file])
      (fun j hj => hi j (List.mem_cons_of_mem _ hj))
    refine ⟨s, ?_⟩
    simp only [List.map_cons, SarArchive.save_entries, SarItem.entry, ho, hr]
    rw [show ({ name := it.name, content := it.content } : SarArchive.File) = it.file from rfl,
      hs]
    simp

theorem sar_unpack_internal_stored (base : Nat) (items : List SarItem) (tail : Bytes)
    (saver : List SarArchive.File)
    (hN : items.length < 2 ^ 16) (hbase : base < 2 ^ 32)
    (hi : ∀ it ∈ items, (0 : Byte) ∉ it.name ∧ it.rel < 2 ^ 32 ∧ it.content.length < 2 ^ 32)
    (hs : ∀ it ∈ items, base + it.rel < 2 ^ 32 ∧ it.stored (sar_table base items ++ tail) base) :
    ∃ s, SarArchive.unpack_internal (io_create_from_buffer (sar_table base items ++ tail)) saver
      = .ok (saver ++ items.map SarItem.file, s) := by
  obtain ⟨s, h⟩ := sar_save_entries_stored (sar_table base items ++ tail) base items
    (sar_table base items).length saver hs
  refine ⟨s, ?_⟩
  unfold SarArchive.unpack_internal
  rw [sar_read_table_spec base items tail hN hbase hi]
  exact h

/-- The tail of an archive behind a run of filler bytes. -/
theorem drop_append_replicate (a c : Bytes) (n : Nat) (x : Byte) :
    (a ++ (List.replicate n x ++ c)).drop (a.length + n) = c := by
  rw [← List.append_assoc]
  have : a.length + n = (a ++ List.replicate n x).length := by
    rw [List.length_append, List.length_replicate]
  rw [this, List.drop_left]

/-- C3 (as amended): the flat-format round trip. For every list of fewer than
65536 members whose names hold no zero byte, whose relative offsets and sizes
fit 32 bits, whose absolute offsets base + relative offset fit 32 bits as well,
and whose contents are stored in the archive at base + relative offset,
`unpack_internal` hands to the saver exactly one file per member, in table
order, with the member's name and content. -/
theorem sar_unpack_round_trip (base : Nat) (items : List SarItem) (tail : Bytes)
    (saver : List SarArchive.File)
    (hN : items.length < 2 ^ 16) (hbase : base < 2 ^ 32)
    (hi : ∀ it ∈ items, (0 : Byte) ∉ it.name ∧ it.rel < 2 ^ 32 ∧ it.content.length < 2 ^ 32)
    (hw : ∀ it ∈ items, base + it.rel < 2 ^ 32)
    (hs : ∀ it ∈ items, it.stored (sar_table base items ++ tail) base) :
    (∃ s, SarArchive.unpack_internal (io_create_from_buffer (sar_table base items ++ tail)) saver
      = .ok (saver ++ items.map SarItem.file, s))
    ∧ (items.map SarItem.file).length = items.length
    ∧ ∀ i (h : i < items.length),
        ((items.map SarItem.file).get ⟨i, by rw [List.length_map]; exact h⟩).name
            = (items.get ⟨i, h⟩).name
        ∧ ((items.map SarItem.file).get ⟨i, by rw [List.length_map]; exact h⟩).content
            = (items.get ⟨i, h⟩).content := by
  refine ⟨sar_unpack_internal_stored base items tail saver hN hbase hi
    (fun it h => ⟨hw it h, hs it h⟩), List.length_map _ _, ?_⟩
  intro i h
  simp [SarItem.file]

theorem sar_unpack_round_trip_witness :
    (∃ s, SarArchive.unpack_internal
        (io_create_from_buffer (sar_table 26 sar_two_items ++ [1, 2, 3, 9])) []
      = .ok ([] ++ sar_two_items.map SarItem.file, s))
    ∧ (sar_two_items.map SarItem.file).length = sar_two_items.length
    ∧ ∀ i (h : i < sar_two_items.length),
        ((sar_two_items.map SarItem.file).get ⟨i, by rw [List.length_map]; exact h⟩).name
            = (sar_two_items.get ⟨i, h⟩).name
        ∧ ((sar_two_items.map SarItem.file).get ⟨i, by rw [List.length_map]; exact h⟩).content
            = (sar_two_items.get ⟨i, h⟩).content :=
  sar_unpack_round_trip 26 sar_two_items [1, 2, 3, 9] [] (by decide) (by decide)
    (by decide) (by decide) (by decide)

theorem sar_far_table_length : (sar_table 16 [sar_far_item]).length = 16 := rfl

theorem sar_far_item_inside : 16 + sar_far_item.rel + sar_far_item.content.length ≤ sar_far_archive.length := by
  unfold sar_far_archive
  rw [List.length_append, List.length_append, List.length_replicate, sar_far_table_length]
  simp only [sar_far_item, List.length_cons, List.length_nil]
  omega

theorem sar_far_item_content : (sar_far_archive.drop (16 + sar_far_item.rel)).take sar_far_item.content.length
    = sar_far_item.content := by
  unfold sar_far_archive
  have h := drop_append_replicate (sar_table 16 [sar_far_item]) [7] (2 ^ 32 - 1) 0
  rw [sar_far_table_length] at h
  have e : sar_far_item.rel = 2 ^ 32 - 1 := rfl
  have c : sar_far_item.content = [7] := rfl
  rw [e, c, h]
  rfl

theorem sar_far_item_fields : ∀ it ∈ [sar_far_item], (0 : Byte) ∉ it.name ∧ it.rel < 2 ^ 32 ∧ it.content.length < 2 ^ 32 := by decide

theorem sar_far_entry_offset : (sar_far_item.entry 16).offset = 15 := by decide

theorem sar_far_table_last : (sar_table 16 [sar_far_item]).drop 15 = [1] := by decide

theorem sar_far_byte_15 (tail : Bytes) : ((sar_table 16 [sar_far_item] ++ tail).drop 15).take 1 = [1] := by
  rw [List.drop_append_of_le_length (by rw [sar_far_table_length]; omega), sar_far_table_last]
  rfl

theorem sar_far_read_file (tail : Bytes) (p : Nat) (h : 16 ≤ (sar_table 16 [sar_far_item] ++ tail).length) :
    SarArchive.read_file ⟨sar_table 16 [sar_far_item] ++ tail, p⟩ (sar_far_item.entry 16)
      = .ok (⟨[0x61], [1]⟩, ⟨sar_table 16 [sar_far_item] ++ tail, 16⟩) := by
  have hr := sar_read_file_in_bounds (sar_table 16 [sar_far_item] ++ tail) p
    (sar_far_item.entry 16) (by rw [sar_far_entry_offset]; exact h)
  rw [sar_far_entry_offset] at hr
  rw [hr]
  have hz : (sar_far_item.entry 16).size = 1 := rfl
  have hn : (sar_far_item.entry 16).name = [0x61] := rfl
  rw [hz, hn, sar_far_byte_15]

theorem sar_far_unpack (tail : Bytes) :
    SarArchive.unpack_internal (io_create_from_buffer (sar_table 16 [sar_far_item] ++ tail)) []
        = .ok ([{ name := [0x61], content := [1] }], ⟨sar_table 16 [sar_far_item] ++ tail, 16⟩) := by
  unfold SarArchive.unpack_internal
  rw [sar_read_table_spec 16 [sar_far_item] tail (by decide) (by decide) sar_far_item_fields]
  simp only [List.map_cons, List.map_nil, SarArchive.save_entries]
  rw [sar_far_read_file tail _ (by rw [List.length_append, sar_far_table_length]; omega)]
  rfl

/-- C3 (counterexample): an archive of `2 ^ 32 + 16` bytes whose one member
"a" has its content byte 7 stored at base + relative offset
`16 + (2 ^ 32 - 1)`. The sum of the two 32-bit fields wraps to 15, and
`unpack_internal` saves the file "a" with the byte at position 15, which is 1,
the last byte of the table, and not the member's content. -/
theorem sar_unpack_far_offset_wraps :
    sar_far_item.stored sar_far_archive 16
    ∧ (∃ s, SarArchive.unpack_internal (io_create_from_buffer sar_far_archive) []
        = .ok ([{ name := [0x61], content := [1] }], s))
    ∧ [sar_far_item].map SarItem.file ≠ [{ name := [0x61], content := [1] }] :=
  ⟨⟨sar_far_item_inside, sar_far_item_content⟩, ⟨_, sar_far_unpack _⟩, by decide⟩

/-! ## Header fields -/

/-- One turn of the loop of `rpa_read_hex_number` on a hex digit. -/
theorem rpa_read_hex_digit_drop (d rest : Bytes) (b : Byte) (p a v : Nat) (hp : p ≤ d.length)
    (hd : d.drop p = b :: rest) (hv : hex_digit_value b = some v) :
    rpa_read_hex_digit (a % 2 ^ 32, ⟨d, p⟩) = ((a * 16 + v) % 2 ^ 32, ⟨d, p + 1⟩) := by
  obtain ⟨r, _, _⟩ := io_read_u8_drop d rest b p hp hd
  have hb := b.isLt
  have hc : b.val < 128 → char_of_u8 b.val = (b.val : Int) := by
    intro h
    unfold char_of_u8
    rw [if_pos h]
  unfold rpa_read_hex_digit
  simp only [r]
  unfold hex_digit_value at hv
  split at hv
  · rename_i h
    simp only [Option.some.injEq] at hv
    rw [hc (by omega)]
    rw [if_neg (by omega), if_neg (by omega), if_pos (by omega)]
    simp only [Prod.mk.injEq, and_true]
    omega
  split at hv
  · rename_i h
    simp only [Option.some.injEq] at hv
    rw [hc (by omega)]
    rw [if_pos (by omega)]
    simp only [Prod.mk.injEq, and_true]
    omega
  split at hv
  · rename_i h
    simp only [Option.some.injEq] at hv
    rw [hc (by omega)]
    rw [if_neg (by omega), if_pos (by omega)]
    simp only [Prod.mk.injEq, and_true]
    omega
  · cases hv

/-- The loop of `rpa_read_hex_number` over hex digits that stand at the cursor,
from any value of `result`. -/
theorem rpa_read_hex_fold_drop (d : Bytes) (text rest : Bytes) (l : List Nat) (p a : Nat)
    (hl : l.length = text.length) (hp : p ≤ d.length) (hd : d.drop p = text ++ rest)
    (hx : ∀ b ∈ text, (hex_digit_value b).isSome) :
    l.foldl (fun acc _ => rpa_read_hex_digit acc) (a % 2 ^ 32, ⟨d, p⟩)
      = ((text.foldl (fun acc b => acc * 16 + (hex_digit_value b).getD 0) a) % 2 ^ 32,
          ⟨d, p + text.length⟩) := by
  induction text generalizing l p a with
  | nil =>
    cases l with
    | nil => rfl
    | cons _ _ => simp at hl
  | cons b text ih =>
    cases l with
    | nil => simp at hl
    | cons i l =>
      have hb := hx b (List.mem_cons_self _ _)
      obtain ⟨v, hv⟩ := Option.isSome_iff_exists.mp hb
      obtain ⟨_, d1, p1⟩ := io_read_u8_drop d (text ++ rest) b p hp hd
      simp only [List.foldl_cons, hv, Option.getD_some]
      rw [rpa_read_hex_digit_drop d (text ++ rest) b p a v hp hd hv]
      rw [ih l (p + 1) (a * 16 + v) (by simpa using hl) p1 d1
        (fun c hc => hx c (List.mem_cons_of_mem _ hc))]
      simp only [List.length_cons, Prod.mk.injEq, ByteStream.mk.injEq, true_and]
      omega

/-- On `n` hex digits at the cursor `rpa_read_hex_number` returns the number they
denote, reduced modulo `2 ^ 32`, and leaves the cursor after them. -/
theorem rpa_read_hex_number_drop (d text rest : Bytes) (p : Nat) (hp : p ≤ d.length)
    (hd : d.drop p = text ++ rest) (hx : ∀ b ∈ text, (hex_digit_value b).isSome) :
    rpa_read_hex_number ⟨d, p⟩ text.length = (hex_number text % 2 ^ 32, ⟨d, p + text.length⟩) := by
  unfold rpa_read_hex_number hex_number
  exact rpa_read_hex_fold_drop d text rest (List.range text.length) p 0
    (List.length_range _) hp hd hx

theorem hex_number_fold_lt (text : Bytes) (a : Nat) :
    text.foldl (fun acc b => acc * 16 + (hex_digit_value b).getD 0) a
      < (a + 1) * 16 ^ text.length := by
  induction text generalizing a with
  | nil => simp
  | cons b text ih =>
    simp only [List.foldl_cons, List.length_cons]
    have hv : (hex_digit_value b).getD 0 < 16 := by
      unfold hex_digit_value
      have := b.isLt
      split
      · simp only [Option.getD_some]; omega
      split
      · simp only [Option.getD_some]; omega
      split
      · simp only [Option.getD_some]; omega
      · simp
    calc _ < (a * 16 + (hex_digit_value b).getD 0 + 1) * 16 ^ text.length := ih _
      _ ≤ ((a + 1) * 16) * 16 ^ text.length := Nat.mul_le_mul_right _ (by omega)
      _ = (a + 1) * 16 ^ (text.length + 1) := by rw [pow_succ]; ring

/-- A text of `n` hex digits denotes a number below `16 ^ n`. -/
theorem hex_number_lt (text : Bytes) : hex_number text < 16 ^ text.length := by
  have := hex_number_fold_lt text 0
  simpa [hex_number] using this

theorem rpa_check_version_magic_2 (rest : Bytes) :
    rpa_check_version (io_create_from_buffer (rpa_magic_2 ++ rest))
      = .ok (2, ⟨rpa_magic_2 ++ rest, 8⟩) := by
  have h := (io_read_string_drop (rpa_magic_2 ++ rest) rpa_magic_2 rest 0 (Nat.zero_le _) rfl).1
  have h8 : rpa_magic_2.length = 8 := rfl
  rw [h8] at h
  unfold rpa_check_version io_create_from_buffer
  rw [h]
  simp only [if_true]

theorem rpa_check_version_magic_3 (rest : Bytes) :
    rpa_check_version (io_create_from_buffer (rpa_magic_3 ++ rest))
      = .ok (3, ⟨rpa_magic_3 ++ rest, 8⟩) := by
  have h := (io_read_string_drop (rpa_magic_3 ++ rest) rpa_magic_3 rest 0 (Nat.zero_le _) rfl).1
  have h8 : rpa_magic_3.length = 8 := rfl
  rw [h8] at h
  unfold rpa_check_version io_create_from_buffer
  rw [h]
  have : ¬ rpa_magic_2 = rpa_magic_3 := by decide
  simp only [if_neg this, if_true]

/-- The table offset `rpa_unpack` decodes from 16 hex digits behind the
signature, for both sub-versions. -/
theorem rpa_unpack_header_table_offset (magic text rest : Bytes)
    (hm : magic = rpa_magic_2 ∨ magic = rpa_magic_3) (hl : text.length = 16)
    (hx : ∀ b ∈ text, (hex_digit_value b).isSome) :
    rpa_read_hex_number ⟨magic ++ (text ++ rest), 8⟩ 16
        = (hex_number text % 2 ^ 32, ⟨magic ++ (text ++ rest), 24⟩)
    ∧ ∃ k s, rpa_unpack_header (io_create_from_buffer (magic ++ (text ++ rest)))
        = .ok (some (hex_number text % 2 ^ 32, k), s) := by
  have h8 : magic.length = 8 := by rcases hm with h | h <;> rw [h] <;> rfl
  have hd : (magic ++ (text ++ rest)).drop 8 = text ++ rest := by
    rw [← h8, List.drop_left]
  have hp : 8 ≤ (magic ++ (text ++ rest)).length := by
    rw [List.length_append]; omega
  have hr := rpa_read_hex_number_drop (magic ++ (text ++ rest)) text rest 8 hp hd hx
  rw [hl] at hr
  refine ⟨hr, ?_⟩
  rcases hm with h | h
  · subst h
    refine ⟨0, ⟨rpa_magic_2 ++ (text ++ rest), 24⟩, ?_⟩
    unfold rpa_unpack_header
    rw [rpa_check_version_magic_2]
    simp only [hr]
    rfl
  · subst h
    refine ⟨(rpa_read_hex_number (io_skip ⟨rpa_magic_3 ++ (text ++ rest), 8 + 16⟩ 1).2 8).1,
      (rpa_read_hex_number (io_skip ⟨rpa_magic_3 ++ (text ++ rest), 8 + 16⟩ 1).2 8).2, ?_⟩
    unfold rpa_unpack_header
    rw [rpa_check_version_magic_3]
    simp only [hr]
    rfl

/-- C11 (as amended): for every text of 16 ASCII hex digits (upper or lower case)
that follows the signature, the table offset that `rpa_unpack` decodes with
`rpa_read_hex_number (16)` is the number the text denotes in base 16, most
significant digit first, reduced modulo `2 ^ 32` by the `uint32_t`
accumulator; it is that number itself when the number is below `2 ^ 32`,
and the cursor is left after the 16 digits. -/
theorem rpa_read_hex_number_table_offset (magic text rest : Bytes)
    (hm : magic = rpa_magic_2 ∨ magic = rpa_magic_3) (hl : text.length = 16)
    (hx : ∀ b ∈ text, (hex_digit_value b).isSome) :
    rpa_read_hex_number ⟨magic ++ (text ++ rest), 8⟩ 16
        = (hex_number text % 2 ^ 32, ⟨magic ++ (text ++ rest), 24⟩)
    ∧ (∃ k s, rpa_unpack_header (io_create_from_buffer (magic ++ (text ++ rest)))
        = .ok (some (hex_number text % 2 ^ 32, k), s))
    ∧ (hex_number text < 2 ^ 32 →
        (rpa_read_hex_number ⟨magic ++ (text ++ rest), 8⟩ 16).1 = hex_number text) := by
  obtain ⟨h1, h2⟩ := rpa_unpack_header_table_offset magic text rest hm hl hx
  refine ⟨h1, h2, fun h => ?_⟩
  rw [h1]
  exact Nat.mod_eq_of_lt h

set_option maxRecDepth 100000 in
/-- Witness of C11: the digits "00000000000000aF" behind "RPA-2.0 " denote 175. -/
theorem rpa_read_hex_number_table_offset_witness :
    hex_number rpa_hex_text_af = 175
    ∧ rpa_read_hex_number ⟨rpa_magic_2 ++ (rpa_hex_text_af ++ []), 8⟩ 16
        = (hex_number rpa_hex_text_af % 2 ^ 32, ⟨rpa_magic_2 ++ (rpa_hex_text_af ++ []), 24⟩) :=
  ⟨by decide,
    (rpa_read_hex_number_table_offset rpa_magic_2 rpa_hex_text_af [] (Or.inl rfl) (by decide)
      (by decide)).1⟩

set_option maxRecDepth 100000 in
/-- Counterexample of C11: the 16 digits "0000000100000000" denote `2 ^ 32`, and
`rpa_read_hex_number (16)` returns 0 on them; `rpa_unpack` takes 0 for the
table offset of the archive "RPA-2.0 0000000100000000". -/
theorem rpa_read_hex_number_wraps_at_32_bits :
    rpa_hex_text_2_32.length = 16
    ∧ (∀ b ∈ rpa_hex_text_2_32, (hex_digit_value b).isSome)
    ∧ hex_number rpa_hex_text_2_32 = 2 ^ 32
    ∧ rpa_read_hex_number (io_create_from_buffer rpa_hex_text_2_32) 16
        = (0, ⟨rpa_hex_text_2_32, 16⟩)
    ∧ rpa_unpack_header (io_create_from_buffer (rpa_magic_2 ++ rpa_hex_text_2_32))
        = .ok (some (0, 0), ⟨rpa_magic_2 ++ rpa_hex_text_2_32, 24⟩) := by
  refine ⟨?_, ?_, ?_, ?_, ?_⟩ <;> decide

/-! ## The buffered sink -/

/-- A run of deposits on a buffered sink that already holds `files`. -/
theorem output_files_save_all_memory {σ : Type} (host : Host)
    (procs : List (σ → Except Fault (Option VirtualFile × σ))) (files : List VirtualFile)
    (context : σ) :
    output_files_save_all host procs { output_files_create_memory with files := files } context
      = match producer_results procs context with
        | .error f => .error f
        | .ok (produced, ctx) =>
          .ok (produced.map (fun file => some file.isSome),
            { output_files_create_memory with files := files ++ produced.filterMap id }, ctx) := by
  induction procs generalizing files context with
  | nil => simp [output_files_save_all, producer_results]
  | cons save_proc rest ih =>
    unfold output_files_save_all producer_results
    simp only [output_files_save, output_files_create_memory, save_to_memory]
    rw [if_neg (by decide)]
    cases hp : save_proc context with
    | error f => rfl
    | ok r =>
      obtain ⟨file, ctx⟩ := r
      cases file with
      | none =>
        simp only
        have := ih files ctx
        simp only [output_files_create_memory] at this
        rw [this]
        cases producer_results rest ctx with
        | error f => rfl
        | ok q => simp
      | some file =>
        simp only
        have := ih (files ++ [file]) ctx
        simp only [output_files_create_memory] at this
        rw [this]
        cases producer_results rest ctx with
        | error f => rfl
        | ok q => simp

/-- C18. Buffered sink: a sequence of `output_files_save` calls on a sink made by
`output_files_create_memory` (holding the files of earlier deposits) stops
only if a producer stops; otherwise every call returns `true` when its
producer returned a file and `false` when it returned none, and afterwards
`output_files_get_saved` holds the earlier files followed by exactly the files
the producers returned, in call order. A single call whose producer returns
no file returns `false` and leaves the sink as it was; one whose producer
returns a file returns `true` and appends it at the end. -/
theorem output_files_save_memory_order {σ : Type} (host : Host)
    (procs : List (σ → Except Fault (Option VirtualFile × σ))) (files : List VirtualFile)
    (context : σ) :
    (output_files_save_all host procs { output_files_create_memory with files := files } context
      = match producer_results procs context with
        | .error f => .error f
        | .ok (produced, ctx) =>
          .ok (produced.map (fun file => some file.isSome),
            { output_files_create_memory with files := files ++ produced.filterMap id }, ctx))
    ∧ (∀ produced ctx, producer_results procs context = .ok (produced, ctx) →
        ∃ results out,
          output_files_save_all host procs
            { output_files_create_memory with files := files } context = .ok (results, out, ctx)
          ∧ output_files_get_saved out = .ok (files ++ produced.filterMap id)
          ∧ results = produced.map (fun file => some file.isSome))
    ∧ (∀ (save_proc : σ → Except Fault (Option VirtualFile × σ)) ctx,
        save_proc context = .ok (none, ctx) →
        output_files_save host { output_files_create_memory with files := files } save_proc context
          = .ok (some false, { output_files_create_memory with files := files }, ctx))
    ∧ (∀ (save_proc : σ → Except Fault (Option VirtualFile × σ)) file ctx,
        save_proc context = .ok (some file, ctx) →
        output_files_save host { output_files_create_memory with files := files } save_proc context
          = .ok (some true, { output_files_create_memory with files := files ++ [file] }, ctx)) := by
  have h := output_files_save_all_memory host procs files context
  refine ⟨h, ?_, ?_, ?_⟩
  · intro produced ctx hp
    rw [hp] at h
    exact ⟨_, _, h, rfl, rfl⟩
  · intro save_proc ctx hp
    simp only [output_files_save, output_files_create_memory, save_to_memory, hp]
    rfl
  · intro save_proc file ctx hp
    simp only [output_files_save, output_files_create_memory, save_to_memory, hp]
    rfl

/-- Three deposits on a fresh buffered sink, the second with a producer that
returns no file. -/
theorem output_files_save_all_example (host : Host) :
    output_files_save_all host
        [producer_of (some ⟨[0x61], [1]⟩), producer_of none, producer_of (some ⟨[0x62], [2]⟩)]
        output_files_create_memory ()
      = .ok ([some true, some false, some true],
          { output_files_create_memory with files := [⟨[0x61], [1]⟩, ⟨[0x62], [2]⟩] }, ()) := by
  rfl

/-! ## The string opcodes -/

/-- A length byte of 128 or more, taken through `char`, becomes a `size_t` just
below `2 ^ 64`. -/
theorem size_t_of_char_large (n : Nat) (h : 128 ≤ n) (h2 : n < 256) :
    size_t_of_int (char_of_u8 n) = 2 ^ 64 - 256 + n := by
  unfold size_t_of_int char_of_u8 SIZE_BITS
  rw [if_neg (by omega)]
  omega

/-- A request of a string of `2 ^ 64 - 256 + n` bytes stops the run. -/
theorem rpa_unpickle_read_string_large (s : ByteStream) (n : Nat) (h : 128 ≤ n) (h2 : n < 256) :
    rpa_unpickle_read_string s (2 ^ 64 - 256 + n)
      = .error (if n = 255 then .memory else .assertion) := by
  unfold rpa_unpickle_read_string SIZE_BITS MALLOC_MAX
  by_cases h3 : n = 255
  · subst h3
    rw [if_neg (by omega), if_pos (by omega)]
    rfl
  · rw [if_pos (by omega), if_neg h3]

/-- One pass of the loop over a short string whose length byte is 128 or more. -/
theorem rpa_unpickle_body_short_string_large (d str rest : Bytes) (p : Nat)
    (ctx : RpaUnpickleContext) (hp : p ≤ d.length) (h : 128 ≤ str.length)
    (h2 : str.length < 256)
    (hd : d.drop p = u8 PICKLE_SHORT_BINSTRING :: u8 str.length :: (str ++ rest)) :
    rpa_unpickle_body ⟨d, p⟩ ctx
      = .error (if str.length = 255 then .memory else .assertion) := by
  obtain ⟨r1, d1, p1⟩ := io_read_u8_drop d _ _ p hp hd
  obtain ⟨r2, d2, p2⟩ := io_read_u8_drop d _ _ (p + 1) p1 d1
  unfold rpa_unpickle_body
  rw [r1]
  simp only [u8_val PICKLE_SHORT_BINSTRING (by decide)]
  rw [rpa_unpickle_switch_short_binstring, r2]
  simp only [u8_val str.length h2, size_t_of_char_large str.length h h2]
  rw [rpa_unpickle_read_string_large _ _ h h2]

set_option maxRecDepth 100000 in
/-- C19. The long string opcode 'X' with a 4-byte little-endian length L followed
by L bytes appends exactly these bytes with recorded length L to the Bytes
sequence, nothing to the Integer sequence, and leaves the cursor just after
them; so does the short string opcode 'U' when its length byte L is below
128. For L from 128 to 255 the short string opcode takes the length byte
through a signed `char`: the size becomes `2 ^ 64 - 256 + L`, and the pass
stops in `rpa_unpickle_read_string` instead of appending the string. The
payload 'U', 128, 128 bytes, '.' makes `rpa_unpickle` stop on the assertion
`str != NULL`, whereas with 127 bytes it returns `true`. -/
theorem rpa_unpickle_string_opcodes :
    (∀ (d str rest : Bytes) (p : Nat) (ctx : RpaUnpickleContext),
      str.length < 2 ^ 32 → p ≤ d.length →
      d.drop p = u8 PICKLE_BINUNICODE :: (u32_le str.length ++ (str ++ rest)) →
      rpa_unpickle_body ⟨d, p⟩ ctx
        = .ok (none, ⟨d, p + 5 + str.length⟩,
            { strings := ctx.strings ++ [some str]
              string_lengths := ctx.string_lengths ++ [str.length]
              numbers := ctx.numbers }))
    ∧ (∀ (d str rest : Bytes) (p : Nat) (ctx : RpaUnpickleContext),
      str.length < 128 → p ≤ d.length →
      d.drop p = u8 PICKLE_SHORT_BINSTRING :: u8 str.length :: (str ++ rest) →
      rpa_unpickle_body ⟨d, p⟩ ctx
        = .ok (none, ⟨d, p + 2 + str.length⟩,
            { strings := ctx.strings ++ [some str]
              string_lengths := ctx.string_lengths ++ [str.length]
              numbers := ctx.numbers }))
    ∧ (∀ (d str rest : Bytes) (p : Nat) (ctx : RpaUnpickleContext),
      128 ≤ str.length → str.length < 256 → p ≤ d.length →
      d.drop p = u8 PICKLE_SHORT_BINSTRING :: u8 str.length :: (str ++ rest) →
      rpa_unpickle_body ⟨d, p⟩ ctx
        = .error (if str.length = 255 then .memory else .assertion))
    ∧ rpa_unpickle (io_create_from_buffer rpa_table_short_string_128)
        { strings := [], string_lengths := [], numbers := [] } = .error .assertion
    ∧ rpa_unpickle (io_create_from_buffer rpa_table_short_string_127)
        { strings := [], string_lengths := [], numbers := [] }
      = .ok (true, ⟨rpa_table_short_string_127, 130⟩,
          { strings := [some (List.replicate 127 0x61)], string_lengths := [127]
            numbers := [] }) := by
  refine ⟨?_, ?_, ?_, ?_, ?_⟩
  · intro d str rest p ctx hs hp hd
    have h := (rpa_unpickle_body_op (.binunicode str) hs d rest p ctx hp
      (by simpa [PickleOp.encode] using hd)).1
    rw [h]
    simp only [PickleOp.encode, PickleOp.push, rpa_unpickle_handle_string, List.length_cons,
      List.length_append, u32_le, List.length_nil, Except.ok.injEq, Prod.mk.injEq,
      ByteStream.mk.injEq, true_and, and_true]
    omega
  · intro d str rest p ctx hs hp hd
    have h := (rpa_unpickle_body_op (.short_binstring str) hs d rest p ctx hp
      (by simpa [PickleOp.encode] using hd)).1
    rw [h]
    simp only [PickleOp.encode, PickleOp.push, rpa_unpickle_handle_string, List.length_cons,
      Except.ok.injEq, Prod.mk.injEq, ByteStream.mk.injEq, true_and, and_true]
    omega
  · intro d str rest p ctx h h2 hp hd
    exact rpa_unpickle_body_short_string_large d str rest p ctx hp h h2 hd
  · decide
  · decide

/-! ## The length-prefixed integer -/

/-- C20 (as amended): for the length-prefixed integer opcode 0x8a followed by a
length byte L and L bytes, for every L in 0..255, one pass of `rpa_unpickle`
appends to the Integer sequence the little-endian value of the L bytes
reduced modulo `2 ^ 32` (the accumulator is a `uint32_t`), appends nothing to
the Bytes sequence, and leaves the cursor exactly L bytes after the length
byte; the value is the little-endian value itself whenever that is below
`2 ^ 32`, in particular for every L up to 4. -/
theorem rpa_unpickle_long1_little_endian (d digits rest : Bytes) (p : Nat)
    (ctx : RpaUnpickleContext) (hL : digits.length < 256) (hp : p ≤ d.length)
    (hd : d.drop p = u8 PICKLE_LONG1 :: u8 digits.length :: (digits ++ rest)) :
    rpa_unpickle_body ⟨d, p⟩ ctx
        = .ok (none, ⟨d, p + 2 + digits.length⟩,
            { strings := ctx.strings, string_lengths := ctx.string_lengths
              numbers := ctx.numbers ++ [le_value digits % 2 ^ 32] })
    ∧ (le_value digits < 2 ^ 32 → le_value digits % 2 ^ 32 = le_value digits)
    ∧ (digits.length ≤ 4 → le_value digits % 2 ^ 32 = le_value digits) := by
  refine ⟨?_, fun h => Nat.mod_eq_of_lt h, fun h => Nat.mod_eq_of_lt ?_⟩
  · have h := (rpa_unpickle_body_op (.long1 digits) hL d rest p ctx hp
      (by simpa [PickleOp.encode] using hd)).1
    rw [h]
    simp only [PickleOp.encode, PickleOp.push, rpa_unpickle_handle_number, List.length_cons,
      Except.ok.injEq, Prod.mk.injEq, ByteStream.mk.injEq, true_and, and_true]
    omega
  · have h1 := le_value_lt digits
    have h2 : 256 ^ digits.length ≤ 256 ^ 4 := Nat.pow_le_pow_right (by norm_num) h
    have h3 : (256 : Nat) ^ 4 = 2 ^ 32 := by norm_num
    omega

/-- Witness of C20: the opcode 0x8a with the two bytes 01 02 appends 0x0201. -/
theorem rpa_unpickle_long1_little_endian_witness :
    rpa_unpickle_body ⟨[0x8a, 2, 1, 2, 0x2e], 0⟩
        { strings := [], string_lengths := [], numbers := [] }
      = .ok (none, ⟨[0x8a, 2, 1, 2, 0x2e], 0 + 2 + 2⟩,
          { strings := [], string_lengths := [], numbers := [] ++ [le_value [1, 2] % 2 ^ 32] })
    ∧ le_value [1, 2] % 2 ^ 32 = 0x0201 :=
  ⟨(rpa_unpickle_long1_little_endian [0x8a, 2, 1, 2, 0x2e] [1, 2] [0x2e] 0
      { strings := [], string_lengths := [], numbers := [] } (by decide) (by decide)
      (by decide)).1, by decide⟩

set_option maxRecDepth 100000 in
/-- Counterexample of C20: the opcode 0x8a with length 5 and the bytes
00 00 00 00 01 has the little-endian value `2 ^ 32`, and `rpa_unpickle`
appends 0 to the Integer sequence. -/
theorem rpa_unpickle_long1_wraps_at_32_bits :
    le_value [0, 0, 0, 0, 1] = 2 ^ 32
    ∧ rpa_unpickle (io_create_from_buffer [0x8a, 5, 0, 0, 0, 0, 1, 0x2e])
        { strings := [], string_lengths := [], numbers := [] }
      = .ok (true, ⟨[0x8a, 5, 0, 0, 0, 0, 1, 0x2e], 8⟩,
          { strings := [], string_lengths := [], numbers := [0] }) := by
  refine ⟨?_, ?_⟩ <;> decide

/-! ## `prs_converter.c` -/

theorem prs_source_read_ok (source_buffer : Bytes) (pos : Nat) (h : pos < source_buffer.length) :
    prs_source_read source_buffer pos = .ok (source_buffer.get ⟨pos, h⟩) := by
  unfold prs_source_read
  rw [List.get?_eq_get h]

theorem prs_source_read_error (source_buffer : Bytes) (pos : Nat)
    (h : source_buffer.length ≤ pos) :
    prs_source_read source_buffer pos = .error .memory := by
  unfold prs_source_read
  rw [List.get?_eq_none.mpr h]

theorem prs_source_read_lt (source_buffer : Bytes) (pos : Nat) (b : Byte)
    (h : prs_source_read source_buffer pos = .ok b) : pos < source_buffer.length := by
  by_contra hn
  rw [prs_source_read_error _ _ (by omega)] at h
  cases h

theorem prs_target_read_ok (target_buffer : Bytes) (pos : Nat) (h : pos < target_buffer.length) :
    prs_target_read target_buffer pos = .ok (target_buffer.get ⟨pos, h⟩) := by
  unfold prs_target_read
  rw [List.get?_eq_get h]

theorem prs_target_write_ok (target_buffer : Bytes) (pos : Nat) (v : Byte)
    (h : pos < target_buffer.length) :
    prs_target_write target_buffer pos v = .ok (target_buffer.set pos v) := by
  unfold prs_target_write
  rw [if_pos h]

theorem take_set_self (l : Bytes) (n : Nat) (a : Byte) : (l.set n a).take n = l.take n := by
  apply List.ext_getElem?
  intro i
  rw [List.getElem?_take, List.getElem?_take]
  split
  · rw [List.getElem?_set_ne (by omega)]
  · rfl

theorem drop_set_succ (l : Bytes) (n : Nat) (a : Byte) :
    (l.set n a).drop (n + 1) = l.drop (n + 1) :=
  List.drop_set_of_lt a l (Nat.lt_succ_self n)

theorem PrsForward.refl_prs (source_buffer : Bytes) (st : PrsState) :
    PrsForward source_buffer st st :=
  ⟨rfl, Nat.le_refl _, fun h => h, Nat.le_refl _, fun h => h, rfl, rfl⟩

theorem PrsForward.trans_prs {source_buffer : Bytes} {st st1 st2 : PrsState}
    (h1 : PrsForward source_buffer st st1) (h2 : PrsForward source_buffer st1 st2) :
    PrsForward source_buffer st st2 := by
  obtain ⟨a1, a2, a3, a4, a5, a6, a7⟩ := h1
  obtain ⟨b1, b2, b3, b4, b5, b6, b7⟩ := h2
  refine ⟨b1.trans a1, Nat.le_trans a2 b2, fun h => b3 (a3 h), Nat.le_trans a4 b4, ?_, ?_, ?_⟩
  · intro h
    rw [← a1]
    exact b5 (by rw [a1]; exact a5 h)
  · have e : st2.target_buffer.take st.target_pos
        = (st2.target_buffer.take st1.target_pos).take st.target_pos := by
      rw [List.take_take, Nat.min_eq_left a4]
    rw [e, b6, List.take_take, Nat.min_eq_left a4, a6]
  · have e : ∀ l : Bytes, l.drop st2.target_pos
        = (l.drop st1.target_pos).drop (st2.target_pos - st1.target_pos) := by
      intro l
      rw [List.drop_drop]
      congr 1
      omega
    rw [b7, e st1.target_buffer, a7, ← e]

/-- A change of the source cursor or of the flag alone. -/
theorem PrsForward.of_source {source_buffer : Bytes} {st st1 : PrsState}
    (hb : st1.target_buffer = st.target_buffer) (ht : st1.target_pos = st.target_pos)
    (h1 : st.source_pos ≤ st1.source_pos) (h2 : st1.source_pos ≤ source_buffer.length) :
    PrsForward source_buffer st st1 := by
  refine ⟨by rw [hb], h1, fun _ => h2, by rw [ht], fun h => by rw [ht]; exact h, by rw [hb],
    by rw [hb]⟩

theorem prs_target_write_error (target_buffer : Bytes) (pos : Nat) (v : Byte)
    (h : target_buffer.length ≤ pos) :
    prs_target_write target_buffer pos v = .error .memory := by
  unfold prs_target_write
  rw [if_neg (by omega)]

theorem prs_copy_byte_forward (source_buffer : Bytes) (st st1 : PrsState)
    (h : prs_copy_byte source_buffer st = .ok st1) :
    PrsForward source_buffer st st1 ∧ st1.source_pos = st.source_pos + 1
      ∧ st1.source_pos ≤ source_buffer.length ∧ st1.target_pos = st.target_pos + 1
      ∧ st1.flag = st.flag := by
  unfold prs_copy_byte at h
  split at h
  · cases h
  · rename_i v hv
    have hlt := prs_source_read_lt _ _ _ hv
    by_cases hw : st.target_pos < st.target_buffer.length
    · rw [prs_target_write_ok _ _ _ hw] at h
      simp only [Except.ok.injEq] at h
      subst h
      refine ⟨⟨?_, ?_, ?_, ?_, ?_, ?_, ?_⟩, rfl, hlt, rfl, rfl⟩
      · simp
      · simp
      · intro _; exact hlt
      · simp
      · intro _; exact hw
      · exact take_set_self _ _ _
      · exact drop_set_succ _ _ _
    · rw [prs_target_write_error _ _ _ (by omega)] at h
      cases h

theorem prs_raw_run_forward (source_buffer : Bytes) (n : Nat) (st st1 : PrsState)
    (h : prs_raw_run source_buffer n st = .ok st1) :
    PrsForward source_buffer st st1 ∧ st1.flag = st.flag := by
  induction n generalizing st with
  | zero =>
    simp only [prs_raw_run, Except.ok.injEq] at h
    subst h
    exact ⟨PrsForward.refl_prs _ _, rfl⟩
  | succ n ih =>
    unfold prs_raw_run at h
    split at h
    · simp only [Except.ok.injEq] at h
      subst h
      exact ⟨PrsForward.refl_prs _ _, rfl⟩
    · split at h
      · cases h
      · rename_i st2 h2
        obtain ⟨f1, _, _, _, g1⟩ := prs_copy_byte_forward _ _ _ h2
        obtain ⟨f2, g2⟩ := ih st2 h
        exact ⟨f1.trans_prs f2, g2.trans g1⟩

theorem prs_back_reference_forward (source_buffer : Bytes) (shift n : Nat) (st st1 : PrsState)
    (h : prs_back_reference shift n st = .ok st1) :
    PrsForward source_buffer st st1 ∧ st1.source_pos = st.source_pos ∧ st1.flag = st.flag := by
  induction n generalizing st with
  | zero =>
    simp only [prs_back_reference, Except.ok.injEq] at h
    subst h
    exact ⟨PrsForward.refl_prs _ _, rfl, rfl⟩
  | succ n ih =>
    unfold prs_back_reference at h
    split at h
    · simp only [Except.ok.injEq] at h
      subst h
      exact ⟨PrsForward.refl_prs _ _, rfl, rfl⟩
    · rename_i hlen
      split at h
      · cases h
      · split at h
        · cases h
        · rename_i v hv
          rw [prs_target_write_ok _ _ _ (by omega)] at h
          simp only at h
          obtain ⟨f2, g2, k2⟩ := ih _ h
          refine ⟨PrsForward.trans_prs ?_ f2, g2, k2⟩
          refine ⟨?_, ?_, ?_, ?_, ?_, ?_, ?_⟩
          · simp
          · simp
          · intro hs; exact hs
          · simp
          · intro _; simp only; omega
          · exact take_set_self _ _ _
          · exact drop_set_succ _ _ _

theorem prs_copy_back_forward (source_buffer : Bytes) (shift length : Nat) (st st1 : PrsState)
    (b : Bool) (h : prs_copy_back shift length st = .ok (b, st1)) :
    PrsForward source_buffer st st1 ∧ st1.source_pos = st.source_pos ∧ b = true := by
  unfold prs_copy_back at h
  split at h
  · cases h
  · rename_i st2 h2
    simp only [Except.ok.injEq, Prod.mk.injEq] at h
    obtain ⟨rfl, rfl⟩ := h
    obtain ⟨f, g, _⟩ := prs_back_reference_forward source_buffer _ _ _ _ h2
    exact ⟨f, g, rfl⟩

theorem prs_match_long_forward (source_buffer : Bytes) (tmp : Nat) (st st1 : PrsState)
    (b : Bool) (h : prs_match_long source_buffer tmp st = .ok (b, st1)) :
    PrsForward source_buffer st st1 := by
  unfold prs_match_long at h
  split at h
  · simp only [Except.ok.injEq, Prod.mk.injEq] at h
    obtain ⟨_, rfl⟩ := h
    exact PrsForward.refl_prs _ _
  · split at h
    · cases h
    · rename_i lo hlo
      have hlt := prs_source_read_lt _ _ _ hlo
      have f1 : PrsForward source_buffer st { st with source_pos := st.source_pos + 1 } :=
        PrsForward.of_source rfl rfl (Nat.le_succ _) hlt
      split at h
      · exact f1.trans_prs (prs_copy_back_forward source_buffer _ _ _ _ _ h).1
      · split at h
        · simp only [Except.ok.injEq, Prod.mk.injEq] at h
          obtain ⟨_, rfl⟩ := h
          exact f1
        · split at h
          · cases h
          · rename_i idx hidx
            have hlt2 := prs_source_read_lt _ _ _ hidx
            have f2 : PrsForward source_buffer st
                { st with source_pos := st.source_pos + 1 + 1 } :=
              PrsForward.of_source rfl rfl (by simp only; omega) hlt2
            exact f2.trans_prs (prs_copy_back_forward source_buffer _ _ _ _ _ h).1

theorem prs_match_forward (source_buffer : Bytes) (st st1 : PrsState) (b : Bool)
    (h : prs_match source_buffer st = .ok (b, st1)) :
    PrsForward source_buffer st st1 ∧ st.source_pos < st1.source_pos := by
  unfold prs_match at h
  split at h
  · cases h
  · rename_i tmp htmp
    have hlt := prs_source_read_lt _ _ _ htmp
    have f1 : PrsForward source_buffer st { st with source_pos := st.source_pos + 1 } :=
      PrsForward.of_source rfl rfl (Nat.le_succ _) hlt
    have fin : ∀ st2, PrsForward source_buffer { st with source_pos := st.source_pos + 1 } st2 →
        PrsForward source_buffer st st2 ∧ st.source_pos < st2.source_pos := by
      intro st2 f2
      have := f2.2.1
      simp only at this
      exact ⟨f1.trans_prs f2, by omega⟩
    split at h
    · split at h
      · split at h
        · cases h
        · rename_i st2 h2
          simp only [Except.ok.injEq, Prod.mk.injEq] at h
          obtain ⟨_, rfl⟩ := h
          exact fin _ (prs_raw_run_forward _ _ _ _ h2).1
      · exact fin _ (prs_copy_back_forward source_buffer _ _ _ _ _ h).1
    · exact fin _ (prs_match_long_forward _ _ _ _ _ h)

theorem prs_literal_forward (source_buffer : Bytes) (st st1 : PrsState) (b : Bool)
    (h : prs_literal source_buffer st = .ok (b, st1)) :
    PrsForward source_buffer st st1 ∧ (b = true → st.source_pos < st1.source_pos) := by
  unfold prs_literal at h
  split at h
  · simp only [Except.ok.injEq, Prod.mk.injEq] at h
    obtain ⟨rfl, rfl⟩ := h
    exact ⟨PrsForward.refl_prs _ _, fun h => by cases h⟩
  · split at h
    · cases h
    · rename_i st2 h2
      simp only [Except.ok.injEq, Prod.mk.injEq] at h
      obtain ⟨_, rfl⟩ := h
      obtain ⟨f, g, _⟩ := prs_copy_byte_forward _ _ _ h2
      exact ⟨f, fun _ => by omega⟩

theorem prs_decode_branch_forward (source_buffer : Bytes) (st st1 : PrsState) (b : Bool)
    (h : prs_decode_branch source_buffer st = .ok (b, st1)) :
    PrsForward source_buffer st st1 ∧ (b = true → st.source_pos < st1.source_pos) := by
  unfold prs_decode_branch at h
  split at h
  · exact prs_literal_forward _ _ _ _ h
  · have := prs_match_forward _ _ _ _ h
    exact ⟨this.1, fun _ => this.2⟩

/-- One pass of the loop: the frame of the pass, and a pass that does not leave
the loop consumes at least one source byte. -/
theorem prs_decode_step_forward (source_buffer : Bytes) (st st1 : PrsState) (b : Bool)
    (h : prs_decode_step source_buffer st = .ok (b, st1)) :
    PrsForward source_buffer st st1 ∧ (b = true → st.source_pos < st1.source_pos) := by
  unfold prs_decode_step at h
  split at h
  · split at h
    · rename_i hle
      simp only [Except.ok.injEq, Prod.mk.injEq] at h
      obtain ⟨rfl, rfl⟩ := h
      exact ⟨⟨rfl, Nat.le_refl _, fun h => h, Nat.le_refl _, fun h => h, rfl, rfl⟩,
        fun h => by cases h⟩
    · split at h
      · cases h
      · rename_i v hv
        have hlt := prs_source_read_lt _ _ _ hv
        have f1 : PrsForward source_buffer st
            { st with flag := (v.val <<< 1) + 1, source_pos := st.source_pos + 1 } :=
          PrsForward.of_source rfl rfl (Nat.le_succ _) hlt
        obtain ⟨f2, g2⟩ := prs_decode_branch_forward _ _ _ _ h
        have := f2.2.1
        simp only at this
        exact ⟨f1.trans_prs f2, fun _ => by omega⟩
  · have f1 : PrsForward source_buffer st { st with flag := st.flag <<< 1 } :=
      ⟨rfl, Nat.le_refl _, fun h => h, Nat.le_refl _, fun h => h, rfl, rfl⟩
    obtain ⟨f2, g2⟩ := prs_decode_branch_forward _ _ _ _ h
    exact ⟨f1.trans_prs f2, fun hb => g2 hb⟩

/-- The faults of the decoder: an access outside a buffer, or the assertion of
the back-reference. -/
theorem prs_source_read_fault (source_buffer : Bytes) (pos : Nat) (f : Fault)
    (h : prs_source_read source_buffer pos = .error f) : f = .memory := by
  unfold prs_source_read at h
  split at h
  · cases h
  · cases h; rfl

theorem prs_target_read_fault (target_buffer : Bytes) (pos : Nat) (f : Fault)
    (h : prs_target_read target_buffer pos = .error f) : f = .memory := by
  unfold prs_target_read at h
  split at h
  · cases h
  · cases h; rfl

theorem prs_target_write_fault (target_buffer : Bytes) (pos : Nat) (v : Byte) (f : Fault)
    (h : prs_target_write target_buffer pos v = .error f) : f = .memory := by
  unfold prs_target_write at h
  split at h
  · cases h
  · cases h; rfl

theorem prs_copy_byte_fault (source_buffer : Bytes) (st : PrsState) (f : Fault)
    (h : prs_copy_byte source_buffer st = .error f) : f = .memory := by
  unfold prs_copy_byte at h
  split at h
  · rename_i g hg
    cases h
    exact prs_source_read_fault _ _ _ hg
  · split at h
    · rename_i g hg
      cases h
      exact prs_target_write_fault _ _ _ _ hg
    · cases h

theorem prs_raw_run_fault (source_buffer : Bytes) (n : Nat) (st : PrsState) (f : Fault)
    (h : prs_raw_run source_buffer n st = .error f) : f = .memory := by
  induction n generalizing st with
  | zero => simp [prs_raw_run] at h
  | succ n ih =>
    unfold prs_raw_run at h
    split at h
    · cases h
    · split at h
      · rename_i g hg
        cases h
        exact prs_copy_byte_fault _ _ _ hg
      · exact ih _ h

theorem prs_back_reference_fault (shift n : Nat) (st : PrsState) (f : Fault)
    (h : prs_back_reference shift n st = .error f) : f = .memory ∨ f = .assertion := by
  induction n generalizing st with
  | zero => simp [prs_back_reference] at h
  | succ n ih =>
    unfold prs_back_reference at h
    split at h
    · cases h
    · split at h
      · cases h; exact Or.inr rfl
      · split at h
        · rename_i g hg
          cases h
          exact Or.inl (prs_target_read_fault _ _ _ hg)
        · split at h
          · rename_i g hg
            cases h
            exact Or.inl (prs_target_write_fault _ _ _ _ hg)
          · exact ih _ h

theorem prs_copy_back_fault (shift length : Nat) (st : PrsState) (f : Fault)
    (h : prs_copy_back shift length st = .error f) : f = .memory ∨ f = .assertion := by
  unfold prs_copy_back at h
  split at h
  · rename_i g hg
    cases h
    exact prs_back_reference_fault _ _ _ _ hg
  · cases h

theorem prs_match_long_fault (source_buffer : Bytes) (tmp : Nat) (st : PrsState) (f : Fault)
    (h : prs_match_long source_buffer tmp st = .error f) : f = .memory ∨ f = .assertion := by
  unfold prs_match_long at h
  split at h
  · cases h
  · split at h
    · rename_i g hg
      cases h
      exact Or.inl (prs_source_read_fault _ _ _ hg)
    · split at h
      · exact prs_copy_back_fault _ _ _ _ h
      · split at h
        · cases h
        · split at h
          · rename_i g hg
            cases h
            exact Or.inl (prs_source_read_fault _ _ _ hg)
          · exact prs_copy_back_fault _ _ _ _ h

theorem prs_match_fault (source_buffer : Bytes) (st : PrsState) (f : Fault)
    (h : prs_match source_buffer st = .error f) : f = .memory ∨ f = .assertion := by
  unfold prs_match at h
  split at h
  · rename_i g hg
    cases h
    exact Or.inl (prs_source_read_fault _ _ _ hg)
  · split at h
    · split at h
      · split at h
        · rename_i g hg
          cases h
          exact Or.inl (prs_raw_run_fault _ _ _ _ hg)
        · cases h
      · exact prs_copy_back_fault _ _ _ _ h
    · exact prs_match_long_fault _ _ _ _ h

theorem prs_literal_fault (source_buffer : Bytes) (st : PrsState) (f : Fault)
    (h : prs_literal source_buffer st = .error f) : f = .memory := by
  unfold prs_literal at h
  split at h
  · cases h
  · split at h
    · rename_i g hg
      cases h
      exact prs_copy_byte_fault _ _ _ hg
    · cases h

theorem prs_decode_branch_fault (source_buffer : Bytes) (st : PrsState) (f : Fault)
    (h : prs_decode_branch source_buffer st = .error f) : f = .memory ∨ f = .assertion := by
  unfold prs_decode_branch at h
  split at h
  · exact Or.inl (prs_literal_fault _ _ _ h)
  · exact prs_match_fault _ _ _ h

theorem prs_decode_step_fault (source_buffer : Bytes) (st : PrsState) (f : Fault)
    (h : prs_decode_step source_buffer st = .error f) : f = .memory ∨ f = .assertion := by
  unfold prs_decode_step at h
  split at h
  · split at h
    · cases h
    · split at h
      · rename_i g hg
        cases h
        exact Or.inl (prs_source_read_fault _ _ _ hg)
      · exact prs_decode_branch_fault _ _ _ h
  · exact prs_decode_branch_fault _ _ _ h

theorem prs_decode_step_not_fuel (source_buffer : Bytes) (st : PrsState) :
    prs_decode_step source_buffer st ≠ .error .fuel := by
  intro h
  rcases prs_decode_step_fault _ _ _ h with h | h <;> cases h

/-- With enough passes allowed the loop does not depend on the bound and never
exhausts it. -/
theorem prs_decode_loop_fuel (source_buffer : Bytes) (fuel1 fuel2 : Nat) (st : PrsState)
    (h1 : source_buffer.length + 1 - st.source_pos ≤ fuel1)
    (h2 : source_buffer.length + 1 - st.source_pos ≤ fuel2)
    (hs : st.source_pos ≤ source_buffer.length) :
    prs_decode_loop source_buffer fuel1 st = prs_decode_loop source_buffer fuel2 st
      ∧ prs_decode_loop source_buffer fuel1 st ≠ .error .fuel := by
  induction fuel1 generalizing fuel2 st with
  | zero => omega
  | succ n ih =>
    cases fuel2 with
    | zero => omega
    | succ m =>
      unfold prs_decode_loop
      cases hstep : prs_decode_step source_buffer st with
      | error f =>
        simp only [ne_eq, Except.error.injEq, true_and]
        intro hf
        subst hf
        exact absurd hstep (prs_decode_step_not_fuel _ _)
      | ok r =>
        obtain ⟨b, st1⟩ := r
        cases b with
        | false => simp
        | true =>
          simp only
          obtain ⟨f, g⟩ := prs_decode_step_forward _ _ _ _ hstep
          have g := g rfl
          have hb := f.2.2.1 hs
          exact ih m st1 (by omega) (by omega) hb

/-- The loop of `prs_decode_pixels` terminates: `source_size + 1` passes are
enough from the start. -/
theorem prs_decode_loop_total (source_buffer : Bytes) (target_buffer : Bytes) :
    prs_decode_loop source_buffer (source_buffer.length + 1)
        { source_pos := 0, target_buffer := target_buffer, target_pos := 0, flag := 0 }
      ≠ .error .fuel :=
  (prs_decode_loop_fuel source_buffer _ (source_buffer.length + 1) _ (by simp) (by simp)
    (Nat.zero_le _)).2

/-- What the loop as a whole keeps. -/
theorem prs_decode_loop_forward (source_buffer : Bytes) (fuel : Nat) (st st1 : PrsState)
    (h : prs_decode_loop source_buffer fuel st = .ok st1) :
    PrsForward source_buffer st st1 := by
  induction fuel generalizing st with
  | zero => simp [prs_decode_loop] at h
  | succ n ih =>
    unfold prs_decode_loop at h
    split at h
    · cases h
    · rename_i st2 h2
      simp only [Except.ok.injEq] at h
      subst h
      exact (prs_decode_step_forward _ _ _ _ h2).1
    · rename_i st2 h2
      exact (prs_decode_step_forward _ _ _ _ h2).1.trans_prs (ih _ h)

/-! ## The final pass -/

theorem getD_set (l : Bytes) (i j : Nat) (v d : Byte) :
    (l.set i v).getD j d = if i = j ∧ i < l.length then v else l.getD j d := by
  simp only [List.getD_eq_getElem?_getD, List.getElem?_set]
  by_cases h : i = j
  · subst h
    by_cases h2 : i < l.length
    · simp [h2]
    · simp [h2, List.getElem?_eq_none (Nat.le_of_not_lt h2)]
  · simp [h]

/-- The final pass after `k` turns of its loop. -/
theorem prs_delta_pass_turns (R : Bytes) (k : Nat) :
    ((List.range k).foldl
        (fun buf k => buf.set (k + 3) (buf.getD (k + 3) 0 + buf.getD k 0)) R).length = R.length
    ∧ (∀ i, i < 3 ∨ k + 3 ≤ i →
        ((List.range k).foldl
          (fun buf k => buf.set (k + 3) (buf.getD (k + 3) 0 + buf.getD k 0)) R).getD i 0
          = R.getD i 0)
    ∧ (∀ i, 3 ≤ i → i < k + 3 → i < R.length →
        ((List.range k).foldl
          (fun buf k => buf.set (k + 3) (buf.getD (k + 3) 0 + buf.getD k 0)) R).getD i 0
          = R.getD i 0
            + ((List.range k).foldl
                (fun buf k => buf.set (k + 3) (buf.getD (k + 3) 0 + buf.getD k 0)) R).getD
                (i - 3) 0) := by
  induction k with
  | zero =>
    refine ⟨rfl, fun _ _ => rfl, fun i h1 h2 _ => ?_⟩
    omega
  | succ k ih =>
    obtain ⟨h1, h2, h3⟩ := ih
    rw [List.range_succ, List.foldl_append]
    simp only [List.foldl_cons, List.foldl_nil]
    refine ⟨?_, ?_, ?_⟩
    · rw [List.length_set, h1]
    · intro i hi
      rw [getD_set, if_neg (by omega)]
      exact h2 i (by omega)
    · intro i hi1 hi2 hi3
      rw [getD_set, getD_set]
      by_cases e : k + 3 = i
      · subst e
        rw [if_pos ⟨rfl, by rw [h1]; exact hi3⟩, if_neg (by omega)]
        rw [h2 (k + 3) (Or.inr (Nat.le_refl _))]
        rfl
      · rw [if_neg (by omega), if_neg (by omega)]
        exact h3 i hi1 (by omega) hi3

theorem sum_range_succ_shift (f : Nat → Nat) (n : Nat) :
    ((List.range (n + 1)).map f).sum = f 0 + ((List.range n).map (fun j => f (j + 1))).sum := by
  rw [List.range_succ_eq_map, List.map_cons, List.sum_cons, List.map_map]
  rfl

/-- C14. Delta pass: if R is the target buffer when the loop of
`prs_decode_pixels` is left and F the buffer the function returns, then F is
the final pass applied to R, it has the size of R, F[i] = R[i] for i < 3,
and for every index i from 3 on F[i] = (R[i] + F[i-3]) mod 256, that is
F[i] is the sum of R[i], R[i-3], R[i-6], ... down to index i mod 3, taken
modulo 256. -/
theorem prs_delta_pass_sums (R : Bytes) :
    (prs_delta_pass R.length R).length = R.length
    ∧ (∀ i, i < 3 → (prs_delta_pass R.length R).getD i 0 = R.getD i 0)
    ∧ (∀ i, 3 ≤ i → i < R.length →
        (prs_delta_pass R.length R).getD i 0
          = R.getD i 0 + (prs_delta_pass R.length R).getD (i - 3) 0
        ∧ ((prs_delta_pass R.length R).getD i 0).val
          = ((R.getD i 0).val + ((prs_delta_pass R.length R).getD (i - 3) 0).val) % 256)
    ∧ (∀ i, i < R.length →
        ((prs_delta_pass R.length R).getD i 0).val
          = ((List.range (i / 3 + 1)).map (fun j => (R.getD (i - 3 * j) 0).val)).sum % 256)
    ∧ (∀ (image_width image_height : Nat) (source_buffer : Bytes) (fresh : Nat → Byte)
        (target_size : Nat) (st : PrsState),
        prs_target_size image_width image_height = .ok target_size →
        prs_decode_raw target_size source_buffer fresh = .ok st →
        st.target_buffer = R →
        prs_decode_pixels image_width image_height source_buffer fresh
          = .ok (true, prs_delta_pass R.length R, R.length)) := by
  obtain ⟨h1, h2, h3⟩ := prs_delta_pass_turns R (R.length - 3)
  have hrec : ∀ i, 3 ≤ i → i < R.length →
      (prs_delta_pass R.length R).getD i 0
        = R.getD i 0 + (prs_delta_pass R.length R).getD (i - 3) 0 :=
    fun i hi1 hi2 => h3 i hi1 (by omega) hi2
  have hlow : ∀ i, i < 3 → (prs_delta_pass R.length R).getD i 0 = R.getD i 0 :=
    fun i hi => h2 i (Or.inl hi)
  refine ⟨h1, hlow, fun i hi1 hi2 => ⟨hrec i hi1 hi2, ?_⟩, ?_, ?_⟩
  · rw [hrec i hi1 hi2, Fin.val_add]
  · intro i
    induction i using Nat.strong_induction_on with
    | _ i ih =>
      intro hi
      by_cases h3i : i < 3
      · rw [hlow i h3i]
        have e : i / 3 = 0 := Nat.div_eq_of_lt h3i
        rw [e]
        have r1 : List.range (0 + 1) = [0] := rfl
        rw [r1]
        simp only [List.map_cons, List.map_nil, List.sum_cons,
          List.sum_nil, Nat.mul_zero, Nat.sub_zero, Nat.add_zero]
        exact (Nat.mod_eq_of_lt (R.getD i 0).isLt).symm
      · have hge : 3 ≤ i := by omega
        have e : i / 3 = (i - 3) / 3 + 1 := by omega
        have e2 : (fun j => (R.getD (i - 3 * (j + 1)) 0).val)
            = (fun j => (R.getD (i - 3 - 3 * j) 0).val) := by
          funext j
          congr 2
          omega
        have hs : ((List.range (i / 3 + 1)).map (fun j => (R.getD (i - 3 * j) 0).val)).sum
            = (R.getD i 0).val
              + ((List.range ((i - 3) / 3 + 1)).map
                  (fun j => (R.getD (i - 3 - 3 * j) 0).val)).sum := by
          rw [e, sum_range_succ_shift, e2]
          rfl
        rw [hs, hrec i hge hi, Fin.val_add, ih (i - 3) (by omega) (by omega)]
        omega
  · intro w h source fresh n st hn hraw hR
    have hlen : st.target_buffer.length = n := by
      unfold prs_decode_raw at hraw
      split at hraw
      · cases hraw
      · have f := prs_decode_loop_forward _ _ _ _ hraw
        rw [f.1]
        simp
    unfold prs_decode_pixels
    rw [hn]
    simp only [hraw]
    rw [← hR, hlen]

/-! ## The size of the target buffer -/

theorem prs_delta_pass_length (target_size : Nat) (target_buffer : Bytes) :
    (prs_delta_pass target_size target_buffer).length = target_buffer.length := by
  unfold prs_delta_pass
  generalize List.range (target_size - 3) = l
  induction l generalizing target_buffer with
  | nil => rfl
  | cons k l ih =>
    simp only [List.foldl_cons]
    rw [ih, List.length_set]

theorem prs_decode_raw_length (target_size : Nat) (source_buffer : Bytes) (fresh : Nat → Byte)
    (st : PrsState) (h : prs_decode_raw target_size source_buffer fresh = .ok st) :
    st.target_buffer.length = target_size := by
  unfold prs_decode_raw at h
  split at h
  · cases h
  · have f := prs_decode_loop_forward _ _ _ _ h
    rw [f.1]
    simp

theorem prs_decode_raw_total (target_size : Nat) (source_buffer : Bytes) (fresh : Nat → Byte) :
    prs_decode_raw target_size source_buffer fresh ≠ .error .fuel := by
  unfold prs_decode_raw
  split
  · intro h; cases h
  · exact prs_decode_loop_total _ _

/-- C16. For 16-bit width and height whose product width * height * 3 does not
exceed `INT_MAX`, the target size is that product and every buffer
`prs_decode_pixels` returns has exactly that many bytes. The product is formed
in `int`: for every width and height with width * height * 3 above
`INT_MAX`, as for 65535 x 65535, the multiplication overflows and no buffer
of the mathematical size is made. The loop bound of the model is never what
stops a run. -/
theorem prs_decode_pixels_target_size :
    (∀ image_width image_height : Nat, image_width < 2 ^ 16 → image_height < 2 ^ 16 →
      image_width * image_height * 3 ≤ INT_MAX →
      prs_target_size image_width image_height = .ok (image_width * image_height * 3))
    ∧ (∀ (image_width image_height : Nat) (source_buffer : Bytes) (fresh : Nat → Byte)
        (b : Bool) (target_buffer : Bytes) (target_size : Nat),
        prs_decode_pixels image_width image_height source_buffer fresh
          = .ok (b, target_buffer, target_size) →
        b = true ∧ target_size = image_width * image_height * 3
          ∧ target_buffer.length = image_width * image_height * 3
          ∧ image_width * image_height * 3 ≤ INT_MAX)
    ∧ (∀ (image_width image_height : Nat) (source_buffer : Bytes) (fresh : Nat → Byte),
        INT_MAX < image_width * image_height * 3 →
        prs_decode_pixels image_width image_height source_buffer fresh = .error .overflow)
    ∧ (∀ (image_width image_height : Nat) (source_buffer : Bytes) (fresh : Nat → Byte),
        prs_decode_pixels image_width image_height source_buffer fresh ≠ .error .fuel)
    ∧ 65535 < 2 ^ 16
    ∧ prs_target_size 65535 65535 = .error .overflow
    ∧ prs_decode_pixels 65535 65535 [] (fun _ => 0) = .error .overflow
    ∧ prs_decode_pixels 2 1 [] (fun _ => 0) = .ok (true, [0, 0, 0, 0, 0, 0], 6) := by
  have hsize : ∀ w h n : Nat, prs_target_size w h = .ok n → n = w * h * 3 ∧ w * h * 3 ≤ INT_MAX := by
    intro w h n hn
    unfold prs_target_size at hn
    split at hn
    · cases hn
    · split at hn
      · cases hn
      · simp only [Except.ok.injEq] at hn
        exact ⟨hn.symm, by omega⟩
  have hover : ∀ w h : Nat, INT_MAX < w * h * 3 → prs_target_size w h = .error .overflow := by
    intro w h hlt
    unfold prs_target_size
    split
    · rfl
    · rfl
  refine ⟨?_, ?_, ?_, ?_, by decide, by decide, by decide, by decide⟩
  · intro w h _ _ hle
    unfold prs_target_size
    have : w * h ≤ w * h * 3 := Nat.le_mul_of_pos_right _ (by decide)
    rw [if_neg (by omega), if_neg (by omega)]
  · intro w h source fresh b buf n hr
    unfold prs_decode_pixels at hr
    split at hr
    · cases hr
    · rename_i m hm
      split at hr
      · cases hr
      · rename_i st hst
        simp only [Except.ok.injEq, Prod.mk.injEq] at hr
        obtain ⟨rfl, rfl, rfl⟩ := hr
        obtain ⟨e1, e2⟩ := hsize w h m hm
        refine ⟨rfl, e1, ?_, e2⟩
        rw [prs_delta_pass_length, prs_decode_raw_length _ _ _ _ hst, e1]
  · intro w h source fresh hlt
    unfold prs_decode_pixels
    rw [hover w h hlt]
  · intro w h source fresh hf
    unfold prs_decode_pixels at hf
    split at hf
    · rename_i f hf2
      cases hf
      unfold prs_target_size at hf2
      split at hf2
      · cases hf2
      · split at hf2 <;> cases hf2
    · split at hf
      · rename_i f hf2
        cases hf
        exact prs_decode_raw_total _ _ _ hf2
      · cases hf

/-! ## The bounds policy on the source -/

/-- On the one-byte source 0x80 the loop reads the control byte, finds its top
bit set, and reads `tmp` at offset 1 without a guard. -/
theorem prs_decode_raw_control_byte_last (target_size : Nat) (fresh : Nat → Byte)
    (h : target_size ≤ MALLOC_MAX) :
    prs_decode_raw target_size [0x80] fresh = .error .memory := by
  unfold prs_decode_raw
  rw [if_neg (by omega)]
  have r0 : prs_source_read [0x80] 0 = .ok 0x80 := rfl
  have r1 : prs_source_read [0x80] (0 + 1) = .error .memory := rfl
  have hstep : ∀ buf : Bytes, prs_decode_step [0x80]
      { source_pos := 0, target_buffer := buf, target_pos := 0, flag := 0 }
        = .error .memory := by
    intro buf
    unfold prs_decode_step
    dsimp only
    rw [if_pos (show (0 <<< 1) &&& 0xff = 0 from by decide),
      if_neg (show ¬ ([0x80] : Bytes).length ≤ 0 from by decide)]
    simp only [r0]
    unfold prs_decode_branch
    dsimp only
    rw [if_neg (show ¬ (((0x80 : Byte).val <<< 1) + 1) &&& 0x100 ≠ 0x100 from by decide)]
    unfold prs_match
    dsimp only
    simp only [r1]
  unfold prs_decode_loop
  rw [hstep]

/-- C12. The bounds policy does not hold for every source: when the last source
byte is a control byte whose first flag bit is set, as in the one-byte source
0x80, `int tmp = *source ++` (line 70) has no guard and reads the byte at
index `source_size`, whatever the width and height. The empty source and a
source that ends inside a literal run do stop early and return. -/
theorem prs_decode_pixels_reads_past_source :
    (∀ (image_width image_height : Nat) (fresh : Nat → Byte),
      image_width * image_height * 3 ≤ INT_MAX →
      prs_decode_pixels image_width image_height [0x80] fresh = .error .memory)
    ∧ prs_source_read [0x80] 1 = .error .memory
    ∧ prs_match [0x80]
        { source_pos := 1, target_buffer := [0, 0, 0], target_pos := 0, flag := 0x101 }
        = .error .memory
    ∧ prs_decode_pixels 1 1 [0x80] (fun _ => 0) = .error .memory
    ∧ prs_decode_pixels 1 1 [] (fun _ => 0) = .ok (true, [0, 0, 0], 3)
    ∧ prs_decode_pixels 1 1 [0x00, 5] (fun _ => 0) = .ok (true, [5, 0, 0], 3) := by
  refine ⟨?_, by decide, by decide, by decide, by decide, by decide⟩
  intro w h fresh hle
  have hs : prs_target_size w h = .ok (w * h * 3) := by
    unfold prs_target_size
    have : w * h ≤ w * h * 3 := Nat.le_mul_of_pos_right _ (by decide)
    rw [if_neg (by omega), if_neg (by omega)]
  unfold prs_decode_pixels
  rw [hs]
  simp only [prs_decode_raw_control_byte_last (w * h * 3) fresh
    (by unfold MALLOC_MAX; unfold INT_MAX at hle; omega)]

/-! ## The back-reference -/

/-- The loop of a back-reference that fits the output: it runs all its turns,
each byte written is the byte `shift` places before it, and nothing else
changes. -/
theorem prs_back_reference_fits (shift n : Nat) (st : PrsState)
    (hd : shift ≤ st.target_pos) (hn : st.target_pos + n ≤ st.target_buffer.length) :
    ∃ st1, prs_back_reference shift n st = .ok st1
      ∧ st1.target_pos = st.target_pos + n ∧ st1.source_pos = st.source_pos
      ∧ st1.flag = st.flag
      ∧ st1.target_buffer.length = st.target_buffer.length
      ∧ (∀ i, i < st.target_pos ∨ st.target_pos + n ≤ i →
          st1.target_buffer.getD i 0 = st.target_buffer.getD i 0)
      ∧ (∀ k, k < n →
          st1.target_buffer.getD (st.target_pos + k) 0
            = st1.target_buffer.getD (st.target_pos + k - shift) 0) := by
  induction n generalizing st with
  | zero =>
    refine ⟨st, rfl, rfl, rfl, rfl, rfl, fun _ _ => rfl, fun k hk => ?_⟩
    omega
  | succ n ih =>
    have hlt : st.target_pos < st.target_buffer.length := by omega
    have hrd : st.target_pos - shift < st.target_buffer.length := by omega
    obtain ⟨st1, h1, h2, h3, h4, h5, h6, h7⟩ := ih
      { st with
        target_buffer := st.target_buffer.set st.target_pos
          (st.target_buffer.get ⟨st.target_pos - shift, hrd⟩)
        target_pos := st.target_pos + 1 }
      (by simp only; omega) (by simp only [List.length_set]; omega)
    simp only [List.length_set] at h2 h3 h4 h5 h6 h7
    refine ⟨st1, ?_, by omega, h3, h4, h5, ?_, ?_⟩
    · unfold prs_back_reference
      rw [if_neg (by omega), if_neg (by omega), prs_target_read_ok _ _ hrd]
      simp only
      rw [prs_target_write_ok _ _ _ hlt]
      exact h1
    · intro i hi
      rw [h6 i (by omega), getD_set, if_neg (by omega)]
    · intro k hk
      cases k with
      | zero =>
        simp only [Nat.add_zero]
        have e1 := h6 st.target_pos (Or.inl (Nat.lt_succ_self _))
        rw [getD_set, if_pos ⟨rfl, hlt⟩] at e1
        by_cases hs : shift = 0
        · subst hs
          rfl
        · have e2 := h6 (st.target_pos - shift) (Or.inl (by omega))
          rw [getD_set, if_neg (by omega)] at e2
          rw [e1, e2, List.getD_eq_getElem _ _ hrd]
          rfl
      | succ k =>
        have := h7 k (by omega)
        have e1 : st.target_pos + (k + 1) = st.target_pos + 1 + k := by omega
        rw [e1]
        exact this

/-- C13. Overlap-correct back-reference: a back-reference of length n and
distance d = shift + 1 executed at output cursor c, with d <= c and c + n
within the output, ends with output[c + k] = output[c + k - d] for every
k < n, so that the last d bytes before c are repeated with period d; the
bytes before c and from c + n on are unchanged, the cursor is c + n, and
the source cursor does not move. -/
theorem prs_copy_back_overlap (shift n : Nat) (st : PrsState)
    (hd : shift + 1 ≤ st.target_pos) (hn : st.target_pos + n ≤ st.target_buffer.length) :
    ∃ st1, prs_copy_back shift n st = .ok (true, st1)
      ∧ st1.target_pos = st.target_pos + n ∧ st1.source_pos = st.source_pos
      ∧ st1.target_buffer.length = st.target_buffer.length
      ∧ (∀ i, i < st.target_pos ∨ st.target_pos + n ≤ i →
          st1.target_buffer.getD i 0 = st.target_buffer.getD i 0)
      ∧ (∀ k, k < n →
          st1.target_buffer.getD (st.target_pos + k) 0
            = st1.target_buffer.getD (st.target_pos + k - (shift + 1)) 0)
      ∧ (∀ k, k < n →
          st1.target_buffer.getD (st.target_pos + k) 0
            = st.target_buffer.getD (st.target_pos - (shift + 1) + k % (shift + 1)) 0) := by
  obtain ⟨st1, h1, h2, h3, _, h5, h6, h7⟩ := prs_back_reference_fits (shift + 1) n st hd hn
  refine ⟨st1, ?_, h2, h3, h5, h6, h7, ?_⟩
  · unfold prs_copy_back
    rw [h1]
  · intro k
    induction k using Nat.strong_induction_on with
    | _ k ih =>
      intro hk
      by_cases hs : k < shift + 1
      · rw [h7 k hk, Nat.mod_eq_of_lt hs, h6 _ (Or.inl (by omega))]
        congr 1
        omega
      · rw [h7 k hk]
        have e : st.target_pos + k - (shift + 1) = st.target_pos + (k - (shift + 1)) := by
          omega
        rw [e, ih (k - (shift + 1)) (by omega) (by omega)]
        have e2 : k % (shift + 1) = (k - (shift + 1)) % (shift + 1) :=
          Nat.mod_eq_sub_mod (by omega)
        rw [e2]

set_option maxRecDepth 100000 in
/-- Witness of C13: after the literal 0x58, a back-reference of length 5 at
distance 1 fills the output with six bytes 0x58; this is what the source
40 58 80 02 decodes to before the final pass, whatever the fresh buffer held. -/
theorem prs_copy_back_overlap_witness :
    (∃ st1, prs_copy_back 0 5
        { source_pos := 4, target_buffer := [0x58, 1, 2, 3, 4, 5], target_pos := 1
          flag := 0x102 } = .ok (true, st1)
      ∧ st1.target_pos = 1 + 5
      ∧ ∀ k, k < 5 → st1.target_buffer.getD (1 + k) 0 = st1.target_buffer.getD (1 + k - (0 + 1)) 0)
    ∧ prs_decode_raw 6 [0x40, 0x58, 0x80, 0x02] (fun i => u8 i)
        = .ok { source_pos := 4, target_buffer := [0x58, 0x58, 0x58, 0x58, 0x58, 0x58]
                target_pos := 6, flag := 0x204 } :=
  ⟨match prs_copy_back_overlap 0 5
      { source_pos := 4, target_buffer := [0x58, 1, 2, 3, 4, 5], target_pos := 1, flag := 0x102 }
      (by decide) (by decide) with
    | ⟨st1, h1, h2, _, _, _, h6, _⟩ => ⟨st1, h1, h2, h6⟩,
   by decide⟩

set_option maxRecDepth 100000 in
/-- The source 40 X 80 02 with an output of 6 bytes, for every byte X: one
literal, then five copies at distance 1. -/
theorem prs_decode_raw_repeat_example :
    ∀ X : Byte, prs_decode_raw 6 [0x40, X, 0x80, 0x02] (fun _ => 0)
        = .ok { source_pos := 4, target_buffer := [X, X, X, X, X, X]
                target_pos := 6, flag := 0x204 } := by
  decide

/-! ## Match decoding -/

theorem prs_source_read_drop (source_buffer rest : Bytes) (b : Byte) (p : Nat)
    (h : source_buffer.drop p = b :: rest) :
    prs_source_read source_buffer p = .ok b ∧ p < source_buffer.length
      ∧ source_buffer.drop (p + 1) = rest := by
  have hlt : p < source_buffer.length := by
    by_contra hn
    rw [List.drop_eq_nil_of_le (by omega)] at h
    cases h
  have e := List.drop_eq_getElem_cons hlt
  rw [e] at h
  simp only [List.cons.injEq] at h
  refine ⟨?_, hlt, h.2⟩
  rw [prs_source_read_ok _ _ hlt]
  exact congrArg _ h.1

set_option maxRecDepth 100000 in
theorem byte_bit_7 : ∀ t : Byte, t.val &&& 0x80 = 0x80 → ¬ t.val < 0x80 := by
  decide

set_option maxRecDepth 100000 in
theorem length_lookup_values :
    length_lookup.length = 256
    ∧ (∀ i, i ≤ 252 → length_lookup.getD i 0 = i + 3)
    ∧ length_lookup.getD 0xfd 0 = 256
    ∧ length_lookup.getD 0xfe 0 = 1024
    ∧ length_lookup.getD 0xff 0 = 4096 := by
  refine ⟨by decide, ?_, by decide, by decide, by decide⟩
  decide

/-- C15. For a match whose control byte tmp has bits 0x80 and 0x40 set, followed
by the source bytes lo and idx, `prs_decode_pixels` consumes the three bytes
and copies with distance (lo | ((tmp & 0x3f) << 8)) + 1 and with length
`length_lookup[idx]`, where the table holds i + 3 for every i in 0..252, 256
at 0xFD, 1024 at 0xFE and 4096 at 0xFF. -/
theorem prs_match_length_lookup (source_buffer rest : Bytes) (st : PrsState)
    (tmp lo idx : Byte) (hd : source_buffer.drop st.source_pos = tmp :: lo :: idx :: rest)
    (h80 : tmp.val &&& 0x80 = 0x80) (h40 : tmp.val &&& 0x40 = 0x40) :
    prs_match source_buffer st
        = (match prs_back_reference ((lo.val ||| ((tmp.val &&& 0x3f) <<< 8)) + 1)
              (length_lookup.getD idx.val 0)
              { st with source_pos := st.source_pos + 3 } with
            | .error f => .error f
            | .ok st1 => .ok (true, st1))
    ∧ length_lookup.length = 256
    ∧ (∀ i, i ≤ 252 → length_lookup.getD i 0 = i + 3)
    ∧ length_lookup.getD 0xfd 0 = 256
    ∧ length_lookup.getD 0xfe 0 = 1024
    ∧ length_lookup.getD 0xff 0 = 4096 := by
  refine ⟨?_, length_lookup_values⟩
  obtain ⟨r1, p1, d1⟩ := prs_source_read_drop _ _ _ _ hd
  obtain ⟨r2, p2, d2⟩ := prs_source_read_drop _ _ _ _ d1
  obtain ⟨r3, p3, _⟩ := prs_source_read_drop _ _ _ _ d2
  have hge : ¬ tmp.val < 0x80 := byte_bit_7 tmp h80
  have hne : ¬ tmp.val &&& 0x40 = 0 := by
    rw [h40]
    decide
  unfold prs_match
  rw [r1]
  dsimp only
  rw [if_neg hge]
  unfold prs_match_long
  dsimp only
  rw [if_neg (by omega), r2]
  dsimp only
  rw [if_neg hne, if_neg (by omega), r3]
  rfl

/-- Witness of C15: the control byte 0xC0 with lo = 0 and idx = 0xFF after one
produced byte copies 4096 bytes at distance 1, cut at the end of the output. -/
theorem prs_match_length_lookup_witness :
    prs_match [0xc0, 0x00, 0xff]
        { source_pos := 0, target_buffer := [7, 0, 0], target_pos := 1, flag := 0x102 }
      = (match prs_back_reference (((0x00 : Byte).val ||| (((0xc0 : Byte).val &&& 0x3f) <<< 8)) + 1)
            (length_lookup.getD (0xff : Byte).val 0)
            { source_pos := 0 + 3, target_buffer := [7, 0, 0], target_pos := 1, flag := 0x102 } with
          | .error f => .error f
          | .ok st1 => .ok (true, st1))
    ∧ prs_match [0xc0, 0x00, 0xff]
        { source_pos := 0, target_buffer := [7, 0, 0], target_pos := 1, flag := 0x102 }
      = .ok (true, { source_pos := 3, target_buffer := [7, 7, 7], target_pos := 3, flag := 0x102 }) :=
  ⟨(prs_match_length_lookup [0xc0, 0x00, 0xff] []
      { source_pos := 0, target_buffer := [7, 0, 0], target_pos := 1, flag := 0x102 }
      0xc0 0x00 0xff rfl (by decide) (by decide)).1, by decide⟩

/-! ## The all-zero source -/

theorem getD_replicate_zero (n i : Nat) : (List.replicate n (0 : Byte)).getD i 0 = 0 := by
  rw [List.getD_eq_getElem?_getD, List.getElem?_replicate]
  split <;> rfl

theorem set_replicate_zero (n i : Nat) :
    (List.replicate n (0 : Byte)).set i 0 = List.replicate n 0 := by
  apply List.ext_getElem?
  intro j
  rw [List.getElem?_set, List.getElem?_replicate]
  by_cases h : i = j
  · subst h
    rw [if_pos rfl, List.length_replicate]
  · rw [if_neg h]

theorem prs_delta_pass_zero (target_size n : Nat) :
    prs_delta_pass target_size (List.replicate n 0) = List.replicate n 0 := by
  unfold prs_delta_pass
  generalize List.range (target_size - 3) = l
  induction l with
  | nil => rfl
  | cons k l ih =>
    simp only [List.foldl_cons, getD_replicate_zero]
    rw [show (0 : Byte) + 0 = 0 from rfl, set_replicate_zero]
    exact ih

theorem prs_source_read_zero (source_buffer : Bytes) (h0 : ∀ b ∈ source_buffer, b = 0)
    (p : Nat) (hp : p < source_buffer.length) :
    prs_source_read source_buffer p = .ok 0 := by
  rw [prs_source_read_ok _ _ hp, h0 _ (List.get_mem _ _ _)]

/-- The literal branch on an all-zero source and an all-zero target buffer. -/
theorem prs_literal_zero (source_buffer : Bytes) (h0 : ∀ b ∈ source_buffer, b = 0) (n : Nat)
    (st : PrsState) (hb : st.target_buffer = List.replicate n 0) :
    prs_literal source_buffer st = .ok (false, st)
      ∨ prs_literal source_buffer st
        = .ok (true, { st with target_pos := st.target_pos + 1, source_pos := st.source_pos + 1 })
        ∧ st.source_pos < source_buffer.length := by
  unfold prs_literal
  split
  · exact Or.inl rfl
  · rename_i hg
    have h1 : st.source_pos < source_buffer.length := by omega
    have h2 : st.target_pos < st.target_buffer.length := by omega
    refine Or.inr ⟨?_, h1⟩
    unfold prs_copy_byte
    rw [prs_source_read_zero _ h0 _ h1]
    dsimp only
    rw [prs_target_write_ok _ _ _ h2]
    dsimp only
    have e : st.target_buffer.set st.target_pos 0 = st.target_buffer := by
      rw [hb, set_replicate_zero]
    rw [e]

/-- One pass of the loop on an all-zero source and an all-zero target buffer:
the pass leaves the loop, or copies one zero byte. -/
theorem prs_decode_step_zero (source_buffer : Bytes) (h0 : ∀ b ∈ source_buffer, b = 0)
    (n : Nat) (st : PrsState) (hb : st.target_buffer = List.replicate n 0)
    (hf : prs_flag_zero st.flag) :
    ∃ b st1, prs_decode_step source_buffer st = .ok (b, st1)
      ∧ st1.target_buffer = List.replicate n 0 ∧ (b = true → prs_flag_zero st1.flag) := by
  have lit : ∀ st2 : PrsState, st2.target_buffer = List.replicate n 0 →
      st2.flag &&& 0x100 ≠ 0x100 → prs_flag_zero st2.flag →
      ∃ b st1, prs_decode_branch source_buffer st2 = .ok (b, st1)
        ∧ st1.target_buffer = List.replicate n 0 ∧ (b = true → prs_flag_zero st1.flag) := by
    intro st2 hb2 hbit hfl
    unfold prs_decode_branch
    rw [if_pos hbit]
    rcases prs_literal_zero source_buffer h0 n st2 hb2 with h | ⟨h, _⟩
    · exact ⟨false, st2, h, hb2, fun h => by cases h⟩
    · exact ⟨true, _, h, hb2, fun _ => hfl⟩
  have refill : st.flag = 0 ∨ st.flag = 128 →
      ∃ b st1, prs_decode_step source_buffer st = .ok (b, st1)
        ∧ st1.target_buffer = List.replicate n 0 ∧ (b = true → prs_flag_zero st1.flag) := by
    intro hfl
    have hz : (st.flag <<< 1) &&& 0xff = 0 := by
      rcases hfl with h | h <;> rw [h] <;> decide
    unfold prs_decode_step
    rw [if_pos hz]
    split
    · exact ⟨false, _, rfl, hb, fun h => by cases h⟩
    · rename_i hlt
      rw [prs_source_read_zero _ h0 _ (by omega)]
      dsimp only
      exact lit _ hb (show (((0 : Byte).val <<< 1) + 1) &&& 0x100 ≠ 0x100 from by decide)
        (Or.inr (Or.inl rfl))
  have shift : ∀ v, st.flag = v → v <<< 1 &&& 0xff ≠ 0 → v <<< 1 &&& 0x100 ≠ 0x100 →
      prs_flag_zero (v <<< 1) →
      ∃ b st1, prs_decode_step source_buffer st = .ok (b, st1)
        ∧ st1.target_buffer = List.replicate n 0 ∧ (b = true → prs_flag_zero st1.flag) := by
    intro v hv h1 h2 h3
    unfold prs_decode_step
    rw [hv, if_neg h1]
    exact lit _ hb h2 h3
  unfold prs_flag_zero at hf
  rcases hf with h | h | h | h | h | h | h | h | h
  · exact refill (Or.inl h)
  · exact shift 1 h (by decide) (by decide) (by unfold prs_flag_zero; decide)
  · exact shift 2 h (by decide) (by decide) (by unfold prs_flag_zero; decide)
  · exact shift 4 h (by decide) (by decide) (by unfold prs_flag_zero; decide)
  · exact shift 8 h (by decide) (by decide) (by unfold prs_flag_zero; decide)
  · exact shift 16 h (by decide) (by decide) (by unfold prs_flag_zero; decide)
  · exact shift 32 h (by decide) (by decide) (by unfold prs_flag_zero; decide)
  · exact shift 64 h (by decide) (by decide) (by unfold prs_flag_zero; decide)
  · exact refill (Or.inr h)

theorem prs_decode_loop_zero (source_buffer : Bytes) (h0 : ∀ b ∈ source_buffer, b = 0)
    (n fuel : Nat) (st : PrsState) (hb : st.target_buffer = List.replicate n 0)
    (hf : prs_flag_zero st.flag) (hs : st.source_pos ≤ source_buffer.length)
    (hfuel : source_buffer.length + 1 - st.source_pos ≤ fuel) :
    ∃ st1, prs_decode_loop source_buffer fuel st = .ok st1
      ∧ st1.target_buffer = List.replicate n 0 := by
  induction fuel generalizing st with
  | zero => omega
  | succ m ih =>
    obtain ⟨b, st1, h1, h2, h3⟩ := prs_decode_step_zero source_buffer h0 n st hb hf
    unfold prs_decode_loop
    rw [h1]
    cases b with
    | false => exact ⟨st1, rfl, h2⟩
    | true =>
      obtain ⟨f, g⟩ := prs_decode_step_forward _ _ _ _ h1
      have g := g rfl
      exact ih st1 h2 (h3 rfl) (f.2.2.1 hs) (by omega)

/-- On an all-zero source with a fresh buffer of zero bytes `prs_decode_pixels`
returns zero bytes whenever the target size is formed, and stops where it is
not. -/
theorem prs_decode_pixels_zero_size (image_width image_height : Nat) (source_buffer : Bytes)
    (h0 : ∀ b ∈ source_buffer, b = 0) :
    prs_decode_pixels image_width image_height source_buffer (fun _ => 0)
      = match prs_target_size image_width image_height with
        | .error f => .error f
        | .ok target_size => .ok (true, List.replicate target_size 0, target_size) := by
  unfold prs_decode_pixels
  cases hsz : prs_target_size image_width image_height with
  | error f => rfl
  | ok target_size =>
    dsimp only
    have hle : target_size ≤ INT_MAX := by
      unfold prs_target_size at hsz
      split at hsz
      · cases hsz
      · split at hsz
        · cases hsz
        · simp only [Except.ok.injEq] at hsz
          omega
    have hbuf : (List.range target_size).map (fun _ => (0 : Byte))
        = List.replicate target_size 0 := by
      apply List.ext_getElem?
      intro i
      simp only [List.getElem?_map, List.getElem?_range, List.getElem?_replicate]
      by_cases h : i < target_size
      · simp [h, List.getElem?_range h]
      · simp [h, List.getElem?_eq_none (show (List.range target_size).length ≤ i by simp; omega)]
    obtain ⟨st1, h1, h2⟩ := prs_decode_loop_zero source_buffer h0 target_size
      (source_buffer.length + 1)
      { source_pos := 0, target_buffer := (List.range target_size).map (fun _ => (0 : Byte))
        target_pos := 0, flag := 0 }
      hbuf (Or.inl rfl) (Nat.zero_le _) (by simp)
    unfold prs_decode_raw
    rw [if_neg (by unfold MALLOC_MAX; unfold INT_MAX at hle; omega), h1]
    dsimp only
    rw [h2, prs_delta_pass_zero]

set_option maxRecDepth 100000 in
/-- C17. For every source buffer that consists only of zero bytes, with the fresh
buffer holding zero bytes: for every width and height whose product
width * height * 3 does not exceed `INT_MAX`, `prs_decode_pixels` returns a
buffer of width * height * 3 zero bytes (every control byte is all-literal,
every literal written is zero, and the final pass leaves the all-zero buffer
unchanged). It does not do so for every width and height: where
width * height * 3 exceeds `INT_MAX`, as for 65535 x 65535, the `int`
product of line 32 overflows and no output is made. -/
theorem prs_decode_pixels_zero_source (image_width image_height : Nat) (source_buffer : Bytes)
    (h0 : ∀ b ∈ source_buffer, b = 0) :
    (image_width * image_height * 3 ≤ INT_MAX →
      prs_decode_pixels image_width image_height source_buffer (fun _ => 0)
        = .ok (true, List.replicate (image_width * image_height * 3) 0,
            image_width * image_height * 3))
    ∧ (INT_MAX < image_width * image_height * 3 →
      prs_decode_pixels image_width image_height source_buffer (fun _ => 0)
        = .error .overflow)
    ∧ prs_decode_pixels 65535 65535 (List.replicate 8 0) (fun _ => 0) = .error .overflow := by
  have h := prs_decode_pixels_zero_size image_width image_height source_buffer h0
  refine ⟨?_, ?_, by decide⟩
  · intro hle
    have hs : prs_target_size image_width image_height
        = .ok (image_width * image_height * 3) := by
      unfold prs_target_size
      have : image_width * image_height ≤ image_width * image_height * 3 :=
        Nat.le_mul_of_pos_right _ (by decide)
      rw [if_neg (by omega), if_neg (by omega)]
    rw [h, hs]
  · intro hlt
    have hs : prs_target_size image_width image_height = .error .overflow := by
      unfold prs_target_size
      by_cases hw : INT_MAX < image_width * image_height
      · rw [if_pos hw]
      · rw [if_neg hw, if_pos hlt]
    rw [h, hs]

set_option maxRecDepth 100000 in
/-- Witness of C17: twelve zero bytes decoded into a 2 x 1 image. -/
theorem prs_decode_pixels_zero_source_witness :
    (2 * 1 * 3 ≤ INT_MAX →
      prs_decode_pixels 2 1 (List.replicate 12 0) (fun _ => 0)
        = .ok (true, List.replicate (2 * 1 * 3) 0, 2 * 1 * 3))
    ∧ prs_decode_pixels 2 1 (List.replicate 12 0) (fun _ => 0)
        = .ok (true, [0, 0, 0, 0, 0, 0], 6) :=
  ⟨(prs_decode_pixels_zero_source 2 1 (List.replicate 12 0) (by decide)).1,
    (prs_decode_pixels_zero_source 2 1 (List.replicate 12 0) (by decide)).1 (by decide)⟩

/-! ## The payload-free opcodes -/

/-- One pass of the loop over an opcode that skips `bs.length` operand bytes. -/
theorem rpa_unpickle_body_skip (c : Nat) (hc : c < 256) (n : Nat) (d bs rest : Bytes) (p : Nat)
    (ctx : RpaUnpickleContext) (hp : p ≤ d.length) (hd : d.drop p = u8 c :: (bs ++ rest))
    (hn : bs.length = n)
    (hs : ∀ s, rpa_unpickle_switch c s ctx = .ok (none, (io_skip s n).2, ctx)) :
    rpa_unpickle_body ⟨d, p⟩ ctx = .ok (none, ⟨d, p + 1 + n⟩, ctx) := by
  obtain ⟨r1, d1, p1⟩ := io_read_u8_drop d _ _ p hp hd
  obtain ⟨r2, _, _⟩ := io_skip_drop d bs rest (p + 1) p1 d1
  unfold rpa_unpickle_body
  rw [r1]
  simp only [u8_val c hc]
  rw [hs, ← hn, r2]

/-- C21 (as amended): in `rpa_unpickle` the payload-free opcodes are consumed and
ignored. The protocol marker 0x80 and the memo-store 'q' consume their byte
and 1 operand byte, the memo-store 'r' its byte and 4 operand bytes, and each
structural marker of the `switch` (append 'a', set-items 'u', mark '(', list
begin ']', dict begin '}' and tuple-of-1/2/3 0x85 0x86 0x87) only its own
byte; none of them changes the Bytes or the Integer sequence and the loop
goes on with the next opcode. The append-many opcode 'e' is not among them:
on it the pass returns `false`. -/
theorem rpa_unpickle_payload_free_opcodes :
    (∀ (c : Byte) (v : Byte) (d rest : Bytes) (p : Nat) (ctx : RpaUnpickleContext),
      c.val = PICKLE_PROTO ∨ c.val = PICKLE_BINPUT → p ≤ d.length →
      d.drop p = c :: v :: rest →
      rpa_unpickle_body ⟨d, p⟩ ctx = .ok (none, ⟨d, p + 2⟩, ctx))
    ∧ (∀ (c : Byte) (v1 v2 v3 v4 : Byte) (d rest : Bytes) (p : Nat) (ctx : RpaUnpickleContext),
      c.val = PICKLE_LONG_BINPUT → p ≤ d.length →
      d.drop p = c :: v1 :: v2 :: v3 :: v4 :: rest →
      rpa_unpickle_body ⟨d, p⟩ ctx = .ok (none, ⟨d, p + 5⟩, ctx))
    ∧ (∀ (c : Byte) (d rest : Bytes) (p : Nat) (ctx : RpaUnpickleContext),
      c.val = PICKLE_APPEND ∨ c.val = PICKLE_SETITEMS ∨ c.val = PICKLE_MARK
        ∨ c.val = PICKLE_EMPTY_LIST ∨ c.val = PICKLE_EMPTY_DICT
        ∨ c.val = PICKLE_TUPLE1 ∨ c.val = PICKLE_TUPLE2 ∨ c.val = PICKLE_TUPLE3 →
      p ≤ d.length → d.drop p = c :: rest →
      rpa_unpickle_body ⟨d, p⟩ ctx = .ok (none, ⟨d, p + 1⟩, ctx))
    ∧ (∀ (c : Byte) (d rest : Bytes) (p : Nat) (ctx : RpaUnpickleContext),
      c.val = PICKLE_APPENDS → p ≤ d.length → d.drop p = c :: rest →
      rpa_unpickle_body ⟨d, p⟩ ctx = .ok (some false, ⟨d, p + 1⟩, ctx))
    ∧ rpa_unpickle (io_create_from_buffer [0x80, 2, 0x5d, 0x28, 0x71, 1, 0x72, 0, 0, 0, 0,
          0x4b, 7, 0x85, 0x61, 0x7d, 0x75, 0x2e])
        { strings := [], string_lengths := [], numbers := [] }
      = .ok (true, ⟨[0x80, 2, 0x5d, 0x28, 0x71, 1, 0x72, 0, 0, 0, 0,
          0x4b, 7, 0x85, 0x61, 0x7d, 0x75, 0x2e], 18⟩,
          { strings := [], string_lengths := [], numbers := [7] }) := by
  have hu8 : ∀ c : Byte, u8 c.val = c := by
    intro c
    apply Fin.ext
    exact u8_val c.val c.isLt
  refine ⟨?_, ?_, ?_, ?_, by decide⟩
  · intro c v d rest p ctx hc hp hd
    have e : p + 2 = p + 1 + 1 := rfl
    rw [e]
    refine rpa_unpickle_body_skip c.val c.isLt 1 d [v] rest p ctx hp (by rw [hu8]; exact hd) rfl ?_
    rcases hc with h | h <;> rw [h] <;> intro s
    · exact rpa_unpickle_switch_proto s ctx
    · exact rpa_unpickle_switch_binput s ctx
  · intro c v1 v2 v3 v4 d rest p ctx hc hp hd
    have e : p + 5 = p + 1 + 4 := rfl
    rw [e]
    refine rpa_unpickle_body_skip c.val c.isLt 4 d [v1, v2, v3, v4] rest p ctx hp
      (by rw [hu8]; exact hd) rfl ?_
    rw [hc]
    intro s
    exact rpa_unpickle_switch_long_binput s ctx
  · intro c d rest p ctx hc hp hd
    obtain ⟨r1, _, _⟩ := io_read_u8_drop d _ _ p hp hd
    unfold rpa_unpickle_body
    rw [r1]
    exact rpa_unpickle_switch_structural c.val _ ctx hc
  · intro c d rest p ctx hc hp hd
    obtain ⟨r1, _, _⟩ := io_read_u8_drop d _ _ p hp hd
    unfold rpa_unpickle_body
    rw [r1]
    dsimp only
    rw [hc]
    exact rpa_unpickle_switch_default PICKLE_APPENDS _ ctx (by decide)

/-- Counterexample of C21: the append-many opcode 'e' in front of the stop marker
makes `rpa_unpickle` return `false` after the byte 'e', where the append
opcode 'a' is passed over and the stop marker is reached. -/
theorem rpa_unpickle_appends_unsupported :
    rpa_unpickle (io_create_from_buffer [0x65, 0x2e])
        { strings := [], string_lengths := [], numbers := [] }
      = .ok (false, ⟨[0x65, 0x2e], 1⟩, { strings := [], string_lengths := [], numbers := [] })
    ∧ rpa_unpickle (io_create_from_buffer [0x61, 0x2e])
        { strings := [], string_lengths := [], numbers := [] }
      = .ok (true, ⟨[0x61, 0x2e], 2⟩, { strings := [], string_lengths := [], numbers := [] })
    ∧ ¬ rpa_opcode_supported PICKLE_APPENDS := by
  refine ⟨by decide, by decide, by decide⟩

/-! ## The key field of the header -/

theorem rpa_read_hex_digit_pos (d : Bytes) (p a : Nat) (h : p < d.length) :
    (rpa_read_hex_digit (a, ⟨d, p⟩)).2 = ⟨d, p + 1⟩ := by
  have r := io_read_u8_at ⟨d, p⟩ h
  unfold rpa_read_hex_digit
  dsimp only
  rw [r]
  split
  · rfl
  split
  · rfl
  split
  · rfl
  · rfl

theorem rpa_read_hex_fold_pos (d : Bytes) (l : List Nat) (p : Nat) (acc : Nat × ByteStream)
    (ha : acc.2 = ⟨d, p⟩) (h : p + l.length ≤ d.length) :
    (l.foldl (fun acc _ => rpa_read_hex_digit acc) acc).2 = ⟨d, p + l.length⟩ := by
  induction l generalizing p acc with
  | nil => exact ha
  | cons i l ih =>
    simp only [List.foldl_cons, List.length_cons] at h ⊢
    have e : acc = (acc.1, ⟨d, p⟩) := by rw [← ha]
    have := ih (p + 1) (rpa_read_hex_digit acc)
      (by rw [e]; exact rpa_read_hex_digit_pos d p acc.1 (by omega)) (by omega)
    rw [this]
    congr 1
    omega

/-- `rpa_read_hex_number` consumes `length` bytes, whatever they are, when the
stream holds them. -/
theorem rpa_read_hex_number_pos (d : Bytes) (p n : Nat) (h : p + n ≤ d.length) :
    (rpa_read_hex_number ⟨d, p⟩ n).2 = ⟨d, p + n⟩ := by
  unfold rpa_read_hex_number
  have := rpa_read_hex_fold_pos d (List.range n) p (0, ⟨d, p⟩) rfl
    (by rw [List.length_range]; exact h)
  rw [List.length_range] at this
  exact this

set_option maxRecDepth 100000 in
/-- C22. Header fields in `rpa_unpack`: for sub-version 3 the key is the value of
the 8 ASCII hex digits that follow the 8-byte signature, the 16 bytes of the
table offset and one skipped separator byte (stream bytes 25..32), and the
cursor is left behind them; for sub-version 2 no key field is read, the
cursor is left behind the table offset and the key is 0, with which every
offset and size of the table is used as decoded. -/
theorem rpa_unpack_header_key :
    (∀ (text key rest : Bytes) (sep : Byte), text.length = 16 → key.length = 8 →
      (∀ b ∈ key, (hex_digit_value b).isSome) →
      rpa_unpack_header (io_create_from_buffer (rpa_magic_3 ++ (text ++ (sep :: (key ++ rest)))))
          = .ok (some ((rpa_read_hex_number
                ⟨rpa_magic_3 ++ (text ++ (sep :: (key ++ rest))), 8⟩ 16).1, hex_number key),
              ⟨rpa_magic_3 ++ (text ++ (sep :: (key ++ rest))), 33⟩)
        ∧ hex_number key < 2 ^ 32
        ∧ ((rpa_magic_3 ++ (text ++ (sep :: (key ++ rest)))).drop 25).take 8 = key)
    ∧ (∀ (text rest : Bytes), text.length = 16 →
      rpa_unpack_header (io_create_from_buffer (rpa_magic_2 ++ (text ++ rest)))
        = .ok (some ((rpa_read_hex_number ⟨rpa_magic_2 ++ (text ++ rest), 8⟩ 16).1, 0),
            ⟨rpa_magic_2 ++ (text ++ rest), 24⟩))
    ∧ (∀ (context : RpaUnpickleContext) (i : Nat),
        (rpa_decode_entry context 0 i).offset = context.numbers.getD (i * 2) 0 % 2 ^ 32
        ∧ (rpa_decode_entry context 0 i).size = context.numbers.getD (i * 2 + 1) 0 % 2 ^ 32)
    ∧ rpa_unpack_header (io_create_from_buffer
        (rpa_magic_3 ++ (rpa_hex_text_af ++ (0x20 :: ([0x34, 0x32, 0x34, 0x32, 0x34, 0x32, 0x34, 0x32]
          ++ [0x0a])))))
        = .ok (some (0xaf, 0x42424242),
            ⟨rpa_magic_3 ++ (rpa_hex_text_af ++ (0x20 :: ([0x34, 0x32, 0x34, 0x32, 0x34, 0x32, 0x34, 0x32]
              ++ [0x0a]))), 33⟩) := by
  refine ⟨?_, ?_, ?_, ?_⟩
  · intro text key rest sep ht hk hx
    have hlen : (rpa_magic_3 ++ (text ++ (sep :: (key ++ rest)))).length
        = 33 + rest.length := by
      simp only [List.length_append, List.length_cons, ht, hk]
      have : rpa_magic_3.length = 8 := rfl
      omega
    have hd : (rpa_magic_3 ++ (text ++ (sep :: (key ++ rest)))).drop 25 = key ++ rest := by
      have e : rpa_magic_3 ++ (text ++ (sep :: (key ++ rest)))
          = (rpa_magic_3 ++ text ++ [sep]) ++ (key ++ rest) := by simp
      have l : (rpa_magic_3 ++ text ++ [sep]).length = 25 := by
        simp only [List.length_append, List.length_cons, List.length_nil, ht]
        rfl
      rw [e, ← l, List.drop_left]
    have hkey := rpa_read_hex_number_drop _ key rest 25 (by omega) hd hx
    have hklt : hex_number key < 2 ^ 32 := by
      have := hex_number_lt key
      rw [hk] at this
      exact this
    rw [hk, Nat.mod_eq_of_lt hklt] at hkey
    have hpos := rpa_read_hex_number_pos (rpa_magic_3 ++ (text ++ (sep :: (key ++ rest)))) 8 16
      (by omega)
    refine ⟨?_, hklt, ?_⟩
    · unfold rpa_unpack_header
      rw [rpa_check_version_magic_3]
      dsimp only
      rw [if_pos rfl, hpos]
      have hskip : (io_skip ⟨rpa_magic_3 ++ (text ++ (sep :: (key ++ rest))), 8 + 16⟩ 1).2
          = ⟨rpa_magic_3 ++ (text ++ (sep :: (key ++ rest))), 25⟩ := by
        unfold io_skip io_seek
        dsimp only
        rw [if_pos (by omega)]
      rw [hskip, hkey]
    · rw [hd, ← hk, List.take_left]
  · intro text rest ht
    have hlen : (rpa_magic_2 ++ (text ++ rest)).length = 24 + rest.length := by
      simp only [List.length_append, ht]
      have : rpa_magic_2.length = 8 := rfl
      omega
    have hpos := rpa_read_hex_number_pos (rpa_magic_2 ++ (text ++ rest)) 8 16 (by omega)
    unfold rpa_unpack_header
    rw [rpa_check_version_magic_2]
    dsimp only
    rw [if_neg (by decide), if_pos rfl, hpos]
  · intro context i
    unfold rpa_decode_entry
    simp
  · decide

/-! ## The flag register -/

theorem prs_copy_back_flag (shift length : Nat) (st st1 : PrsState) (b : Bool)
    (h : prs_copy_back shift length st = .ok (b, st1)) : st1.flag = st.flag := by
  unfold prs_copy_back at h
  split at h
  · cases h
  · rename_i st2 h2
    simp only [Except.ok.injEq, Prod.mk.injEq] at h
    obtain ⟨_, rfl⟩ := h
    exact (prs_back_reference_forward [] _ _ _ _ h2).2.2

theorem prs_match_long_flag (source_buffer : Bytes) (tmp : Nat) (st st1 : PrsState) (b : Bool)
    (h : prs_match_long source_buffer tmp st = .ok (b, st1)) : st1.flag = st.flag := by
  unfold prs_match_long at h
  split at h
  · simp only [Except.ok.injEq, Prod.mk.injEq] at h
    obtain ⟨_, rfl⟩ := h
    rfl
  · split at h
    · cases h
    · split at h
      · exact (prs_copy_back_flag _ _ _ _ _ h :)
      · split at h
        · simp only [Except.ok.injEq, Prod.mk.injEq] at h
          obtain ⟨_, rfl⟩ := h
          rfl
        · split at h
          · cases h
          · exact (prs_copy_back_flag _ _ _ _ _ h :)

theorem prs_match_flag (source_buffer : Bytes) (st st1 : PrsState) (b : Bool)
    (h : prs_match source_buffer st = .ok (b, st1)) : st1.flag = st.flag := by
  unfold prs_match at h
  split at h
  · cases h
  · split at h
    · split at h
      · split at h
        · cases h
        · rename_i st2 h2
          simp only [Except.ok.injEq, Prod.mk.injEq] at h
          obtain ⟨_, rfl⟩ := h
          exact (prs_raw_run_forward _ _ _ _ h2).2
      · exact (prs_copy_back_flag _ _ _ _ _ h :)
    · exact (prs_match_long_flag _ _ _ _ _ h :)

theorem prs_literal_flag (source_buffer : Bytes) (st st1 : PrsState) (b : Bool)
    (h : prs_literal source_buffer st = .ok (b, st1)) : st1.flag = st.flag := by
  unfold prs_literal at h
  split at h
  · simp only [Except.ok.injEq, Prod.mk.injEq] at h
    obtain ⟨_, rfl⟩ := h
    rfl
  · split at h
    · cases h
    · rename_i st2 h2
      simp only [Except.ok.injEq, Prod.mk.injEq] at h
      obtain ⟨_, rfl⟩ := h
      exact (prs_copy_byte_forward _ _ _ h2).2.2.2.2

set_option maxRecDepth 1000000 in
/-- The register after a refill with the control byte `c` and `k` more shifts:
bit 8 is bit `7 - k` of `c`, the low 8 bits are not all zero before the 8th
shift, and they are after it. -/
theorem prs_flag_register_bits :
    ∀ c : Byte, ∀ k, k ≤ 7 →
      ((((c.val <<< 1) + 1) <<< k) &&& 0x100 = 0x100 ↔ c.val.testBit (7 - k) = true)
      ∧ (1 ≤ k → (((c.val <<< 1) + 1) <<< k) &&& 0xff ≠ 0)
      ∧ ((((c.val <<< 1) + 1) <<< 8) &&& 0xff = 0) := by
  decide

theorem shiftLeft_shiftLeft_one (x k : Nat) : (x <<< k) <<< 1 = x <<< (k + 1) := by
  simp only [Nat.shiftLeft_eq, pow_succ, Nat.mul_assoc, pow_zero, Nat.one_mul]

theorem and_255_eq_mod (f : Nat) : f &&& 0xff = f % 256 :=
  Nat.and_pow_two_sub_one_eq_mod f 8

theorem and_256_eq_mod (f : Nat) : f &&& 0x100 = (f % 512) &&& 0x100 := by
  have h : f &&& 511 = f % 512 := Nat.and_pow_two_sub_one_eq_mod f 9
  rw [← h, Nat.and_assoc]
  rfl

/-- C23. Flag register of `prs_decode_pixels`. A pass that starts with the
register at 0 (the first pass) or at its value after a refill and 7 more
shifts pulls a new control byte from the source, or leaves the loop when
there is none; a pass that starts with the register after a refill with the
control byte c and k <= 6 more shifts pulls no control byte. So a control
byte is pulled exactly once every 8 passes, the pass of the refill takes the
match branch if and only if bit 7 of the control byte is set, and the k-th
pass after it (k = 1..7) if and only if bit 7 - k is set. The branches leave
the register as it is, and the two tests on it only look at its bits 0..8. -/
theorem prs_flag_register :
    (∀ (source_buffer : Bytes) (st : PrsState) (c : Byte) (k : Nat), k ≤ 6 →
      st.flag = ((c.val <<< 1) + 1) <<< k →
      prs_decode_step source_buffer st
        = if c.val.testBit (6 - k) = true
          then prs_match source_buffer { st with flag := ((c.val <<< 1) + 1) <<< (k + 1) }
          else prs_literal source_buffer { st with flag := ((c.val <<< 1) + 1) <<< (k + 1) })
    ∧ (∀ (source_buffer : Bytes) (st : PrsState) (c : Byte),
      st.flag = 0 ∨ st.flag = ((c.val <<< 1) + 1) <<< 7 →
      (source_buffer.length ≤ st.source_pos →
        prs_decode_step source_buffer st = .ok (false, { st with flag := st.flag <<< 1 }))
      ∧ ∀ (c2 : Byte) (rest : Bytes), source_buffer.drop st.source_pos = c2 :: rest →
        prs_decode_step source_buffer st
          = if c2.val.testBit 7 = true
            then prs_match source_buffer
              { st with flag := (c2.val <<< 1) + 1, source_pos := st.source_pos + 1 }
            else prs_literal source_buffer
              { st with flag := (c2.val <<< 1) + 1, source_pos := st.source_pos + 1 })
    ∧ (∀ (source_buffer : Bytes) (st st1 : PrsState) (b : Bool),
      prs_literal source_buffer st = .ok (b, st1) ∨ prs_match source_buffer st = .ok (b, st1) →
      st1.flag = st.flag)
    ∧ (∀ f g : Nat, f % 512 = g % 512 →
      (f &&& 0xff = 0 ↔ g &&& 0xff = 0) ∧ (f &&& 0x100 ≠ 0x100 ↔ g &&& 0x100 ≠ 0x100)) := by
  refine ⟨?_, ?_, ?_, ?_⟩
  · intro source st c k hk hf
    obtain ⟨h1, h2, _⟩ := prs_flag_register_bits c (k + 1) (by omega)
    have e : 7 - (k + 1) = 6 - k := by omega
    rw [e] at h1
    unfold prs_decode_step
    rw [hf, shiftLeft_shiftLeft_one, if_neg (h2 (by omega))]
    unfold prs_decode_branch
    dsimp only
    by_cases hb : c.val.testBit (6 - k) = true
    · rw [if_pos hb, if_neg (by rw [h1.mpr hb]; decide)]
    · rw [if_neg hb, if_pos (fun h => hb (h1.mp h))]
  · intro source st c hf
    have hz : (st.flag <<< 1) &&& 0xff = 0 := by
      rcases hf with h | h
      · rw [h]; rfl
      · rw [h, shiftLeft_shiftLeft_one]
        exact (prs_flag_register_bits c 0 (by omega)).2.2
    refine ⟨?_, ?_⟩
    · intro hle
      unfold prs_decode_step
      rw [if_pos hz, if_pos hle]
    · intro c2 rest hd
      obtain ⟨r, hlt, _⟩ := prs_source_read_drop _ _ _ _ hd
      have h1 : ((c2.val <<< 1) + 1) &&& 0x100 = 0x100 ↔ c2.val.testBit 7 = true :=
        (prs_flag_register_bits c2 0 (by omega)).1
      unfold prs_decode_step
      rw [if_pos hz, if_neg (by omega), r]
      unfold prs_decode_branch
      dsimp only
      by_cases hb : c2.val.testBit 7 = true
      · rw [if_pos hb, if_neg (by rw [h1.mpr hb]; decide)]
      · rw [if_neg hb, if_pos (fun h => hb (h1.mp h))]
  · intro source st st1 b h
    rcases h with h | h
    · exact prs_literal_flag _ _ _ _ h
    · exact prs_match_flag _ _ _ _ h
  · intro f g h
    rw [and_255_eq_mod, and_255_eq_mod, and_256_eq_mod f, and_256_eq_mod g, h]
    refine ⟨?_, Iff.rfl⟩
    omega

/-! ## The short matches -/

/-- A raw run that fits both buffers copies its bytes from the source to the
output and moves both cursors by its length. -/
theorem prs_raw_run_fits (source_buffer : Bytes) (n : Nat) (st : PrsState)
    (hs : st.source_pos + n ≤ source_buffer.length)
    (ht : st.target_pos + n ≤ st.target_buffer.length) :
    ∃ st1, prs_raw_run source_buffer n st = .ok st1
      ∧ st1.source_pos = st.source_pos + n ∧ st1.target_pos = st.target_pos + n
      ∧ st1.flag = st.flag
      ∧ st1.target_buffer.length = st.target_buffer.length
      ∧ (∀ i, i < st.target_pos ∨ st.target_pos + n ≤ i →
          st1.target_buffer.getD i 0 = st.target_buffer.getD i 0)
      ∧ (∀ k, k < n →
          st1.target_buffer.getD (st.target_pos + k) 0
            = source_buffer.getD (st.source_pos + k) 0) := by
  induction n generalizing st with
  | zero =>
    refine ⟨st, rfl, rfl, rfl, rfl, rfl, fun _ _ => rfl, fun k hk => ?_⟩
    omega
  | succ n ih =>
    have h1 : st.source_pos < source_buffer.length := by omega
    have h2 : st.target_pos < st.target_buffer.length := by omega
    obtain ⟨st1, e1, e2, e3, e4, e5, e6, e7⟩ := ih
      { st with
        target_buffer := st.target_buffer.set st.target_pos (source_buffer.get ⟨st.source_pos, h1⟩)
        target_pos := st.target_pos + 1, source_pos := st.source_pos + 1 }
      (by simp only; omega) (by simp only [List.length_set]; omega)
    simp only [List.length_set] at e2 e3 e4 e5 e6 e7
    refine ⟨st1, ?_, by omega, by omega, e4, e5, ?_, ?_⟩
    · unfold prs_raw_run
      rw [if_neg (by omega)]
      unfold prs_copy_byte
      rw [prs_source_read_ok _ _ h1]
      dsimp only
      rw [prs_target_write_ok _ _ _ h2]
      exact e1
    · intro i hi
      rw [e6 i (by omega), getD_set, if_neg (by omega)]
    · intro k hk
      cases k with
      | zero =>
        simp only [Nat.add_zero]
        rw [e6 st.target_pos (Or.inl (Nat.lt_succ_self _)), getD_set, if_pos ⟨rfl, h2⟩,
          List.getD_eq_getElem _ _ h1]
        rfl
      | succ k =>
        have := e7 k (by omega)
        have a1 : st.target_pos + (k + 1) = st.target_pos + 1 + k := by omega
        have a2 : st.source_pos + (k + 1) = st.source_pos + 1 + k := by omega
        rw [a1, a2]
        exact this

set_option maxRecDepth 1000000 in
theorem prs_raw_run_length_range :
    ∀ t : Byte, t.val < 0x80 → 9 ≤ (t.val >>> 2) + 9 ∧ (t.val >>> 2) + 9 ≤ 40 := by
  decide

/-- C24. Match decoding in `prs_decode_pixels`, for every control byte tmp at the
source cursor. If tmp < 0x80 and tmp & 3 = 3, a raw run of (tmp >> 2) + 9
bytes (9..40) is copied from the source to the output. If tmp < 0x80
otherwise, a back-reference of length (tmp & 3) + 2 and distance
(tmp >> 2) + 1 is copied. If tmp >= 0x80 with bit 0x40 clear and the next
source byte is lo, with combined = lo | ((tmp & 0x3f) << 8), a
back-reference of length (combined & 0xf) + 3 and distance
(combined >> 4) + 1 is copied. A raw run that fits both buffers copies
exactly its bytes. -/
theorem prs_match_short_forms :
    (∀ (source_buffer rest : Bytes) (st : PrsState) (tmp : Byte),
      source_buffer.drop st.source_pos = tmp :: rest → tmp.val < 0x80 → tmp.val &&& 3 = 3 →
      prs_match source_buffer st
          = (match prs_raw_run source_buffer ((tmp.val >>> 2) + 9)
                { st with source_pos := st.source_pos + 1 } with
              | .error f => .error f
              | .ok st1 => .ok (true, st1))
        ∧ 9 ≤ (tmp.val >>> 2) + 9 ∧ (tmp.val >>> 2) + 9 ≤ 40)
    ∧ (∀ (source_buffer rest : Bytes) (st : PrsState) (tmp : Byte),
      source_buffer.drop st.source_pos = tmp :: rest → tmp.val < 0x80 → tmp.val &&& 3 ≠ 3 →
      prs_match source_buffer st
        = (match prs_back_reference ((tmp.val >>> 2) + 1) ((tmp.val &&& 3) + 2)
              { st with source_pos := st.source_pos + 1 } with
            | .error f => .error f
            | .ok st1 => .ok (true, st1)))
    ∧ (∀ (source_buffer rest : Bytes) (st : PrsState) (tmp lo : Byte),
      source_buffer.drop st.source_pos = tmp :: lo :: rest → 0x80 ≤ tmp.val →
      tmp.val &&& 0x40 = 0 →
      prs_match source_buffer st
        = (match prs_back_reference (((lo.val ||| ((tmp.val &&& 0x3f) <<< 8)) >>> 4) + 1)
              (((lo.val ||| ((tmp.val &&& 0x3f) <<< 8)) &&& 0xf) + 3)
              { st with source_pos := st.source_pos + 2 } with
            | .error f => .error f
            | .ok st1 => .ok (true, st1)))
    ∧ (∀ (source_buffer : Bytes) (n : Nat) (st : PrsState),
      st.source_pos + n ≤ source_buffer.length →
      st.target_pos + n ≤ st.target_buffer.length →
      ∃ st1, prs_raw_run source_buffer n st = .ok st1
        ∧ st1.source_pos = st.source_pos + n ∧ st1.target_pos = st.target_pos + n
        ∧ st1.target_buffer.length = st.target_buffer.length
        ∧ (∀ i, i < st.target_pos ∨ st.target_pos + n ≤ i →
            st1.target_buffer.getD i 0 = st.target_buffer.getD i 0)
        ∧ (∀ k, k < n →
            st1.target_buffer.getD (st.target_pos + k) 0
              = source_buffer.getD (st.source_pos + k) 0))
    ∧ prs_decode_raw 12 [0xe0, 0x03, 1, 2, 3, 4, 5, 6, 7, 8, 9, 0x04, 0x80, 0x13] (fun _ => 0)
        = .ok { source_pos := 14, target_buffer := [1, 2, 3, 4, 5, 6, 7, 8, 9, 8, 9, 8]
                target_pos := 12, flag := 0xe08 } := by
  refine ⟨?_, ?_, ?_, ?_, by decide⟩
  · intro source rest st tmp hd hlt h3
    obtain ⟨r, _, _⟩ := prs_source_read_drop _ _ _ _ hd
    refine ⟨?_, prs_raw_run_length_range tmp hlt⟩
    unfold prs_match
    rw [r]
    dsimp only
    rw [if_pos hlt, if_pos h3]
  · intro source rest st tmp hd hlt h3
    obtain ⟨r, _, _⟩ := prs_source_read_drop _ _ _ _ hd
    unfold prs_match
    rw [r]
    dsimp only
    rw [if_pos hlt, if_neg h3]
    rfl
  · intro source rest st tmp lo hd hge h40
    obtain ⟨r1, p1, d1⟩ := prs_source_read_drop _ _ _ _ hd
    obtain ⟨r2, p2, _⟩ := prs_source_read_drop _ _ _ _ d1
    unfold prs_match
    rw [r1]
    dsimp only
    rw [if_neg (by omega)]
    unfold prs_match_long
    dsimp only
    rw [if_neg (by omega), r2]
    dsimp only
    rw [if_pos h40]
    rfl
  · intro source n st hs ht
    obtain ⟨st1, h1, h2, h3, _, h5, h6, h7⟩ := prs_raw_run_fits source n st hs ht
    exact ⟨st1, h1, h2, h3, h5, h6, h7⟩

/-! ## The bounds policy on the output -/

theorem prs_copy_byte_guarded (source_buffer : Bytes) (st : PrsState)
    (h : ¬ (source_buffer.length ≤ st.source_pos ∨ st.target_buffer.length ≤ st.target_pos)) :
    ∃ st1, prs_copy_byte source_buffer st = .ok st1 := by
  have h1 : st.source_pos < source_buffer.length := by omega
  have h2 : st.target_pos < st.target_buffer.length := by omega
  unfold prs_copy_byte
  rw [prs_source_read_ok _ _ h1]
  dsimp only
  rw [prs_target_write_ok _ _ _ h2]
  exact ⟨_, rfl⟩

/-- The raw run never stops the run: every byte it copies is inside both
buffers. -/
theorem prs_raw_run_returns (source_buffer : Bytes) (n : Nat) (st : PrsState) :
    ∃ st1, prs_raw_run source_buffer n st = .ok st1 := by
  induction n generalizing st with
  | zero => exact ⟨st, rfl⟩
  | succ n ih =>
    unfold prs_raw_run
    split
    · exact ⟨st, rfl⟩
    · rename_i hg
      obtain ⟨st1, h1⟩ := prs_copy_byte_guarded source_buffer st hg
      rw [h1]
      exact ih st1

theorem prs_literal_returns (source_buffer : Bytes) (st : PrsState) :
    ∃ b st1, prs_literal source_buffer st = .ok (b, st1) := by
  unfold prs_literal
  split
  · exact ⟨false, st, rfl⟩
  · rename_i hg
    obtain ⟨st1, h1⟩ := prs_copy_byte_guarded source_buffer st hg
    rw [h1]
    exact ⟨true, st1, rfl⟩

/-- The back-reference stops the run only on its assertion: its reads and writes
are inside the target buffer. -/
theorem prs_back_reference_assertion (shift n : Nat) (st : PrsState) (f : Fault)
    (h : prs_back_reference shift n st = .error f) : f = .assertion := by
  induction n generalizing st with
  | zero => simp [prs_back_reference] at h
  | succ n ih =>
    unfold prs_back_reference at h
    split at h
    · cases h
    · rename_i hlen
      split at h
      · cases h; rfl
      · rw [prs_target_read_ok _ _ (show st.target_pos - shift < st.target_buffer.length by omega)]
          at h
        dsimp only at h
        rw [prs_target_write_ok _ _ _ (by omega)] at h
        exact ih _ h

/-- A back-reference at a distance within the produced bytes is cut at the end
of the output. -/
theorem prs_back_reference_cut (shift n : Nat) (st : PrsState) (hd : shift ≤ st.target_pos)
    (hb : st.target_pos ≤ st.target_buffer.length) :
    ∃ st1, prs_back_reference shift n st = .ok st1
      ∧ st1.target_pos = min (st.target_pos + n) st.target_buffer.length
      ∧ st1.target_buffer.length = st.target_buffer.length := by
  induction n generalizing st with
  | zero =>
    refine ⟨st, rfl, ?_, rfl⟩
    simp only [Nat.add_zero]
    omega
  | succ n ih =>
    unfold prs_back_reference
    by_cases hfull : st.target_buffer.length ≤ st.target_pos
    · rw [if_pos hfull]
      refine ⟨st, rfl, ?_, rfl⟩
      omega
    · rw [if_neg hfull, if_neg (by omega)]
      rw [prs_target_read_ok _ _ (show st.target_pos - shift < st.target_buffer.length by omega)]
      dsimp only
      rw [prs_target_write_ok _ _ _ (by omega)]
      obtain ⟨st1, h1, h2, h3⟩ := ih
        { st with
          target_buffer := st.target_buffer.set st.target_pos
            (st.target_buffer.get ⟨st.target_pos - shift, by omega⟩)
          target_pos := st.target_pos + 1 }
        (by simp only; omega) (by simp only [List.length_set]; omega)
      simp only [List.length_set] at h2 h3
      refine ⟨st1, h1, ?_, h3⟩
      omega

/-- C25. For every source buffer and every target buffer, each pass of the loop of
`prs_decode_pixels` keeps the size of the target buffer, moves the output
cursor forward only and keeps it within the size, so that the loop ends with
the cursor at most width * height * 3. A write at an index greater than or
equal to the output size would stop the run; the literal and the raw run
never stop it, and the back-reference stops it only on its assertion. A
back-reference that reaches the end of the output is cut short there, and at
a full output the copies and the literal do nothing. -/
theorem prs_target_cursor_bounded :
    (∀ (source_buffer : Bytes) (st st1 : PrsState) (b : Bool),
      prs_decode_step source_buffer st = .ok (b, st1) →
      st1.target_buffer.length = st.target_buffer.length ∧ st.target_pos ≤ st1.target_pos
        ∧ (st.target_pos ≤ st.target_buffer.length → st1.target_pos ≤ st1.target_buffer.length))
    ∧ (∀ (image_width image_height target_size : Nat) (source_buffer : Bytes)
        (fresh : Nat → Byte) (st : PrsState),
      prs_target_size image_width image_height = .ok target_size →
      prs_decode_raw target_size source_buffer fresh = .ok st →
      st.target_pos ≤ image_width * image_height * 3
        ∧ st.target_buffer.length = image_width * image_height * 3)
    ∧ (∀ (target_buffer : Bytes) (pos : Nat) (v : Byte), target_buffer.length ≤ pos →
      prs_target_write target_buffer pos v = .error .memory)
    ∧ (∀ (source_buffer : Bytes) (n : Nat) (st : PrsState),
      ∃ st1, prs_raw_run source_buffer n st = .ok st1)
    ∧ (∀ (source_buffer : Bytes) (st : PrsState),
      ∃ b st1, prs_literal source_buffer st = .ok (b, st1))
    ∧ (∀ (shift n : Nat) (st : PrsState) (f : Fault),
      prs_back_reference shift n st = .error f → f = .assertion)
    ∧ (∀ (shift n : Nat) (st : PrsState), shift ≤ st.target_pos →
      st.target_pos ≤ st.target_buffer.length →
      ∃ st1, prs_back_reference shift n st = .ok st1
        ∧ st1.target_pos = min (st.target_pos + n) st.target_buffer.length
        ∧ st1.target_buffer.length = st.target_buffer.length)
    ∧ (∀ (source_buffer : Bytes) (shift n : Nat) (st : PrsState),
      st.target_buffer.length ≤ st.target_pos →
      prs_back_reference shift n st = .ok st ∧ prs_raw_run source_buffer n st = .ok st
        ∧ prs_literal source_buffer st = .ok (false, st)) := by
  refine ⟨?_, ?_, prs_target_write_error, prs_raw_run_returns, prs_literal_returns,
    prs_back_reference_assertion, prs_back_reference_cut, ?_⟩
  · intro source st st1 b h
    obtain ⟨f, _⟩ := prs_decode_step_forward _ _ _ _ h
    exact ⟨f.1, f.2.2.2.1, fun hb => by rw [f.1]; exact f.2.2.2.2.1 hb⟩
  · intro w h n source fresh st hn hst
    have hlen := prs_decode_raw_length _ _ _ _ hst
    have hsz : n = w * h * 3 := by
      unfold prs_target_size at hn
      split at hn
      · cases hn
      · split at hn
        · cases hn
        · simp only [Except.ok.injEq] at hn
          exact hn.symm
    unfold prs_decode_raw at hst
    split at hst
    · cases hst
    · have f := prs_decode_loop_forward _ _ _ _ hst
      have := f.2.2.2.2.1 (Nat.zero_le _)
      simp only [List.length_map, List.length_range] at this
      rw [hlen, ← hsz]
      exact ⟨this, rfl⟩
  · intro source shift n st hfull
    refine ⟨?_, ?_, ?_⟩
    · cases n with
      | zero => rfl
      | succ n =>
        unfold prs_back_reference
        rw [if_pos hfull]
    · cases n with
      | zero => rfl
      | succ n =>
        unfold prs_raw_run
        rw [if_pos (Or.inr hfull)]
    · unfold prs_literal
      rw [if_pos (Or.inr hfull)]

/-! ## The assertion of the back-reference -/

/-- C26. In `prs_decode_pixels`, a back-reference of at least one byte whose
distance shift + 1 is greater than the number of bytes produced so far, met
while the output is not yet full, stops the run on the assertion
`target - shift >= start of the buffer` before any byte is copied. -/
theorem prs_copy_back_before_start (shift n : Nat) (st : PrsState) (hn : 1 ≤ n)
    (hd : st.target_pos < shift + 1) (hfull : st.target_pos < st.target_buffer.length) :
    prs_copy_back shift n st = .error .assertion := by
  unfold prs_copy_back
  cases n with
  | zero => omega
  | succ n =>
    unfold prs_back_reference
    rw [if_neg (by omega), if_pos hd]

/-- Witness of C26: the source 80 00 asks for a copy of 2 bytes at distance 1
before any byte was produced. -/
theorem prs_copy_back_before_start_witness :
    prs_copy_back 0 2 { source_pos := 2, target_buffer := [0, 0, 0], target_pos := 0, flag := 0x101 }
        = .error .assertion
    ∧ prs_decode_pixels 1 1 [0x80, 0x00] (fun _ => 0) = .error .assertion :=
  ⟨prs_copy_back_before_start 0 2
      { source_pos := 2, target_buffer := [0, 0, 0], target_pos := 0, flag := 0x101 }
      (by decide) (by decide) (by decide), by decide⟩

/-! ## Termination -/

theorem vector_resize_length (pixels : List Pixel) (n : Nat) :
    (vector_resize pixels n).length = n := by
  unfold vector_resize
  rw [List.length_append, List.length_take, List.length_replicate]
  omega

/-- The condition of `is_alphanumeric` asks for a character that is below '0'
and above '9' at once, so it never holds. -/
theorem is_alphanumeric_always (string : Bytes) : is_alphanumeric string = true := by
  induction string with
  | nil => rfl
  | cons b rest ih =>
    unfold is_alphanumeric
    rw [if_neg (by omega)]
    exact ih

set_option maxRecDepth 100000 in
/-- C29. `is_alphanumeric` returns `true` on every string, also on strings with
characters that are neither ASCII digits nor ASCII letters such as "!";
so `get_flag` accepts every argument that starts with a dash, `get_switch`
every one that starts with a dash and holds '=', and `arg_parser_parse`
records as stray exactly the arguments that do not start with a dash: "-!"
becomes the flag "!" and "--a!=b" the switch "a!" with value "b". -/
theorem is_alphanumeric_accepts_every_string :
    (∀ string : Bytes, is_alphanumeric string = true)
    ∧ is_alphanumeric [0x21] = true ∧ ¬ alphanumeric [0x21]
    ∧ (∀ argument : Bytes, argument.head? = some 0x2d →
        get_flag argument = (true, some (skip_dashes argument)))
    ∧ (∀ argument : Bytes, argument.head? ≠ some 0x2d →
        get_flag argument = (false, none) ∧ get_switch argument = .ok (false, none, none)
        ∧ ∀ self : ArgParser, arg_parser_parse_one self argument
            = .ok { self with stray := self.stray ++ [argument] })
    ∧ (∀ (argument : Bytes) (self : ArgParser), argument.head? = some 0x2d →
        ∃ parser, arg_parser_parse_one self argument = .ok parser
          ∧ parser.stray = self.stray)
    ∧ get_flag [0x2d, 0x21] = (true, some [0x21])
    ∧ get_switch [0x2d, 0x2d, 0x61, 0x21, 0x3d, 0x62] = .ok (true, some [0x61, 0x21], some [0x62])
    ∧ arg_parser_parse arg_parser_create
        [[0x2d, 0x21], [0x2d, 0x2d, 0x61, 0x21, 0x3d, 0x62], [0x78, 0x21]]
      = .ok { switches := [([0x61, 0x21], [0x62])], flags := [[0x21]], stray := [[0x78, 0x21]] } := by
  refine ⟨is_alphanumeric_always, by decide, by decide, ?_, ?_, ?_, by decide, by decide,
    by decide⟩
  · intro argument h
    unfold get_flag
    rw [if_neg (by rw [h]; simp), is_alphanumeric_always, if_neg (by simp)]
  · intro argument h
    have hf : get_flag argument = (false, none) := by
      unfold get_flag
      rw [if_pos h]
    have hs : get_switch argument = .ok (false, none, none) := by
      unfold get_switch
      rw [if_pos h]
    refine ⟨hf, hs, fun self => ?_⟩
    unfold arg_parser_parse_one
    rw [hs, hf]
  · intro argument self h
    have hf : get_flag argument = (true, some (skip_dashes argument)) := by
      unfold get_flag
      rw [if_neg (by rw [h]; simp), is_alphanumeric_always, if_neg (by simp)]
    unfold arg_parser_parse_one get_switch
    rw [if_neg (by rw [h]; simp)]
    cases (skip_dashes argument).indexOf? 0x3d with
    | none =>
      dsimp only
      rw [hf]
      exact ⟨_, rfl, rfl⟩
    | some value_ptr =>
      dsimp only
      rw [is_alphanumeric_always, if_neg (by simp)]
      exact ⟨_, rfl, rfl⟩


/-- `Grid::Grid (width, height)` makes a pixel vector of width * height elements,
the property `Grid::crop` starts from and keeps. -/
theorem Grid.create_count (width height : Nat) (h : width * height < 2 ^ 64) :
    (Grid.create width height).pixels.length = width * height
      ∧ (Grid.create width height).width = width
      ∧ (Grid.create width height).height = height := by
  refine ⟨?_, rfl, rfl⟩
  unfold Grid.create
  simp only [vector_resize_length]
  unfold size_t_of_nat SIZE_BITS
  exact Nat.mod_eq_of_lt h

end ArcUnpacker
